import Mathlib

/-!
# Verification of the C-RASP membership decider (`decider.py`)

This file gives a shallow embedding of the core decision procedure of the
repository: converting a DFA to a labelled multigraph, enumerating simple
cycles, solving the loop (Parikh) equations via a rational null space,
relabelling edges with potentials, checking separation, and combining the
per-SCC results.

Modelling conventions:

* Machine values are modelled exactly: symbols and state names are `Nat`,
  rational arithmetic is Lean's `ℚ` (sympy uses exact rationals as well).
* A label is either a raw symbol (`Label.sym`) or a rational column vector
  (`Label.vec`); the Python code stores vectors as sympy `Matrix` objects and
  converts them to tuples before any comparison or dictionary lookup, so the
  `tuple(...)` conversions are the identity in this embedding.
* Python `dict` iteration order is insertion order; `set` iteration order is
  unspecified, and the embedding fixes it to first-occurrence order.
* Fallible operations (`KeyError` on a missing transition entry) return
  `Option`.
-/

/-- An edge label: initially a raw alphabet symbol, after relabelling a
rational vector (sympy column `Matrix`, compared via its tuple of entries). -/
inductive Label where
  | sym : Nat → Label
  | vec : List ℚ → Label
deriving DecidableEq, Repr

/-- `isinstance(label, Matrix)` / `isinstance(edge_label, tuple)`:
whether a label is a (converted) vector rather than a raw symbol. -/
def Label.isVec : Label → Bool
  | .sym _ => false
  | .vec _ => true

/-- One edge of the multigraph: source node, target node, multigraph key
(the original symbol, as passed to `add_edge(key=sym)`), and current label. -/
structure Edge where
  src : Nat
  tgt : Nat
  key : Nat
  label : Label
deriving DecidableEq, Repr

/-- The labelled directed multigraph (`networkx.MultiDiGraph`): the node list
(in insertion order) and the edge list (in insertion order). -/
structure Graph where
  nodes : List Nat
  edges : List Edge
deriving DecidableEq, Repr

/-- An edge as it appears in path expansions: `(n1, n2, symbol)` triples. -/
abbrev PEdge := Nat × Nat × Label

/-- Deduplicate a list keeping the first occurrence of each element; this is
the embedding's fixed iteration order for Python's `list(set(...))`. -/
def dedupKeepFirst [DecidableEq α] (l : List α) : List α :=
  l.foldl (fun acc a => if a ∈ acc then acc else acc ++ [a]) []

/-- Insert the endpoints of an edge into the node list the way
`MultiDiGraph.add_edge` does (first appearance order). -/
def insertNode (ns : List Nat) (v : Nat) : List Nat :=
  if v ∈ ns then ns else ns ++ [v]

/-- The DFA object as the decider consumes it: a state list (Python set in
its iteration order) and the transition dictionary `state ↦ (symbol ↦ state)`
as association lists in insertion order. -/
structure PyDFA where
  states : List Nat
  transitions : List (Nat × List (Nat × Nat))
deriving DecidableEq, Repr

/-- `state_mapping`: built by assigning each state its index in `state_list`;
a later duplicate overwrites an earlier one, hence the reversed lookup. -/
def stateMapping (states : List Nat) (q : Nat) : Option Nat :=
  ((states.enum.map (fun p => (p.2, p.1))).reverse.lookup q)

/-- `automata_to_graph`: one edge per `(state, symbol)` entry of the
transition dictionary, labelled (and keyed) by the symbol; nodes appear in
edge-insertion order.  Returns `none` where Python raises `KeyError` (a state
missing from the transition dictionary, or a transition target that is not a
state). -/
def automata_to_graph (dfa : PyDFA) : Option Graph := do
  let step : Graph → Nat → Option Graph := fun g q => do
    let row ← dfa.transitions.lookup q
    row.foldlM (fun (g : Graph) (st : Nat × Nat) => do
      let i ← stateMapping dfa.states q
      let j ← stateMapping dfa.states st.2
      pure { nodes := insertNode (insertNode g.nodes i) j,
             edges := g.edges ++ [⟨i, j, st.1, Label.sym st.1⟩] }) g
  dfa.states.foldlM step ⟨[], []⟩

/-- `get_path_edges`: all expansions of a node path into concrete edge
sequences, one per choice of parallel multi-edge at every step (the Cartesian
product of parallel-edge choices), with `Matrix` labels converted to tuples
(the identity here). -/
def get_path_edges (G : Graph) : List Nat → List (List PEdge)
  | [] => []
  | [_] => []
  | first :: next :: rest =>
    let par := G.edges.filter (fun e => e.src = first ∧ e.tgt = next)
    match rest with
    | [] => par.map (fun e => [(first, next, e.label)])
    | _ :: _ =>
      par.flatMap (fun e =>
        (get_path_edges G (next :: rest)).map (fun sp => (first, next, e.label) :: sp))

/-- All simple cycles through `cur` back to `s` whose intermediate nodes are
`> s` and pairwise distinct; `visited` is the reversed node path so far. -/
def cyclesAux (G : Graph) (s : Nat) : Nat → Nat → List Nat → List (List Nat)
  | 0, _, _ => []
  | fuel + 1, cur, visited =>
    (G.edges.filter (fun e => e.src = cur)).flatMap (fun e =>
      if e.tgt = s then [visited.reverse]
      else if s < e.tgt ∧ e.tgt ∉ visited then
        cyclesAux G s fuel e.tgt (e.tgt :: visited)
      else [])

/-- `networkx.simple_cycles`: every simple (elementary) cycle of the graph as
a node list, each cycle listed once, rotated so that it starts at its minimal
node. -/
def simpleCycles (G : Graph) : List (List Nat) :=
  dedupKeepFirst (G.nodes.flatMap (fun s => cyclesAux G s G.nodes.length s [s]))

/-- `get_simple_cycles_edges`: every simple cycle expanded into its concrete
edge sequences via `get_path_edges` on `cycle + [cycle[0]]`. -/
def get_simple_cycles_edges (G : Graph) : List (List PEdge) :=
  (simpleCycles G).flatMap (fun c => get_path_edges G (c ++ [c.headD 0]))

/-- `list.index(x)` / `ordered_alphabet.index(sym)`: index of the first
occurrence (`length` when absent, where Python raises `ValueError`). -/
def idxOf (l : List Label) (a : Label) : Nat :=
  l.findIdx (fun b => b = a)

/-- Increment position `i` of a vector (`vec[index] += 1`); out of range is a
no-op (Python would have raised before reaching this point). -/
def addAt : List ℚ → Nat → List ℚ
  | [], _ => []
  | x :: xs, 0 => (x + 1) :: xs
  | x :: xs, n + 1 => x :: addAt xs n

/-- `loop_equations`: one Parikh row per cycle, counting at the index of each
traversed label in the ordered alphabet. -/
def loop_equations (ordered_alphabet : List Label) (cycles : List (List PEdge)) :
    List (List ℚ) :=
  cycles.map (fun c =>
    c.foldl (fun vec e => addAt vec (idxOf ordered_alphabet e.2.2))
      (List.replicate ordered_alphabet.length 0))

/-- Pointwise sum of two rational vectors (`Matrix + Matrix`, equal shapes in
every reachable use). -/
def addVecs (v w : List ℚ) : List ℚ := List.zipWith (· + ·) v w

/-- Replace the element at position `i`. -/
def setNth (l : List (List ℚ)) (i : Nat) (x : List ℚ) : List (List ℚ) :=
  l.set i x

/-- One column step of Gauss–Jordan reduction, as sympy's `rref` performs it:
find the first row at or below the current row with a nonzero entry in this
column, swap it up, scale it to a unit pivot, and eliminate the column from
all other rows. State: (rows, next pivot row, pivot column list). -/
def rrefStep (st : List (List ℚ) × Nat × List Nat) (c : Nat) :
    List (List ℚ) × Nat × List Nat :=
  let (rows, r, pivots) := st
  match (rows.drop r).findIdx? (fun row => row.getD c 0 ≠ 0) with
  | none => st
  | some k =>
    let i := r + k
    let pr := rows.getD i []
    let rows₁ := (setNth rows i (rows.getD r [])).set r pr
    let pv := pr.getD c 0
    let prn := pr.map (· / pv)
    let rows₂ := rows₁.enum.map (fun p =>
      if p.1 = r then prn
      else addVecs p.2 (prn.map (fun x => -(p.2.getD c 0) * x)))
    (rows₂, r + 1, pivots ++ [c])

/-- Reduced row echelon form over `ℚ` together with the pivot column list
(sympy `Matrix.rref`). -/
def rref (rows : List (List ℚ)) (ncols : Nat) : List (List ℚ) × List Nat :=
  let st := (List.range ncols).foldl rrefStep (rows, 0, [])
  (st.1, st.2.2)

/-- sympy `Matrix.nullspace`: from the rref, one basis vector per free
column `j` (in increasing column order) with entry `1` at `j` and
`-R[p][j]` at the `p`-th pivot column.  `Matrix(basis)` of an empty list is
the 0×0 matrix, whose null space is empty. -/
def nullspaceOf (basis : List (List ℚ)) : List (List ℚ) :=
  match basis with
  | [] => []
  | r0 :: _ =>
    let n := r0.length
    let Rp := rref basis n
    let pivots := Rp.2
    let free := (List.range n).filter (fun j => j ∉ pivots)
    free.map (fun j =>
      (List.range n).map (fun k =>
        if k = j then 1
        else match pivots.findIdx? (fun c => c = k) with
          | some p => -(((Rp.1.getD p []).getD j 0))
          | none => 0))

/-- The morphism dictionary built in `attack_scc`: symbol `i` of the ordered
alphabet is mapped to the column of the `i`-th entries of the null-space
basis vectors; a label outside the alphabet would be a `KeyError` in Python
and is mapped to a zero column here (never reached). -/
def morphismOf (ordered_alphabet : List Label) (ns : List (List ℚ)) :
    Label → List ℚ :=
  fun l => ns.map (fun nb => nb.getD (idxOf ordered_alphabet l) 0)

/-- `get_ordered_alphabet`: the deduplicated list of (tupled) edge labels, in
the embedding's fixed first-occurrence order for `list(set(...))`. -/
def get_ordered_alphabet (G : Graph) : List Label :=
  dedupKeepFirst (G.edges.map (fun e => e.label))

/-- `separated`: walk the edges recording each label's target; any label seen
again with a different target makes the graph unseparated. -/
def separatedAux : List Edge → List (Label × Nat) → Bool
  | [], _ => true
  | e :: rest, seen =>
    match seen.lookup e.label with
    | some v => if v = e.tgt then separatedAux rest seen else false
    | none => separatedAux rest ((e.label, e.tgt) :: seen)

/-- `separated(G)`: no two edges with the same (tupled) label have different
targets. -/
def separated (G : Graph) : Bool :=
  separatedAux G.edges []

/-- Breadth-first search for `nx.shortest_path`: `frontier` holds reversed
paths; each node is enqueued at most once, so `|nodes| + |edges| + 2` rounds
always suffice. -/
def bfsAux (G : Graph) (t : Nat) :
    Nat → List (List Nat) → List Nat → Option (List Nat)
  | 0, _, _ => none
  | fuel + 1, frontier, visited =>
    match frontier with
    | [] => none
    | p :: rest =>
      match p with
      | [] => none
      | cur :: _ =>
        if cur = t then some p.reverse
        else
          let succs := dedupKeepFirst
            (((G.edges.filter (fun e => e.src = cur)).map (fun e => e.tgt)).filter
              (fun v => v ∉ visited))
          bfsAux G t fuel (rest ++ succs.map (fun v => v :: p)) (visited ++ succs)

/-- `nx.shortest_path(G, source, target)`: a breadth-first shortest path from
`s` to `t` (`[]` where Python raises `NetworkXNoPath`; never reached inside an
SCC). -/
def shortest_path (G : Graph) (s t : Nat) : List Nat :=
  (bfsAux G t (G.nodes.length + G.edges.length + 2) [[s]] [s]).getD []

/-- The label of edge `(u, v, key)` in the graph `G` being relabelled
(`G[u][v][key]['label'].copy()` on line 120 reads the *original* graph, not
the working copy). -/
def origLabelOf (G : Graph) (u v key : Nat) (dflt : Label) : Label :=
  match G.edges.find? (fun g => g.src = u ∧ g.tgt = v ∧ g.key = key) with
  | some g => g.label
  | none => dflt

/-- The inner loop of `relabel`: every edge of the working copy between `u`
and `v` whose (tupled) label equals the visited edge's label is updated — a
raw symbol becomes the potential vector, while a vector label is replaced by
a copy of its label in the original graph `G` (the result of `col_join` is
discarded by the source, so no concatenation happens). -/
def relabelFn (G : Graph) (u v : Nat) (lab : Label) (vec : List ℚ)
    (e : Edge) : Edge :=
  if e.src = u ∧ e.tgt = v ∧ e.label = lab then
    if e.label.isVec then { e with label := origLabelOf G u v e.key e.label }
    else { e with label := Label.vec vec }
  else e

def relabelInner (G : Graph) (u v : Nat) (lab : Label) (vec : List ℚ)
    (gc : List Edge) : List Edge :=
  gc.map (relabelFn G u v lab vec)

/-- The potential vector `vec` computed for an edge out of `u` with label
`lab`: the morphism image of `lab`, plus the morphism images of the labels
along the first expansion of a shortest path from the start node to `u`. -/
def potentialVec (G : Graph) (start u : Nat) (morphism : Label → List ℚ)
    (lab : Label) : List ℚ :=
  let path := shortest_path G start u
  let path_edges := get_path_edges G path
  match path_edges with
  | [] => morphism lab
  | pe :: _ => pe.foldl (fun v pedge => addVecs v (morphism pedge.2.2)) (morphism lab)

/-- One outer-loop step of `relabel`: visit the edge at position `i` of the
working copy, read its current label, compute its potential, and run the
inner update. -/
def relabelStep (G : Graph) (start : Nat) (morphism : Label → List ℚ)
    (gc : List Edge) (i : Nat) : List Edge :=
  match gc.get? i with
  | none => gc
  | some e =>
    relabelInner G e.src e.tgt e.label
      (potentialVec G start e.src morphism e.label) gc

/-- `relabel(G, cycles, morphism)`: iterate over the edges of the working
copy (whose labels mutate as the iteration proceeds), updating labels; the
`cycles` argument is unused by the source as well.  The start node is the
first node of the graph. -/
def relabel (G : Graph) (cycles : List (List PEdge))
    (morphism : Label → List ℚ) : Graph :=
  let start := G.nodes.headD 0
  { G with
    edges := (List.range G.edges.length).foldl (relabelStep G start morphism) G.edges }

/-- One datum of the `attack_scc` loop state: the previous null space
(`None` before the first round). -/
abbrev PrevNS := Option (List (List ℚ))

/-- The `while True` loop of `attack_scc`, with explicit fuel: each round
recomputes the ordered alphabet, the simple-cycle edge sequences and the
null space of the loop equations, stops when the null space repeats or is
empty, and otherwise relabels and continues.  `none` means the fuel ran out
(`attackLoop_three_isSome` shows fuel 3 always suffices on well-formed
graphs, so this models the unbounded source loop faithfully). -/
def attackLoop : Nat → Graph → PrevNS → Option Graph
  | 0, _, _ => none
  | fuel + 1, G, prev =>
    let ordered_alphabet := get_ordered_alphabet G
    let cycles := get_simple_cycles_edges G
    let basis := loop_equations ordered_alphabet cycles
    let ns := nullspaceOf basis
    if some ns = prev then some G
    else if ns = [] then some G
    else attackLoop fuel (relabel G cycles (morphismOf ordered_alphabet ns)) (some ns)

/-- The graph on which `attack_scc` performs its final separation check (and
whose labels persist in the enclosing graph through the subgraph view). -/
def attack_scc_graph (G : Graph) : Graph :=
  (attackLoop 3 G none).getD G

/-- `attack_scc(G)`: whether the converged labelling separates the nodes. -/
def attack_scc (G : Graph) : Bool :=
  separated (attack_scc_graph G)

/-- One propagation pass of forward reachability: scan every edge once,
appending targets of already-reached sources. -/
def stepR (G : Graph) (s : List Nat) : List Nat :=
  G.edges.foldl
    (fun acc e => if e.src ∈ acc ∧ e.tgt ∉ acc then acc ++ [e.tgt] else acc) s

/-- Iterate a function `n` times. -/
def iterateN (f : α → α) : Nat → α → α
  | 0, a => a
  | n + 1, a => iterateN f n (f a)

/-- The set of nodes reachable from `v` (as a duplicate-free list):
`|edges| + 1` propagation passes always reach the fixed point. -/
def reachSet (G : Graph) (v : Nat) : List Nat :=
  iterateN (stepR G) (G.edges.length + 1) [v]

/-- Whether `u` is reachable from `v` in `G` (reflexively). -/
def reaches (G : Graph) (v u : Nat) : Bool :=
  u ∈ reachSet G v

/-- The strongly connected component of `v`: all nodes mutually reachable
with it, in node order. -/
def compOf (G : Graph) (v : Nat) : List Nat :=
  G.nodes.filter (fun u => reaches G v u ∧ reaches G u v)

/-- `nx.strongly_connected_components`: scan nodes in order; for each node not
yet assigned, emit its component. -/
def sccs (G : Graph) : List (List Nat) :=
  (G.nodes.foldl
    (fun (acc : List (List Nat) × List Nat) v =>
      if v ∈ acc.2 then acc
      else (acc.1 ++ [compOf G v], acc.2 ++ compOf G v))
    ([], [])).1

/-- `G.subgraph(component)`: the induced subgraph view — the nodes of the
component in graph order and every edge with both endpoints inside. -/
def subgraphOf (G : Graph) (c : List Nat) : Graph :=
  ⟨G.nodes.filter (fun v => v ∈ c),
   G.edges.filter (fun e => e.src ∈ c ∧ e.tgt ∈ c)⟩

/-- The label an edge of the big graph receives from the processed subgraph:
its own, unless an edge with the same `(src, tgt, key)` identity occurs in
the subgraph, in which case that edge's label. -/
def writeBackFn (sub : Graph) (e : Edge) : Edge :=
  match sub.edges.find? (fun f => f.src = e.src ∧ f.tgt = e.tgt ∧ f.key = e.key) with
  | some f => { e with label := f.label }
  | none => e

/-- Mutating labels through a subgraph view: each edge of the big graph whose
`(src, tgt, key)` identity occurs in the processed subgraph takes that
subgraph edge's label. -/
def writeBack (G : Graph) (sub : Graph) : Graph :=
  { G with edges := G.edges.map (writeBackFn sub) }

/-- Processing one component inside `decide_CRASP_membership`: run the
`attack_scc` loop on the component's subgraph view; the labels it rewrites
persist in the enclosing graph. -/
def processScc (G : Graph) (c : List Nat) : Graph :=
  writeBack G (attack_scc_graph (subgraphOf G c))

/-- The SCC loop of `decide_CRASP_membership`: attack each component's
subgraph in turn (its relabelling persists in the enclosing graph through the
view), returning `False` at the first component that is not separated. -/
def decideGo : Graph → List (List Nat) → Bool
  | _, [] => true
  | G, c :: rest =>
    if attack_scc (subgraphOf G c) then decideGo (processScc G c) rest else false

/-- `decide_CRASP_membership`: build the graph and AND the per-SCC results
(`none` models the `KeyError` Python raises on a malformed transition
dictionary). -/
def decide_CRASP_membership (dfa : PyDFA) : Option Bool :=
  (automata_to_graph dfa).map (fun G => decideGo G (sccs G))

/-- A chain of edges of `G` from `u` to `v` (a walk). -/
def edgeChain (G : Graph) : Nat → Nat → List Edge → Prop
  | u, v, [] => u = v
  | u, v, e :: es => e ∈ G.edges ∧ e.src = u ∧ edgeChain G e.tgt v es

/-- The sum of the morphism images of the labels along a walk. -/
def walkSum {M : Type} [AddCommMonoid M] (m : Label → M) (es : List Edge) : M :=
  (es.map (fun e => m e.label)).sum

/-- A simple cycle at `v` as a walk: a nonempty closed chain whose edge
sources (equivalently, whose visited nodes) are pairwise distinct. -/
def SimpleCycleW (G : Graph) (v : Nat) (es : List Edge) : Prop :=
  es ≠ [] ∧ edgeChain G v v es ∧ (es.map (fun e => e.src)).Nodup

/-! ## Characterisation of path expansion (claims C5, C10) -/

/-- `es` realises the node path `p`: one entry per consecutive node pair, in
`(source, target, label)` form, each backed by an actual edge of `G`. -/
def realizesB (G : Graph) : List Nat → List PEdge → Bool
  | [_], [] => true
  | u :: v :: rest, pe :: es =>
    (decide (pe.1 = u) && decide (pe.2.1 = v) &&
      G.edges.any (fun g => g.src = u ∧ g.tgt = v ∧ g.label = pe.2.2)) &&
    realizesB G (v :: rest) es
  | _, _ => false

theorem realizesB_cons_cons (G : Graph) (u v : Nat) (rest : List Nat)
    (pe : PEdge) (es : List PEdge) :
    realizesB G (u :: v :: rest) (pe :: es) = true ↔
      pe.1 = u ∧ pe.2.1 = v ∧
      (∃ g ∈ G.edges, g.src = u ∧ g.tgt = v ∧ g.label = pe.2.2) ∧
      realizesB G (v :: rest) es = true := by
  simp only [realizesB, Bool.and_eq_true, decide_eq_true_eq, List.any_eq_true]
  tauto

theorem mem_get_path_edges (G : Graph) :
    ∀ (p : List Nat) (es : List PEdge),
      es ∈ get_path_edges G p ↔ 2 ≤ p.length ∧ realizesB G p es = true := by
  intro p
  induction p with
  | nil => intro es; simp [get_path_edges, realizesB]
  | cons u rest ih =>
    cases rest with
    | nil => intro es; simp [get_path_edges, realizesB]
    | cons v rest' =>
      intro es
      have hlen : 2 ≤ (u :: v :: rest').length := by simp
      cases rest' with
      | nil =>
        simp only [get_path_edges]
        constructor
        · intro h
          rcases List.mem_map.mp h with ⟨e, he, rfl⟩
          rcases List.mem_filter.mp he with ⟨heG, hcond⟩
          simp only [decide_eq_true_eq, Bool.and_eq_true] at hcond
          refine ⟨hlen, ?_⟩
          rw [realizesB_cons_cons]
          exact ⟨rfl, rfl, ⟨e, heG, hcond.1, hcond.2, rfl⟩, rfl⟩
        · rintro ⟨-, hr⟩
          cases es with
          | nil => simp [realizesB] at hr
          | cons pe es' =>
            cases es' with
            | cons pe2 es'' =>
              rw [realizesB_cons_cons] at hr
              simp [realizesB] at hr
            | nil =>
              rw [realizesB_cons_cons] at hr
              obtain ⟨h1, h2, ⟨g, hg, hs, ht, hl⟩, -⟩ := hr
              apply List.mem_map.mpr
              refine ⟨g, List.mem_filter.mpr ⟨hg, by simp [hs, ht]⟩, ?_⟩
              obtain ⟨a, b, l⟩ := pe
              simp only at h1 h2
              subst h1; subst h2
              simp [hl]
      | cons w rest'' =>
        simp only [get_path_edges]
        constructor
        · intro h
          rcases List.mem_flatMap.mp h with ⟨e, he, hsp⟩
          rcases List.mem_map.mp hsp with ⟨sp, hspmem, rfl⟩
          rcases List.mem_filter.mp he with ⟨heG, hcond⟩
          simp only [decide_eq_true_eq, Bool.and_eq_true] at hcond
          refine ⟨hlen, ?_⟩
          rw [realizesB_cons_cons]
          exact ⟨rfl, rfl, ⟨e, heG, hcond.1, hcond.2, rfl⟩, ((ih sp).mp hspmem).2⟩
        · rintro ⟨-, hr⟩
          cases es with
          | nil => simp [realizesB] at hr
          | cons pe es' =>
            rw [realizesB_cons_cons] at hr
            obtain ⟨h1, h2, ⟨g, hg, hs, ht, hl⟩, hrest⟩ := hr
            apply List.mem_flatMap.mpr
            refine ⟨g, List.mem_filter.mpr ⟨hg, by simp [hs, ht]⟩, ?_⟩
            apply List.mem_map.mpr
            refine ⟨es', (ih es').mpr ⟨by simp, hrest⟩, ?_⟩
            obtain ⟨a, b, l⟩ := pe
            simp only at h1 h2
            subst h1; subst h2
            simp [hl]

theorem mem_dedupKeepFirst [DecidableEq α] (l : List α) (a : α) :
    a ∈ dedupKeepFirst l ↔ a ∈ l := by
  have key : ∀ (l acc : List α),
      a ∈ l.foldl (fun acc x => if x ∈ acc then acc else acc ++ [x]) acc ↔
        a ∈ acc ∨ a ∈ l := by
    intro l
    induction l with
    | nil => intro acc; simp
    | cons x xs ih =>
      intro acc
      simp only [List.foldl_cons]
      by_cases hx : x ∈ acc
      · rw [if_pos hx, ih]
        constructor
        · rintro (h | h)
          · exact Or.inl h
          · exact Or.inr (List.mem_cons_of_mem _ h)
        · rintro (h | h)
          · exact Or.inl h
          · rcases List.mem_cons.mp h with rfl | h
            · exact Or.inl hx
            · exact Or.inr h
      · rw [if_neg hx, ih]
        simp only [List.mem_append, List.mem_singleton, List.mem_cons]
        tauto
  rw [dedupKeepFirst, key]
  simp

theorem realizesB_label_mem (G : Graph) :
    ∀ (p : List Nat) (es : List PEdge) (e : PEdge),
      realizesB G p es = true → e ∈ es → e.2.2 ∈ G.edges.map (fun g => g.label) := by
  intro p
  induction p with
  | nil => intro es e hr he; cases es <;> simp [realizesB] at hr
  | cons u rest ih =>
    intro es e hr he
    cases rest with
    | nil =>
      cases es with
      | nil => simp at he
      | cons pe es' => simp [realizesB] at hr
    | cons v rest' =>
      cases es with
      | nil => simp at he
      | cons pe es' =>
        rw [realizesB_cons_cons] at hr
        obtain ⟨-, -, ⟨g, hg, -, -, hl⟩, hrest⟩ := hr
        rcases List.mem_cons.mp he with rfl | he'
        · exact List.mem_map.mpr ⟨g, hg, hl⟩
        · exact ih es' e hrest he'

/-- C5: `get_path_edges` returns exactly the edge-sequence expansions of a
node path — every member is a sequence of actual `G`-edges following the
consecutive node pairs (a valid walk, closed when the path is a cycle), and
conversely every such expansion (every combination of parallel-edge choices)
is a member; `get_simple_cycles_edges` is the union of those expansions over
all simple cycles, with the cycle closed by appending its first node. -/
theorem C5_cycle_expansion_exact (G : Graph) :
    (∀ (p : List Nat) (es : List PEdge),
      es ∈ get_path_edges G p ↔ 2 ≤ p.length ∧ realizesB G p es = true) ∧
    (∀ es : List PEdge,
      es ∈ get_simple_cycles_edges G ↔
        ∃ c, c ∈ simpleCycles G ∧ 2 ≤ (c ++ [c.headD 0]).length ∧
          realizesB G (c ++ [c.headD 0]) es = true) := by
  refine ⟨mem_get_path_edges G, fun es => ?_⟩
  simp only [get_simple_cycles_edges, List.mem_flatMap, mem_get_path_edges]

/-- C10: every label occurring on an edge of a cycle produced by
`get_simple_cycles_edges` is a member of the ordered alphabet computed from
the same graph, and its `index` lookup succeeds (is in range), so
`loop_equations` never raises `ValueError`. -/
theorem C10_cycle_labels_in_alphabet (G : Graph) (c : List PEdge) (e : PEdge)
    (hc : c ∈ get_simple_cycles_edges G) (he : e ∈ c) :
    e.2.2 ∈ get_ordered_alphabet G ∧
      idxOf (get_ordered_alphabet G) e.2.2 < (get_ordered_alphabet G).length := by
  rcases List.mem_flatMap.mp hc with ⟨cyc, -, hpath⟩
  have hr := ((mem_get_path_edges G _ _).mp hpath).2
  have hmem : e.2.2 ∈ get_ordered_alphabet G := by
    rw [get_ordered_alphabet, mem_dedupKeepFirst]
    exact realizesB_label_mem G _ _ _ hr he
  refine ⟨hmem, ?_⟩
  exact List.findIdx_lt_length_of_exists ⟨e.2.2, hmem, by simp⟩

/-! ## Structural properties of `relabel` (claims C2, C3, C9) -/

/-- The structural identity of an edge: everything except its label. -/
def skel (e : Edge) : Nat × Nat × Nat := (e.src, e.tgt, e.key)

/-- All labels are raw symbols (round-1 graphs). -/
def allSymG (G : Graph) : Prop := ∀ e ∈ G.edges, e.label.isVec = false

/-- All labels are vectors (graphs after the first relabelling round). -/
def allVecG (G : Graph) : Prop := ∀ e ∈ G.edges, e.label.isVec = true

/-- Parallel edges carry distinct labels (true of every graph built by
`automata_to_graph`, whose labels are the distinct multigraph keys). -/
def parallelDistinct (G : Graph) : Prop :=
  G.edges.Pairwise (fun e f => e.src = f.src → e.tgt = f.tgt → e.label ≠ f.label)

/-- Edge structural identities are pairwise distinct (networkx stores one
edge per `(src, tgt, key)` triple). -/
def skelNodup (G : Graph) : Prop := (G.edges.map skel).Nodup

theorem foldl_preserves {α : Type _} {β : Type _} {P : α → Prop} (f : α → β → α)
    (h : ∀ x b, P x → P (f x b)) : ∀ (l : List β) (a : α), P a → P (l.foldl f a) := by
  intro l
  induction l with
  | nil => intro a ha; exact ha
  | cons x xs ih => intro a ha; exact ih (f a x) (h a x ha)

theorem skel_relabelFn (G : Graph) (u v : Nat) (lab : Label) (vec : List ℚ)
    (e : Edge) : skel (relabelFn G u v lab vec e) = skel e := by
  rw [relabelFn]
  split_ifs <;> rfl

theorem skel_relabelInner (G : Graph) (u v : Nat) (lab : Label) (vec : List ℚ)
    (gc : List Edge) : (relabelInner G u v lab vec gc).map skel = gc.map skel := by
  rw [relabelInner, List.map_map]
  apply List.map_congr_left
  intro e _
  exact skel_relabelFn ..

theorem skel_relabelStep (G : Graph) (start : Nat) (m : Label → List ℚ)
    (gc : List Edge) (i : Nat) :
    (relabelStep G start m gc i).map skel = gc.map skel := by
  rw [relabelStep]
  cases h : gc.get? i with
  | none => rfl
  | some e => exact skel_relabelInner ..

theorem skel_relabel (G : Graph) (cycles : List (List PEdge))
    (m : Label → List ℚ) :
    (relabel G cycles m).nodes = G.nodes ∧
      (relabel G cycles m).edges.map skel = G.edges.map skel := by
  refine ⟨rfl, ?_⟩
  show ((List.range G.edges.length).foldl (relabelStep G (G.nodes.headD 0) m)
      G.edges).map skel = G.edges.map skel
  exact foldl_preserves _
    (fun gc i h => (skel_relabelStep G (G.nodes.headD 0) m gc i).trans h)
    _ _ rfl

theorem origLabelOf_eq (G : Graph) (hnd : skelNodup G) (f : Edge)
    (hf : f ∈ G.edges) (dflt : Label) :
    origLabelOf G f.src f.tgt f.key dflt = f.label := by
  rw [origLabelOf]
  cases h : G.edges.find? (fun g => g.src = f.src ∧ g.tgt = f.tgt ∧ g.key = f.key) with
  | none =>
    exact absurd (by simp : (fun g : Edge => decide (g.src = f.src ∧ g.tgt = f.tgt ∧ g.key = f.key)) f = true)
      (List.find?_eq_none.mp h f hf)
  | some g =>
    have hg := List.mem_of_find?_eq_some h
    have hp := List.find?_some h
    simp only [decide_eq_true_eq] at hp
    have : g = f :=
      List.inj_on_of_nodup_map hnd hg hf (by simp [skel, hp.1, hp.2.1, hp.2.2])
    rw [this]

theorem relabelFn_allVec_eq (G : Graph) (hnd : skelNodup G) (u v : Nat)
    (lab : Label) (vec : List ℚ) (f : Edge) (hf : f ∈ G.edges)
    (hv : f.label.isVec = true) : relabelFn G u v lab vec f = f := by
  rw [relabelFn]
  by_cases h : f.src = u ∧ f.tgt = v ∧ f.label = lab
  · rw [if_pos h, if_pos hv]
    obtain ⟨h1, h2, -⟩ := h
    subst h1; subst h2
    rw [origLabelOf_eq G hnd f hf]
  · rw [if_neg h]

/-- Round ≥ 2 of `relabel` is the identity: on a graph whose labels are all
vectors, every edge hits the `col_join` branch, whose result the source
discards — it re-assigns each edge the copy of its own original label. -/
theorem relabel_allVec_eq (G : Graph) (hnd : skelNodup G) (hv : allVecG G)
    (cycles : List (List PEdge)) (m : Label → List ℚ) :
    relabel G cycles m = G := by
  have hfold : (List.range G.edges.length).foldl
      (relabelStep G (G.nodes.headD 0) m) G.edges = G.edges := by
    apply foldl_preserves (P := fun gc => gc = G.edges)
    · intro gc i hgc
      subst hgc
      rw [relabelStep]
      cases h : G.edges.get? i with
      | none => rfl
      | some e =>
        show relabelInner G e.src e.tgt e.label
          (potentialVec G (G.nodes.headD 0) e.src m e.label) G.edges = G.edges
        rw [relabelInner]
        have : ∀ f ∈ G.edges,
            relabelFn G e.src e.tgt e.label
              (potentialVec G (G.nodes.headD 0) e.src m e.label) f = f := by
          intro f hf
          exact relabelFn_allVec_eq G hnd _ _ _ _ f hf (hv f hf)
        rw [List.map_congr_left this]
        simp
    · rfl
  show { G with edges := _ } = G
  rw [hfold]

/-- The effect of round-1 `relabel` on a single edge: its label becomes the
potential vector computed from its source and (original) label. -/
def relabelUpd (G : Graph) (start : Nat) (m : Label → List ℚ) (e : Edge) : Edge :=
  { e with label := Label.vec (potentialVec G start e.src m e.label) }

theorem fold_relabel_closed (G : Graph) (start : Nat) (m : Label → List ℚ)
    (hs : allSymG G) (hpd : parallelDistinct G) :
    ∀ i, i ≤ G.edges.length →
      (List.range i).foldl (relabelStep G start m) G.edges
        = (G.edges.take i).map (relabelUpd G start m) ++ G.edges.drop i := by
  intro i
  induction i with
  | zero => intro _; simp
  | succ i ih =>
    intro hi
    have hi' : i < G.edges.length := hi
    rw [List.range_succ, List.foldl_append, ih (le_of_lt hi')]
    have hA : ((G.edges.take i).map (relabelUpd G start m)).length = i := by
      simp [Nat.min_eq_left (le_of_lt hi')]
    have hdrop : G.edges.drop i = G.edges[i] :: G.edges.drop (i + 1) :=
      List.drop_eq_getElem_cons hi'
    rw [hdrop]
    simp only [List.foldl_cons, List.foldl_nil]
    rw [relabelStep]
    have hget : (((G.edges.take i).map (relabelUpd G start m)) ++
        G.edges[i] :: G.edges.drop (i + 1)).get? i = some G.edges[i] := by
      rw [List.get?_append_right (le_of_eq hA), hA]
      simp
    rw [hget]
    show relabelInner G (G.edges[i]).src (G.edges[i]).tgt (G.edges[i]).label
        (potentialVec G start (G.edges[i]).src m (G.edges[i]).label) _ = _
    rw [relabelInner, List.map_append, List.map_cons]
    have hmem : G.edges[i] ∈ G.edges := List.getElem_mem hi'
    have hsymi : (G.edges[i]).label.isVec = false := hs _ hmem
    have h1 : ((G.edges.take i).map (relabelUpd G start m)).map
        (relabelFn G (G.edges[i]).src (G.edges[i]).tgt (G.edges[i]).label
          (potentialVec G start (G.edges[i]).src m (G.edges[i]).label))
        = (G.edges.take i).map (relabelUpd G start m) := by
      apply (List.map_congr_left _).trans (List.map_id _)
      intro a ha
      rcases List.mem_map.mp ha with ⟨e', -, rfl⟩
      have hne : ¬ ((relabelUpd G start m e').src = (G.edges[i]).src ∧
          (relabelUpd G start m e').tgt = (G.edges[i]).tgt ∧
          (relabelUpd G start m e').label = (G.edges[i]).label) := by
        rintro ⟨-, -, h3⟩
        have hvv : (relabelUpd G start m e').label.isVec = true := rfl
        rw [h3, hsymi] at hvv
        exact Bool.false_ne_true hvv
      show relabelFn _ _ _ _ _ _ = _
      rw [relabelFn, if_neg hne]
      rfl
    have h2 : relabelFn G (G.edges[i]).src (G.edges[i]).tgt (G.edges[i]).label
        (potentialVec G start (G.edges[i]).src m (G.edges[i]).label) G.edges[i]
        = relabelUpd G start m G.edges[i] := by
      rw [relabelFn, if_pos ⟨rfl, rfl, rfl⟩, if_neg]
      · rfl
      · rw [hsymi]; exact Bool.false_ne_true
    have hpair : ∀ c ∈ G.edges.drop (i + 1),
        (G.edges[i]).src = c.src → (G.edges[i]).tgt = c.tgt →
          (G.edges[i]).label ≠ c.label := by
      have hdp : (G.edges.drop i).Pairwise
          (fun e f => e.src = f.src → e.tgt = f.tgt → e.label ≠ f.label) :=
        hpd.sublist (List.drop_sublist i G.edges)
      rw [hdrop] at hdp
      exact (List.pairwise_cons.mp hdp).1
    have h3 : (G.edges.drop (i + 1)).map
        (relabelFn G (G.edges[i]).src (G.edges[i]).tgt (G.edges[i]).label
          (potentialVec G start (G.edges[i]).src m (G.edges[i]).label))
        = G.edges.drop (i + 1) := by
      apply (List.map_congr_left _).trans (List.map_id _)
      intro c hc
      show relabelFn _ _ _ _ _ c = c
      rw [relabelFn, if_neg]
      rintro ⟨hsrc, htgt, hlab⟩
      exact hpair c hc hsrc.symm htgt.symm hlab.symm
    rw [h1, h2, h3]
    rw [← List.take_concat_get' G.edges i hi', List.map_append]
    simp
  termination_by i => i

/-- Round 1 of `relabel` in closed form: on an all-symbol graph with
distinctly labelled parallel edges, every edge's label becomes the vector
potential computed from the original graph. -/
theorem relabel_closed_form (G : Graph) (hs : allSymG G) (hpd : parallelDistinct G)
    (cycles : List (List PEdge)) (m : Label → List ℚ) :
    relabel G cycles m
      = { G with edges := G.edges.map (relabelUpd G (G.nodes.headD 0) m) } := by
  show { G with edges := _ } = _
  rw [fold_relabel_closed G (G.nodes.headD 0) m hs hpd G.edges.length (le_refl _)]
  simp

theorem relabel_allVec_of_allSym (G : Graph) (hs : allSymG G)
    (hpd : parallelDistinct G) (cycles : List (List PEdge)) (m : Label → List ℚ) :
    allVecG (relabel G cycles m) := by
  rw [relabel_closed_form G hs hpd cycles m]
  intro e he
  rcases List.mem_map.mp he with ⟨e', -, rfl⟩
  rfl

theorem skelNodup_relabel (G : Graph) (cycles : List (List PEdge))
    (m : Label → List ℚ) (hnd : skelNodup G) :
    skelNodup (relabel G cycles m) := by
  show ((relabel G cycles m).edges.map skel).Nodup
  rw [(skel_relabel G cycles m).2]
  exact hnd

theorem attackLoop_succ (fuel : Nat) (G : Graph) (prev : PrevNS) :
    attackLoop (fuel + 1) G prev =
      if some (nullspaceOf (loop_equations (get_ordered_alphabet G)
          (get_simple_cycles_edges G))) = prev then some G
      else if nullspaceOf (loop_equations (get_ordered_alphabet G)
          (get_simple_cycles_edges G)) = [] then some G
      else attackLoop fuel
        (relabel G (get_simple_cycles_edges G)
          (morphismOf (get_ordered_alphabet G)
            (nullspaceOf (loop_equations (get_ordered_alphabet G)
              (get_simple_cycles_edges G)))))
        (some (nullspaceOf (loop_equations (get_ordered_alphabet G)
          (get_simple_cycles_edges G)))) := rfl

/-- The null space an `attack_scc` round computes on a graph. -/
def roundNS (G : Graph) : List (List ℚ) :=
  nullspaceOf (loop_equations (get_ordered_alphabet G) (get_simple_cycles_edges G))

theorem attackLoop_three_isSome_aux (G : Graph) (hs : allSymG G)
    (hpd : parallelDistinct G) (hnd : skelNodup G) :
    (attackLoop 3 G none).isSome = true := by
  rw [show (3 : Nat) = 2 + 1 from rfl, attackLoop_succ]
  by_cases h1 : nullspaceOf (loop_equations (get_ordered_alphabet G)
      (get_simple_cycles_edges G)) = []
  · simp [h1]
  · rw [if_neg (by simp), if_neg h1]
    have hv1 : allVecG (relabel G (get_simple_cycles_edges G)
        (morphismOf (get_ordered_alphabet G)
          (nullspaceOf (loop_equations (get_ordered_alphabet G)
            (get_simple_cycles_edges G))))) :=
      relabel_allVec_of_allSym G hs hpd _ _
    have hnd1 : skelNodup (relabel G (get_simple_cycles_edges G)
        (morphismOf (get_ordered_alphabet G)
          (nullspaceOf (loop_equations (get_ordered_alphabet G)
            (get_simple_cycles_edges G))))) :=
      skelNodup_relabel G _ _ hnd
    generalize (relabel G (get_simple_cycles_edges G)
        (morphismOf (get_ordered_alphabet G)
          (nullspaceOf (loop_equations (get_ordered_alphabet G)
            (get_simple_cycles_edges G))))) = G1 at hv1 hnd1
    generalize some (nullspaceOf (loop_equations (get_ordered_alphabet G)
        (get_simple_cycles_edges G))) = prev1
    rw [show (2 : Nat) = 1 + 1 from rfl, attackLoop_succ]
    by_cases h2 : some (nullspaceOf (loop_equations (get_ordered_alphabet G1)
        (get_simple_cycles_edges G1))) = prev1
    · simp [h2]
    · rw [if_neg h2]
      by_cases h2e : nullspaceOf (loop_equations (get_ordered_alphabet G1)
          (get_simple_cycles_edges G1)) = []
      · simp [h2e]
      · rw [if_neg h2e, relabel_allVec_eq G1 hnd1 hv1]
        rw [show (1 : Nat) = 0 + 1 from rfl, attackLoop_succ]
        rw [if_pos rfl]
        rfl

theorem attackLoop_fuel_mono :
    ∀ (f f' : Nat), f ≤ f' → ∀ (G R : Graph) (prev : PrevNS),
      attackLoop f G prev = some R → attackLoop f' G prev = some R := by
  intro f
  induction f with
  | zero => intro f' _ G R prev h; simp [attackLoop] at h
  | succ f ih =>
    intro f' hle G R prev h
    obtain ⟨f'', rfl⟩ : ∃ f'', f' = f'' + 1 :=
      ⟨f' - 1, by omega⟩
    rw [attackLoop_succ] at h ⊢
    by_cases h1 : some (nullspaceOf (loop_equations (get_ordered_alphabet G)
        (get_simple_cycles_edges G))) = prev
    · rwa [if_pos h1] at h ⊢
    · rw [if_neg h1] at h ⊢
      by_cases h2 : nullspaceOf (loop_equations (get_ordered_alphabet G)
          (get_simple_cycles_edges G)) = []
      · rwa [if_pos h2] at h ⊢
      · rw [if_neg h2] at h ⊢
        exact ih f'' (by omega) _ R _ h

/-! ## Concrete graphs and automata used as inputs below -/

/-- A 3-node strongly connected graph with edges `0 →a 1 →a 2 →b 0`
(symbols: `a` = 10, `b` = 11); it is the SCC of a partial DFA. -/
def triGraph : Graph :=
  ⟨[0, 1, 2],
   [⟨0, 1, 10, Label.sym 10⟩, ⟨1, 2, 10, Label.sym 10⟩, ⟨2, 0, 11, Label.sym 11⟩]⟩

/-- `triGraph` after its first relabelling round. -/
def triGraph1 : Graph :=
  relabel triGraph (get_simple_cycles_edges triGraph)
    (morphismOf (get_ordered_alphabet triGraph) (roundNS triGraph))

/-- C3 (counterexample): on `triGraph` the entry alphabet has 2 labels and
round 1 computes a 1-dimensional null space, yet round 2 computes a
2-dimensional one (the dimension increased), and two loop iterations do not
suffice (the loop exits only at round 3 > |alphabet| = 2). -/
theorem C3_counterexample_dimension_grows :
    (get_ordered_alphabet triGraph).length = 2 ∧
      (roundNS triGraph).length = 1 ∧
      (roundNS triGraph1).length = 2 ∧
      attackLoop 2 triGraph none = none ∧
      (attackLoop 3 triGraph none).isSome = true :=
  of_decide_eq_true (by with_unfolding_all rfl)

/-- C3 (amended): the fixed-point loop of `attack_scc` always terminates on a
well-formed SCC subgraph (raw symbol labels, distinct labels on parallel
edges, distinct edge identities), and at most 3 rounds are ever needed —
because the relabelling performed in every round after the first leaves the
graph unchanged, the round-3 null space necessarily repeats the round-2 one.
The spec's bound (|alphabet| rounds, via a non-increasing null-space
dimension) is not what the code does. -/
theorem C3_loop_terminates (G : Graph) (hs : allSymG G)
    (hpd : parallelDistinct G) (hnd : skelNodup G) :
    (attackLoop 3 G none).isSome = true :=
  attackLoop_three_isSome_aux G hs hpd hnd

/-- C3 witness: the termination theorem applied to the concrete `triGraph`. -/
theorem C3_loop_terminates_witness : (attackLoop 3 triGraph none).isSome = true :=
  C3_loop_terminates triGraph (by unfold allSymG; decide)
    (by unfold parallelDistinct; decide) (by unfold skelNodup; decide)

/-- C2 (code bug, evaluated at a failing input): after round 1 every label of
`triGraph1` is a one-entry vector; round 2 computes a nonzero morphism, and
the claim/spec require each edge's label to become the concatenation of its
history with the new potential — but `relabel` returns the graph unchanged,
because the source discards the result of `col_join` (sympy's `col_join` is
not in-place).  No label ever grows beyond its round-1 value. -/
theorem C2_col_join_discarded :
    relabel triGraph1 (get_simple_cycles_edges triGraph1)
        (morphismOf (get_ordered_alphabet triGraph1) (roundNS triGraph1))
      = triGraph1 ∧
    (morphismOf (get_ordered_alphabet triGraph1) (roundNS triGraph1))
        (Label.vec [-(1/2 : ℚ)]) ≠ [] ∧
    triGraph1.edges.map (fun e => e.label)
      = [Label.vec [-(1/2 : ℚ)], Label.vec [-1], Label.vec [0]] :=
  of_decide_eq_true (by with_unfolding_all rfl)

/-- An automaton with an empty state set. -/
def emptyDFA : PyDFA := ⟨[], []⟩

/-- An automaton whose transition dictionary is missing its only state. -/
def missingDFA : PyDFA := ⟨[0], []⟩

/-- C7 (counterexample): on an automaton with an empty state set,
`decide_CRASP_membership` does not fail with an invalid-automaton error —
it returns the boolean `True` (the AND over zero SCCs). -/
theorem C7_counterexample_empty_returns_true :
    decide_CRASP_membership emptyDFA = some true := rfl

/-- C7 (amended): no input validation exists.  An empty state set yields
`True`; a state missing from the transition dictionary raises `KeyError`
*during* graph construction (modelled as `none`), not before it. -/
theorem C7_amended_no_validation :
    decide_CRASP_membership emptyDFA = some true ∧
      decide_CRASP_membership missingDFA = none := ⟨rfl, rfl⟩

/-- C10 witness: a concrete cycle edge of `triGraph` whose label is found in
the ordered alphabet with an in-range index. -/
theorem C10_witness :
    ((0, 1, Label.sym 10) : PEdge).2.2 ∈ get_ordered_alphabet triGraph ∧
      idxOf (get_ordered_alphabet triGraph) ((0, 1, Label.sym 10) : PEdge).2.2
        < (get_ordered_alphabet triGraph).length :=
  C10_cycle_labels_in_alphabet triGraph
    [(0, 1, Label.sym 10), (1, 2, Label.sym 10), (2, 0, Label.sym 11)]
    (0, 1, Label.sym 10) (by decide) (by decide)

/-! ## Correctness of the reachability fixed point (for claims C1, C4, C9) -/

/-- Forward reachability in `G` (reflexive-transitive closure of the edge
relation). -/
inductive Reach (G : Graph) (v : Nat) : Nat → Prop
  | refl : Reach G v v
  | step : ∀ {u : Nat} {e : Edge}, Reach G v u → e ∈ G.edges → e.src = u →
      Reach G v e.tgt

theorem Reach.trans {G : Graph} {a b c : Nat}
    (h1 : Reach G a b) (h2 : Reach G b c) : Reach G a c := by
  induction h2 with
  | refl => exact h1
  | step _ he hs ih => exact Reach.step ih he hs

theorem stepR_extends (G : Graph) : ∀ (l : List Edge) (acc : List Nat),
    acc ⊆ l.foldl
      (fun acc e => if e.src ∈ acc ∧ e.tgt ∉ acc then acc ++ [e.tgt] else acc) acc := by
  intro l
  induction l with
  | nil => intro acc; exact fun _ h => h
  | cons x xs ih =>
    intro acc a ha
    rw [List.foldl_cons]
    refine ih _ ?_
    by_cases h : x.src ∈ acc ∧ x.tgt ∉ acc
    · rw [if_pos h]; exact List.mem_append_left _ ha
    · rwa [if_neg h]

theorem subset_stepR (G : Graph) (s : List Nat) : s ⊆ stepR G s :=
  stepR_extends G G.edges s

theorem stepR_tgt_mem (G : Graph) :
    ∀ (l : List Edge) (acc : List Nat) (e : Edge), e ∈ l → e.src ∈ acc →
      e.tgt ∈ l.foldl
        (fun acc e => if e.src ∈ acc ∧ e.tgt ∉ acc then acc ++ [e.tgt] else acc) acc := by
  intro l
  induction l with
  | nil => intro acc e he; simp at he
  | cons x xs ih =>
    intro acc e he hsrc
    rw [List.foldl_cons]
    rcases List.mem_cons.mp he with rfl | he'
    · by_cases h : e.src ∈ acc ∧ e.tgt ∉ acc
      · rw [if_pos h]
        exact stepR_extends G xs _ (List.mem_append_right _ (List.mem_singleton.mpr rfl))
      · rw [if_neg h]
        have : e.tgt ∈ acc := by
          by_contra hn
          exact h ⟨hsrc, hn⟩
        exact stepR_extends G xs _ this
    · apply ih _ e he'
      by_cases h : x.src ∈ acc ∧ x.tgt ∉ acc
      · rw [if_pos h]; exact List.mem_append_left _ hsrc
      · rwa [if_neg h]

theorem mem_stepR_tgt (G : Graph) (s : List Nat) (e : Edge)
    (he : e ∈ G.edges) (hs : e.src ∈ s) : e.tgt ∈ stepR G s :=
  stepR_tgt_mem G G.edges s e he hs

theorem stepR_sound (G : Graph) (v : Nat) :
    ∀ (l : List Edge) (acc : List Nat), l ⊆ G.edges →
      (∀ x ∈ acc, Reach G v x) →
      ∀ x ∈ l.foldl
        (fun acc e => if e.src ∈ acc ∧ e.tgt ∉ acc then acc ++ [e.tgt] else acc) acc,
        Reach G v x := by
  intro l
  induction l with
  | nil => intro acc _ hacc x hx; exact hacc x hx
  | cons a as ih =>
    intro acc hsub hacc x hx
    rw [List.foldl_cons] at hx
    refine ih _ (fun y hy => hsub (List.mem_cons_of_mem _ hy)) ?_ x hx
    intro y hy
    by_cases h : a.src ∈ acc ∧ a.tgt ∉ acc
    · rw [if_pos h] at hy
      rcases List.mem_append.mp hy with hy' | hy'
      · exact hacc y hy'
      · rw [List.mem_singleton.mp hy']
        exact Reach.step (hacc a.src h.1) (hsub (List.mem_cons_self _ _)) rfl
    · rw [if_neg h] at hy
      exact hacc y hy

theorem stepR_nodup (G : Graph) :
    ∀ (l : List Edge) (acc : List Nat), acc.Nodup →
      (l.foldl
        (fun acc e => if e.src ∈ acc ∧ e.tgt ∉ acc then acc ++ [e.tgt] else acc) acc).Nodup := by
  intro l
  induction l with
  | nil => intro acc h; exact h
  | cons a as ih =>
    intro acc h
    rw [List.foldl_cons]
    apply ih
    by_cases hc : a.src ∈ acc ∧ a.tgt ∉ acc
    · rw [if_pos hc]
      rw [List.nodup_append]
      exact ⟨h, List.nodup_singleton _, by simpa using hc.2⟩
    · rwa [if_neg hc]

theorem stepR_subU (G : Graph) (U : List Nat)
    (hU : ∀ e ∈ G.edges, e.tgt ∈ U) :
    ∀ (l : List Edge) (acc : List Nat), l ⊆ G.edges → acc ⊆ U →
      (l.foldl
        (fun acc e => if e.src ∈ acc ∧ e.tgt ∉ acc then acc ++ [e.tgt] else acc) acc) ⊆ U := by
  intro l
  induction l with
  | nil => intro acc _ hacc; exact hacc
  | cons a as ih =>
    intro acc hsub hacc
    rw [List.foldl_cons]
    refine ih _ (fun y hy => hsub (List.mem_cons_of_mem _ hy)) ?_
    by_cases hc : a.src ∈ acc ∧ a.tgt ∉ acc
    · rw [if_pos hc]
      intro y hy
      rcases List.mem_append.mp hy with hy' | hy'
      · exact hacc hy'
      · rw [List.mem_singleton.mp hy']
        exact hU a (hsub (List.mem_cons_self _ _))
    · rwa [if_neg hc]

theorem stepR_grow (G : Graph) :
    ∀ (l : List Edge) (acc : List Nat), ∃ t,
      l.foldl
        (fun acc e => if e.src ∈ acc ∧ e.tgt ∉ acc then acc ++ [e.tgt] else acc) acc
        = acc ++ t := by
  intro l
  induction l with
  | nil => intro acc; exact ⟨[], by simp⟩
  | cons a as ih =>
    intro acc
    rw [List.foldl_cons]
    by_cases hc : a.src ∈ acc ∧ a.tgt ∉ acc
    · rw [if_pos hc]
      rcases ih (acc ++ [a.tgt]) with ⟨t, ht⟩
      exact ⟨[a.tgt] ++ t, by rw [ht, List.append_assoc]⟩
    · rw [if_neg hc]; exact ih acc

theorem iterateN_succ_out {α : Type _} (f : α → α) :
    ∀ (n : Nat) (a : α), iterateN f (n + 1) a = f (iterateN f n a) := by
  intro n
  induction n with
  | zero => intro a; rfl
  | succ n ih =>
    intro a
    show iterateN f (n + 1) (f a) = _
    rw [ih (f a)]
    rfl

theorem iterateN_fix {α : Type _} (f : α → α) (a : α) (h : f a = a) :
    ∀ n, iterateN f n a = a := by
  intro n
  induction n with
  | zero => rfl
  | succ n ih => show iterateN f n (f a) = a; rw [h]; exact ih

/-- The `i`-th reachability approximation. -/
def rsIter (G : Graph) (v : Nat) (i : Nat) : List Nat :=
  iterateN (stepR G) i [v]

theorem rsIter_nodup (G : Graph) (v : Nat) : ∀ i, (rsIter G v i).Nodup := by
  intro i
  induction i with
  | zero => simp [rsIter, iterateN]
  | succ i ih =>
    rw [rsIter, iterateN_succ_out]
    exact stepR_nodup G G.edges _ ih

theorem rsIter_subU (G : Graph) (v : Nat) :
    ∀ i, rsIter G v i ⊆ v :: G.edges.map (fun e => e.tgt) := by
  intro i
  induction i with
  | zero =>
    intro x hx
    rw [rsIter, iterateN] at hx
    simp at hx
    simp [hx]
  | succ i ih =>
    rw [rsIter, iterateN_succ_out]
    refine stepR_subU G _ ?_ G.edges _ (fun _ h => h) ih
    intro e he
    exact List.mem_cons_of_mem _ (List.mem_map.mpr ⟨e, he, rfl⟩)

theorem rsIter_sound (G : Graph) (v : Nat) :
    ∀ i, ∀ x ∈ rsIter G v i, Reach G v x := by
  intro i
  induction i with
  | zero =>
    intro x hx
    rw [rsIter, iterateN] at hx
    rw [List.mem_singleton.mp hx]
    exact Reach.refl
  | succ i ih =>
    rw [rsIter, iterateN_succ_out]
    exact stepR_sound G v G.edges _ (fun _ h => h) ih

theorem rsIter_progress (G : Graph) (v : Nat) :
    ∀ i, stepR G (rsIter G v i) = rsIter G v i ∨ i + 1 ≤ (rsIter G v i).length := by
  intro i
  induction i with
  | zero => right; simp [rsIter, iterateN]
  | succ i ih =>
    have hsucc : rsIter G v (i + 1) = stepR G (rsIter G v i) := by
      rw [rsIter, iterateN_succ_out]; rfl
    rcases ih with hfix | hlen
    · left
      rw [hsucc, hfix, hfix]
    · rcases stepR_grow G G.edges (rsIter G v i) with ⟨t, ht⟩
      have ht' : stepR G (rsIter G v i) = rsIter G v i ++ t := ht
      cases t with
      | nil =>
        left
        have hfix : stepR G (rsIter G v i) = rsIter G v i := by
          rw [ht', List.append_nil]
        rw [hsucc, hfix, hfix]
      | cons y ys =>
        right
        rw [hsucc]
        have : (rsIter G v i).length + 1 ≤ (stepR G (rsIter G v i)).length := by
          rw [ht']
          simp
        omega

theorem rsIter_length_le (G : Graph) (v : Nat) (i : Nat) :
    (rsIter G v i).length ≤ G.edges.length + 1 := by
  have h1 : (rsIter G v i).length = (rsIter G v i).toFinset.card :=
    (List.toFinset_card_of_nodup (rsIter_nodup G v i)).symm
  have h2 : (rsIter G v i).toFinset ⊆ (v :: G.edges.map (fun e => e.tgt)).toFinset := by
    intro x hx
    rw [List.mem_toFinset] at hx ⊢
    exact rsIter_subU G v i hx
  calc (rsIter G v i).length
      = (rsIter G v i).toFinset.card := h1
    _ ≤ (v :: G.edges.map (fun e => e.tgt)).toFinset.card := Finset.card_le_card h2
    _ ≤ (v :: G.edges.map (fun e => e.tgt)).length := List.toFinset_card_le _
    _ = G.edges.length + 1 := by simp

/-- `reachSet` is a fixed point of one propagation pass. -/
theorem reachSet_fixed (G : Graph) (v : Nat) :
    stepR G (reachSet G v) = reachSet G v := by
  have hre : reachSet G v = rsIter G v (G.edges.length + 1) := rfl
  rcases rsIter_progress G v (G.edges.length + 1) with hfix | hlen
  · rw [hre]; exact hfix
  · exact absurd (rsIter_length_le G v (G.edges.length + 1)) (by omega)

theorem rsIter_mono_le (G : Graph) (v : Nat) :
    ∀ i j, i ≤ j → rsIter G v i ⊆ rsIter G v j := by
  intro i j hij
  induction j with
  | zero =>
    have : i = 0 := Nat.le_zero.mp hij
    rw [this]; exact fun _ h => h
  | succ j ih =>
    rcases Nat.lt_or_ge i (j + 1) with hlt | hge
    · have hij' : i ≤ j := by omega
      refine (ih hij').trans ?_
      have hstep : rsIter G v (j + 1) = stepR G (rsIter G v j) := by
        rw [rsIter, iterateN_succ_out]; rfl
      rw [hstep]
      exact subset_stepR G _
    · have : i = j + 1 := by omega
      rw [this]; exact fun _ h => h

theorem reach_complete (G : Graph) (v u : Nat) (h : Reach G v u) :
    u ∈ reachSet G v := by
  induction h with
  | refl =>
    apply rsIter_mono_le G v 0 (G.edges.length + 1) (by omega)
    simp [rsIter, iterateN]
  | step _ he hs ih =>
    rw [← reachSet_fixed G v]
    exact mem_stepR_tgt G _ _ he (by rw [hs]; exact ih)

theorem reaches_iff (G : Graph) (v u : Nat) :
    reaches G v u = true ↔ Reach G v u := by
  constructor
  · intro h
    exact rsIter_sound G v (G.edges.length + 1) u (by simpa [reaches] using h)
  · intro h
    simp only [reaches, decide_eq_true_eq]
    exact reach_complete G v u h

theorem reaches_trans (G : Graph) (a b c : Nat)
    (h1 : reaches G a b = true) (h2 : reaches G b c = true) :
    reaches G a c = true :=
  (reaches_iff G a c).mpr
    (Reach.trans ((reaches_iff G a b).mp h1) ((reaches_iff G b c).mp h2))

theorem reaches_refl (G : Graph) (v : Nat) : reaches G v v = true :=
  (reaches_iff G v v).mpr Reach.refl

/-! ## Components and the frame property of per-SCC processing -/

/-- Two node lists share no element. -/
def DisjointL (c d : List Nat) : Prop := ∀ x, x ∈ c → x ∉ d

theorem DisjointL.symm {c d : List Nat} (h : DisjointL c d) : DisjointL d c :=
  fun x hx hx' => h x hx' hx

theorem mem_compOf_self (G : Graph) (v : Nat) (hv : v ∈ G.nodes) :
    v ∈ compOf G v := by
  rw [compOf]
  exact List.mem_filter.mpr ⟨hv, by simp [reaches_refl]⟩

theorem mem_compOf_iff (G : Graph) (v u : Nat) :
    u ∈ compOf G v ↔ u ∈ G.nodes ∧ reaches G v u = true ∧ reaches G u v = true := by
  rw [compOf, List.mem_filter]
  simp

theorem compOf_congr (G : Graph) (v w x : Nat)
    (hx1 : x ∈ compOf G v) (hx2 : x ∈ compOf G w) :
    compOf G v = compOf G w := by
  obtain ⟨-, hvx, hxv⟩ := (mem_compOf_iff G v x).mp hx1
  obtain ⟨-, hwx, hxw⟩ := (mem_compOf_iff G w x).mp hx2
  have hvw := reaches_trans G v x w hvx hxw
  have hwv := reaches_trans G w x v hwx hxv
  rw [compOf, compOf]
  apply List.filter_congr
  intro u hu
  apply decide_eq_decide.mpr
  constructor
  · rintro ⟨h1, h2⟩
    exact ⟨reaches_trans G w v u hwv h1, reaches_trans G u v w h2 hvw⟩
  · rintro ⟨h1, h2⟩
    exact ⟨reaches_trans G v w u hvw h1, reaches_trans G u w v h2 hwv⟩

theorem sccs_spec (G : Graph) :
    (∀ c ∈ sccs G, ∃ v, v ∈ G.nodes ∧ c = compOf G v ∧ v ∈ c) ∧
      (sccs G).Pairwise DisjointL := by
  have key : ∀ (l : List Nat) (comps : List (List Nat)) (assigned : List Nat),
      l ⊆ G.nodes →
      (∀ c ∈ comps, ∃ v, v ∈ G.nodes ∧ c = compOf G v ∧ v ∈ c) →
      (∀ c ∈ comps, ∀ x ∈ c, x ∈ assigned) →
      comps.Pairwise DisjointL →
      (∀ c ∈ (l.foldl
        (fun (acc : List (List Nat) × List Nat) v =>
          if v ∈ acc.2 then acc
          else (acc.1 ++ [compOf G v], acc.2 ++ compOf G v)) (comps, assigned)).1,
        ∃ v, v ∈ G.nodes ∧ c = compOf G v ∧ v ∈ c) ∧
      (∀ c ∈ (l.foldl
        (fun (acc : List (List Nat) × List Nat) v =>
          if v ∈ acc.2 then acc
          else (acc.1 ++ [compOf G v], acc.2 ++ compOf G v)) (comps, assigned)).1,
        ∀ x ∈ c, x ∈ (l.foldl
        (fun (acc : List (List Nat) × List Nat) v =>
          if v ∈ acc.2 then acc
          else (acc.1 ++ [compOf G v], acc.2 ++ compOf G v)) (comps, assigned)).2) ∧
      ((l.foldl
        (fun (acc : List (List Nat) × List Nat) v =>
          if v ∈ acc.2 then acc
          else (acc.1 ++ [compOf G v], acc.2 ++ compOf G v)) (comps, assigned)).1).Pairwise DisjointL := by
    intro l
    induction l with
    | nil =>
      intro comps assigned _ h1 h2 h3
      exact ⟨h1, h2, h3⟩
    | cons v l' ih =>
      intro comps assigned hsub h1 h2 h3
      rw [List.foldl_cons]
      by_cases hv : v ∈ assigned
      · rw [if_pos hv]
        exact ih comps assigned (fun y hy => hsub (List.mem_cons_of_mem _ hy)) h1 h2 h3
      · rw [if_neg hv]
        have hvn : v ∈ G.nodes := hsub (List.mem_cons_self _ _)
        apply ih _ _ (fun y hy => hsub (List.mem_cons_of_mem _ hy))
        · intro c hc
          rcases List.mem_append.mp hc with hc' | hc'
          · exact h1 c hc'
          · rw [List.mem_singleton.mp hc']
            exact ⟨v, hvn, rfl, mem_compOf_self G v hvn⟩
        · intro c hc x hx
          rcases List.mem_append.mp hc with hc' | hc'
          · exact List.mem_append_left _ (h2 c hc' x hx)
          · rw [List.mem_singleton.mp hc'] at hx
            exact List.mem_append_right _ hx
        · rw [List.pairwise_append]
          refine ⟨h3, List.pairwise_singleton _ _, ?_⟩
          intro c hc d hd
          rw [List.mem_singleton.mp hd]
          intro x hx hx'
          rcases h1 c hc with ⟨w, -, rfl, hwc⟩
          have := compOf_congr G w v x hx hx'
          apply hv
          apply h2 _ hc
          rw [this] at hwc ⊢
          exact this ▸ mem_compOf_self G v hvn
  have h := key G.nodes [] [] (fun _ h => h) (by simp) (by simp) (by simp)
  exact ⟨h.1, h.2.2⟩

theorem attackLoop_skel : ∀ (fuel : Nat) (G R : Graph) (prev : PrevNS),
    attackLoop fuel G prev = some R →
      R.nodes = G.nodes ∧ R.edges.map skel = G.edges.map skel := by
  intro fuel
  induction fuel with
  | zero => intro G R prev h; simp [attackLoop] at h
  | succ fuel ih =>
    intro G R prev h
    rw [attackLoop_succ] at h
    by_cases h1 : some (nullspaceOf (loop_equations (get_ordered_alphabet G)
        (get_simple_cycles_edges G))) = prev
    · rw [if_pos h1] at h
      cases Option.some.inj h
      exact ⟨rfl, rfl⟩
    · rw [if_neg h1] at h
      by_cases h2 : nullspaceOf (loop_equations (get_ordered_alphabet G)
          (get_simple_cycles_edges G)) = []
      · rw [if_pos h2] at h
        cases Option.some.inj h
        exact ⟨rfl, rfl⟩
      · rw [if_neg h2] at h
        rcases ih _ _ _ h with ⟨hn, he⟩
        rcases skel_relabel G (get_simple_cycles_edges G)
          (morphismOf (get_ordered_alphabet G)
            (nullspaceOf (loop_equations (get_ordered_alphabet G)
              (get_simple_cycles_edges G)))) with ⟨hn', he'⟩
        exact ⟨hn.trans hn', he.trans he'⟩

theorem attack_scc_graph_skel (G : Graph) :
    (attack_scc_graph G).nodes = G.nodes ∧
      (attack_scc_graph G).edges.map skel = G.edges.map skel := by
  rw [attack_scc_graph]
  cases h : attackLoop 3 G none with
  | none => exact ⟨rfl, rfl⟩
  | some R => exact attackLoop_skel 3 G R none h

theorem subgraphOf_edges_in (G : Graph) (c : List Nat) :
    ∀ f ∈ (subgraphOf G c).edges, f.src ∈ c ∧ f.tgt ∈ c := by
  intro f hf
  have := (List.mem_filter.mp hf).2
  simpa using this

theorem attack_sub_edges_in (G : Graph) (c : List Nat) :
    ∀ f ∈ (attack_scc_graph (subgraphOf G c)).edges, f.src ∈ c ∧ f.tgt ∈ c := by
  intro f hf
  have hskel : skel f ∈ (attack_scc_graph (subgraphOf G c)).edges.map skel :=
    List.mem_map.mpr ⟨f, hf, rfl⟩
  rw [(attack_scc_graph_skel (subgraphOf G c)).2] at hskel
  rcases List.mem_map.mp hskel with ⟨g, hg, hgf⟩
  have h1 : g.src = f.src := congrArg (fun p => p.1) hgf
  have h2 : g.tgt = f.tgt := congrArg (fun p => p.2.1) hgf
  rcases subgraphOf_edges_in G c g hg with ⟨hs, ht⟩
  rw [h1] at hs
  rw [h2] at ht
  exact ⟨hs, ht⟩

theorem writeBackFn_src_tgt (sub : Graph) (e : Edge) :
    (writeBackFn sub e).src = e.src ∧ (writeBackFn sub e).tgt = e.tgt ∧
      (writeBackFn sub e).key = e.key := by
  rw [writeBackFn]
  cases h : sub.edges.find? (fun f => f.src = e.src ∧ f.tgt = e.tgt ∧ f.key = e.key) with
  | none => exact ⟨rfl, rfl, rfl⟩
  | some f => exact ⟨rfl, rfl, rfl⟩

theorem writeBackFn_outside (G : Graph) (c : List Nat) (e : Edge)
    (he : ¬(e.src ∈ c ∧ e.tgt ∈ c)) :
    writeBackFn (attack_scc_graph (subgraphOf G c)) e = e := by
  rw [writeBackFn]
  cases h : (attack_scc_graph (subgraphOf G c)).edges.find?
      (fun f => f.src = e.src ∧ f.tgt = e.tgt ∧ f.key = e.key) with
  | none => rfl
  | some f =>
    exfalso
    have hp := List.find?_some h
    simp only [decide_eq_true_eq] at hp
    have hin := attack_sub_edges_in G c f (List.mem_of_find?_eq_some h)
    exact he ⟨hp.1 ▸ hin.1, hp.2.1 ▸ hin.2⟩

theorem processScc_nodes (G : Graph) (c : List Nat) :
    (processScc G c).nodes = G.nodes := rfl

theorem subgraphOf_processScc (G : Graph) (c c' : List Nat)
    (hd : DisjointL c' c) :
    subgraphOf (processScc G c) c' = subgraphOf G c' := by
  rw [subgraphOf, subgraphOf, processScc_nodes]
  show Graph.mk _ _ = Graph.mk _ _
  congr 1
  show ((writeBack G (attack_scc_graph (subgraphOf G c))).edges).filter _ = _
  rw [writeBack]
  show (G.edges.map (writeBackFn (attack_scc_graph (subgraphOf G c)))).filter
      (fun e => e.src ∈ c' ∧ e.tgt ∈ c') = _
  rw [List.filter_map]
  have hpred : ∀ e ∈ G.edges,
      ((fun e : Edge => decide (e.src ∈ c' ∧ e.tgt ∈ c')) ∘
        writeBackFn (attack_scc_graph (subgraphOf G c))) e
        = (fun e : Edge => decide (e.src ∈ c' ∧ e.tgt ∈ c')) e := by
    intro e _
    rcases writeBackFn_src_tgt (attack_scc_graph (subgraphOf G c)) e with ⟨h1, h2, -⟩
    simp only [Function.comp_apply, h1, h2]
  rw [List.filter_congr hpred]
  apply (List.map_congr_left _).trans (List.map_id _)
  intro e he
  have he2 := (List.mem_filter.mp he).2
  simp only [decide_eq_true_eq] at he2
  apply writeBackFn_outside G c e
  rintro ⟨hs, -⟩
  exact hd e.src he2.1 hs

theorem all_congr {α : Type _} (l : List α) (f g : α → Bool)
    (h : ∀ x ∈ l, f x = g x) : l.all f = l.all g := by
  induction l with
  | nil => rfl
  | cons x xs ih =>
    simp only [List.all_cons]
    rw [h x (List.mem_cons_self _ _), ih (fun y hy => h y (List.mem_cons_of_mem _ hy))]

/-- The SCC loop computes the AND of the per-component separation results on
the *original* graph: processing one component never touches the edges a
later component reads. -/
theorem decideGo_eq_all :
    ∀ (comps : List (List Nat)) (G : Graph), comps.Pairwise DisjointL →
      decideGo G comps = comps.all (fun c => attack_scc (subgraphOf G c)) := by
  intro comps
  induction comps with
  | nil => intro G _; rfl
  | cons c rest ih =>
    intro G hpw
    rcases List.pairwise_cons.mp hpw with ⟨hhead, htail⟩
    show (if attack_scc (subgraphOf G c) then decideGo (processScc G c) rest else false) = _
    rw [List.all_cons]
    by_cases hA : attack_scc (subgraphOf G c) = true
    · rw [if_pos hA, hA, Bool.true_and, ih (processScc G c) htail]
      apply all_congr
      intro c' hc'
      rw [subgraphOf_processScc G c c' (hhead c' hc').symm]
    · rw [if_neg hA, Bool.eq_false_iff.mpr hA, Bool.false_and]

/-- C1: `decide_CRASP_membership` is the logical AND of `attack_scc` over all
SCC subgraphs of the constructed graph, and it short-circuits — a failing
component makes the result false no matter what components follow. -/
theorem C1_decide_iff_all_sccs (dfa : PyDFA) (G : Graph)
    (hG : automata_to_graph dfa = some G) :
    (decide_CRASP_membership dfa = some true ↔
      ∀ c ∈ sccs G, attack_scc (subgraphOf G c) = true) ∧
    (∀ (H : Graph) (c : List Nat) (rest : List (List Nat)),
      attack_scc (subgraphOf H c) = false → decideGo H (c :: rest) = false) := by
  constructor
  · rw [decide_CRASP_membership, hG]
    show some (decideGo G (sccs G)) = some true ↔ _
    rw [Option.some_inj, decideGo_eq_all (sccs G) G (sccs_spec G).2]
    exact List.all_eq_true
  · intro H c rest hfalse
    show (if attack_scc (subgraphOf H c) then decideGo (processScc H c) rest else false) = false
    rw [hfalse]
    rfl

/-- An edgeless subgraph has no cycles: its alphabet imposes no equations,
the null space is `[]`, and the loop stops immediately, separated. -/
theorem attack_scc_edgeless (H : Graph) (h : H.edges = []) :
    attack_scc H = true := by
  have hcaux : ∀ (s fuel cur : Nat) (vis : List Nat), cyclesAux H s fuel cur vis = [] := by
    intro s fuel cur vis
    cases fuel with
    | zero => rfl
    | succ f => rw [cyclesAux, h]; rfl
  have hcyc : get_simple_cycles_edges H = [] := by
    rw [get_simple_cycles_edges, simpleCycles]
    have : H.nodes.flatMap (fun s => cyclesAux H s H.nodes.length s [s]) = [] := by
      simp [hcaux]
    rw [this]
    rfl
  have hns : nullspaceOf (loop_equations (get_ordered_alphabet H)
      (get_simple_cycles_edges H)) = [] := by
    rw [hcyc]
    rfl
  rw [attack_scc, attack_scc_graph, show (3 : Nat) = 2 + 1 from rfl, attackLoop_succ,
    if_neg (by simp), if_pos hns]
  show separated H = true
  rw [separated, h]
  rfl

/-- C4: if every SCC of the constructed graph is a single node without a
self-loop (no edge has both endpoints inside the component), the decider
returns true: each component's subgraph is edgeless, has an empty cycle set
and is trivially separated. -/
theorem C4_acyclic_graph_true (dfa : PyDFA) (G : Graph)
    (hG : automata_to_graph dfa = some G)
    (hacy : ∀ c ∈ sccs G, c.length = 1 ∧
      ∀ e ∈ G.edges, ¬(e.src ∈ c ∧ e.tgt ∈ c)) :
    decide_CRASP_membership dfa = some true := by
  rw [decide_CRASP_membership, hG]
  show some (decideGo G (sccs G)) = some true
  rw [Option.some_inj, decideGo_eq_all (sccs G) G (sccs_spec G).2]
  apply List.all_eq_true.mpr
  intro c hc
  apply attack_scc_edgeless
  rw [subgraphOf]
  show G.edges.filter _ = []
  rw [List.filter_eq_nil_iff]
  intro e he
  simp only [decide_eq_true_eq]
  exact (hacy c hc).2 e he

/-- C9: processing one component rewrites only the labels of edges with both
endpoints inside it — every other edge is untouched, and the node list and
the edge identities `(src, tgt, key)` of the whole graph are preserved. -/
theorem C9_frame_per_component (G : Graph) (c : List Nat) :
    (processScc G c).nodes = G.nodes ∧
      List.Forall₂ (fun e e' : Edge =>
        e'.src = e.src ∧ e'.tgt = e.tgt ∧ e'.key = e.key ∧
          (¬(e.src ∈ c ∧ e.tgt ∈ c) → e' = e)) G.edges (processScc G c).edges := by
  refine ⟨rfl, ?_⟩
  show List.Forall₂ _ G.edges
    (G.edges.map (writeBackFn (attack_scc_graph (subgraphOf G c))))
  rw [List.forall₂_map_right_iff]
  apply List.forall₂_same.mpr
  intro e he
  rcases writeBackFn_src_tgt (attack_scc_graph (subgraphOf G c)) e with ⟨h1, h2, h3⟩
  exact ⟨h1, h2, h3, fun hout => writeBackFn_outside G c e hout⟩

/-- A 2-state total DFA over `{0, 1}`: symbol 0 swaps the states, symbol 1
keeps them. -/
def exDFA : PyDFA := ⟨[0, 1], [(0, [(0, 1), (1, 0)]), (1, [(0, 0), (1, 1)])]⟩

/-- The graph `automata_to_graph` builds from `exDFA`. -/
def exG : Graph :=
  ⟨[0, 1],
   [⟨0, 1, 0, Label.sym 0⟩, ⟨0, 0, 1, Label.sym 1⟩,
    ⟨1, 0, 0, Label.sym 0⟩, ⟨1, 1, 1, Label.sym 1⟩]⟩

/-- C1 witness: the AND-over-SCCs characterisation instantiated on `exDFA`. -/
theorem C1_witness :
    decide_CRASP_membership exDFA = some true ↔
      ∀ c ∈ sccs exG, attack_scc (subgraphOf exG c) = true :=
  (C1_decide_iff_all_sccs exDFA exG rfl).1

/-- A partial DFA whose graph is a single edge `0 → 1` (acyclic). -/
def pathDFA : PyDFA := ⟨[0, 1], [(0, [(0, 1)]), (1, [])]⟩

/-- The graph `automata_to_graph` builds from `pathDFA`. -/
def pathG : Graph := ⟨[0, 1], [⟨0, 1, 0, Label.sym 0⟩]⟩

/-- C4 witness: the acyclic-graph theorem applied to the one-edge path DFA. -/
theorem C4_witness : decide_CRASP_membership pathDFA = some true :=
  C4_acyclic_graph_true pathDFA pathG rfl (by decide)

/-! ## Path independence of the potential (claim C6) -/

theorem walkSum_append {M : Type} [AddCommMonoid M] (m : Label → M)
    (xs ys : List Edge) : walkSum m (xs ++ ys) = walkSum m xs + walkSum m ys := by
  rw [walkSum, walkSum, walkSum, List.map_append, List.sum_append]

theorem walkSum_cons {M : Type} [AddCommMonoid M] (m : Label → M)
    (e : Edge) (es : List Edge) :
    walkSum m (e :: es) = m e.label + walkSum m es := by
  rw [walkSum, walkSum, List.map_cons, List.sum_cons]

theorem edgeChain_append (G : Graph) :
    ∀ (xs ys : List Edge) (a b : Nat),
      edgeChain G a b (xs ++ ys) ↔ ∃ c, edgeChain G a c xs ∧ edgeChain G c b ys := by
  intro xs
  induction xs with
  | nil =>
    intro ys a b
    simp only [List.nil_append]
    constructor
    · intro h; exact ⟨a, rfl, h⟩
    · rintro ⟨c, hc, h⟩
      rw [show a = c from hc]
      exact h
  | cons x xs ih =>
    intro ys a b
    show (x ∈ G.edges ∧ x.src = a ∧ edgeChain G x.tgt b (xs ++ ys)) ↔ _
    constructor
    · rintro ⟨hx, hs, hch⟩
      rcases (ih ys x.tgt b).mp hch with ⟨c, h1, h2⟩
      exact ⟨c, ⟨hx, hs, h1⟩, h2⟩
    · rintro ⟨c, ⟨hx, hs, h1⟩, h2⟩
      exact ⟨hx, hs, (ih ys x.tgt b).mpr ⟨c, h1, h2⟩⟩

theorem edgeChain_mem (G : Graph) :
    ∀ (es : List Edge) (a b : Nat), edgeChain G a b es → ∀ e ∈ es, e ∈ G.edges := by
  intro es
  induction es with
  | nil => intro a b _ e he; simp at he
  | cons x xs ih =>
    rintro a b ⟨hx, -, hch⟩ e he
    rcases List.mem_cons.mp he with rfl | he'
    · exact hx
    · exact ih x.tgt b hch e he'

theorem exists_dup_split {α β : Type _} (f : α → β) :
    ∀ (l : List α), ¬ (l.map f).Nodup →
      ∃ (A : List α) (e₁ : α) (B : List α) (e₂ : α) (C : List α),
        l = A ++ (e₁ :: (B ++ (e₂ :: C))) ∧ f e₁ = f e₂ := by
  intro l
  induction l with
  | nil => intro h; exact absurd List.nodup_nil h
  | cons x xs ih =>
    intro h
    by_cases hx : f x ∈ xs.map f
    · rcases List.mem_map.mp hx with ⟨y, hy, hfy⟩
      rcases List.append_of_mem hy with ⟨B, C, rfl⟩
      exact ⟨[], x, B, y, C, rfl, hfy.symm⟩
    · have hxs : ¬ (xs.map f).Nodup := by
        intro hnd
        exact h (by rw [List.map_cons, List.nodup_cons]; exact ⟨hx, hnd⟩)
      rcases ih hxs with ⟨A, e₁, B, e₂, C, rfl, hf⟩
      exact ⟨x :: A, e₁, B, e₂, C, rfl, hf⟩

theorem closed_walk_sum_zero {M : Type} [AddCommGroup M] (G : Graph)
    (m : Label → M)
    (hbal : ∀ v es, SimpleCycleW G v es → walkSum m es = 0) :
    ∀ (n : Nat) (es : List Edge) (v : Nat),
      es.length ≤ n → edgeChain G v v es → walkSum m es = 0 := by
  intro n
  induction n with
  | zero =>
    intro es v hlen _
    rw [List.length_eq_zero.mp (Nat.le_zero.mp hlen)]
    rfl
  | succ n ih =>
    intro es v hlen hch
    by_cases hnil : es = []
    · rw [hnil]; rfl
    · by_cases hnd : (es.map (fun e => e.src)).Nodup
      · exact hbal v es ⟨hnil, hch, hnd⟩
      · rcases exists_dup_split (fun e : Edge => e.src) es hnd with
          ⟨A, e₁, B, e₂, C, rfl, hsrc⟩
        rcases (edgeChain_append G A (e₁ :: (B ++ (e₂ :: C))) v v).mp hch with
          ⟨m1, hA, hrest⟩
        obtain ⟨he₁, hs₁, hch₁⟩ := hrest
        rcases (edgeChain_append G B (e₂ :: C) e₁.tgt v).mp hch₁ with
          ⟨m2, hB, hrest₂⟩
        obtain ⟨he₂, hs₂, hch₂⟩ := hrest₂
        have hm12 : m2 = m1 := by rw [← hs₂, ← hsrc, hs₁]
        have hmid : edgeChain G m1 m1 (e₁ :: B) := ⟨he₁, hs₁, hm12 ▸ hB⟩
        have houter : edgeChain G v v (A ++ (e₂ :: C)) :=
          (edgeChain_append G A (e₂ :: C) v v).mpr
            ⟨m1, hA, ⟨he₂, hm12 ▸ hs₂, hch₂⟩⟩
        have hlen_es : A.length + (B.length + (C.length + 2)) ≤ n + 1 := by
          simpa using hlen
        have hz1 : walkSum m (e₁ :: B) = 0 := by
          refine ih (e₁ :: B) m1 ?_ hmid
          simp only [List.length_cons]
          omega
        have hz2 : walkSum m (A ++ (e₂ :: C)) = 0 := by
          refine ih (A ++ (e₂ :: C)) v ?_ houter
          simp only [List.length_append, List.length_cons]
          omega
        have hsplit : walkSum m (A ++ (e₁ :: (B ++ (e₂ :: C))))
            = walkSum m (e₁ :: B) + walkSum m (A ++ (e₂ :: C)) := by
          simp only [walkSum_append, walkSum_cons]
          abel
        rw [hsplit, hz1, hz2, add_zero]

/-- C6: with a balanced morphism (every simple cycle sums to zero), any two
walks from the root to `u` have the same morphism-image sum, provided `u` can
walk back to the root (true inside an SCC); hence the potential
`morphism[label] + path sum` that `relabel` assigns is independent of the
chosen root-to-`u` path. -/
theorem C6_potential_path_independent {M : Type} [AddCommGroup M]
    (G : Graph) (m : Label → M)
    (hbal : ∀ v es, SimpleCycleW G v es → walkSum m es = 0)
    (root u : Nat) (w1 w2 wb : List Edge)
    (h1 : edgeChain G root u w1) (h2 : edgeChain G root u w2)
    (hb : edgeChain G u root wb) :
    walkSum m w1 = walkSum m w2 ∧
      ∀ lab : Label, m lab + walkSum m w1 = m lab + walkSum m w2 := by
  have hz1 : walkSum m (w1 ++ wb) = 0 :=
    closed_walk_sum_zero G m hbal (w1 ++ wb).length _ root (le_refl _)
      ((edgeChain_append G w1 wb root root).mpr ⟨u, h1, hb⟩)
  have hz2 : walkSum m (w2 ++ wb) = 0 :=
    closed_walk_sum_zero G m hbal (w2 ++ wb).length _ root (le_refl _)
      ((edgeChain_append G w2 wb root root).mpr ⟨u, h2, hb⟩)
  rw [walkSum_append] at hz1 hz2
  have hmain : walkSum m w1 = walkSum m w2 := by
    have := hz1.trans hz2.symm
    exact add_right_cancel this
  exact ⟨hmain, fun lab => by rw [hmain]⟩

/-- A 2-node cycle `0 →a 1 →b 0`, the smallest SCC with a nonempty walk. -/
def cycG : Graph := ⟨[0, 1], [⟨0, 1, 0, Label.sym 0⟩, ⟨1, 0, 1, Label.sym 1⟩]⟩

/-- A balanced morphism on `cycG`: `a ↦ 1`, everything else `↦ -1`. -/
def mC6 : Label → ℚ := fun l => if l = Label.sym 0 then 1 else -1

theorem cycG_balanced : ∀ (v : Nat) (es : List Edge),
    SimpleCycleW cycG v es → walkSum mC6 es = 0 := by
  rintro v es ⟨hne, hch, hnd⟩
  cases es with
  | nil => exact absurd rfl hne
  | cons e es1 =>
    obtain ⟨he, hs, hch1⟩ := hch
    cases es1 with
    | nil =>
      exfalso
      have ht : e.tgt = v := hch1
      have hmem : e = (⟨0, 1, 0, Label.sym 0⟩ : Edge) ∨ e = ⟨1, 0, 1, Label.sym 1⟩ := by
        simpa [cycG] using he
      rcases hmem with rfl | rfl
      · simp at hs ht; omega
      · simp at hs ht; omega
    | cons f es2 =>
      obtain ⟨hf, hfs, hch2⟩ := hch1
      cases es2 with
      | nil =>
        have hmeme : e = (⟨0, 1, 0, Label.sym 0⟩ : Edge) ∨ e = ⟨1, 0, 1, Label.sym 1⟩ := by
          simpa [cycG] using he
        have hmemf : f = (⟨0, 1, 0, Label.sym 0⟩ : Edge) ∨ f = ⟨1, 0, 1, Label.sym 1⟩ := by
          simpa [cycG] using hf
        rcases hmeme with rfl | rfl <;> rcases hmemf with rfl | rfl
        · exfalso; simp at hfs
        · norm_num [walkSum, mC6]
        · norm_num [walkSum, mC6]
        · exfalso; simp at hfs
      | cons g es3 =>
        exfalso
        obtain ⟨hg, hgs, -⟩ := hch2
        simp only [List.map_cons, List.nodup_cons, List.mem_cons] at hnd
        have hef : e.src ≠ f.src := fun h => hnd.1 (Or.inl h)
        have heg : e.src ≠ g.src := fun h => hnd.1 (Or.inr (Or.inl h))
        have hfg : f.src ≠ g.src := fun h => hnd.2.1 (Or.inl h)
        have hsrce : e.src = 0 ∨ e.src = 1 := by
          have h' : e = (⟨0, 1, 0, Label.sym 0⟩ : Edge) ∨ e = ⟨1, 0, 1, Label.sym 1⟩ := by
            simpa [cycG] using he
          rcases h' with rfl | rfl
          · exact Or.inl rfl
          · exact Or.inr rfl
        have hsrcf : f.src = 0 ∨ f.src = 1 := by
          have h' : f = (⟨0, 1, 0, Label.sym 0⟩ : Edge) ∨ f = ⟨1, 0, 1, Label.sym 1⟩ := by
            simpa [cycG] using hf
          rcases h' with rfl | rfl
          · exact Or.inl rfl
          · exact Or.inr rfl
        have hsrcg : g.src = 0 ∨ g.src = 1 := by
          have h' : g = (⟨0, 1, 0, Label.sym 0⟩ : Edge) ∨ g = ⟨1, 0, 1, Label.sym 1⟩ := by
            simpa [cycG] using hg
          rcases h' with rfl | rfl
          · exact Or.inl rfl
          · exact Or.inr rfl
        rcases hsrce with h1 | h1 <;> rcases hsrcf with h2 | h2 <;>
          rcases hsrcg with h3 | h3 <;> omega

/-- C6 witness: on the 2-cycle, the walk `0 →a 1 →b 0` and the empty walk
are two root-to-root paths with equal (zero) balanced-morphism sums. -/
theorem C6_witness :
    walkSum mC6 [⟨0, 1, 0, Label.sym 0⟩, ⟨1, 0, 1, Label.sym 1⟩]
        = walkSum mC6 ([] : List Edge) ∧
      ∀ lab : Label,
        mC6 lab + walkSum mC6 [⟨0, 1, 0, Label.sym 0⟩, ⟨1, 0, 1, Label.sym 1⟩]
          = mC6 lab + walkSum mC6 ([] : List Edge) :=
  C6_potential_path_independent cycG mC6 cycG_balanced 0 0
    [⟨0, 1, 0, Label.sym 0⟩, ⟨1, 0, 1, Label.sym 1⟩] [] []
    ⟨by simp [cycG], rfl, by simp [cycG], rfl, rfl⟩ rfl rfl

/-! ## Exact linear algebra: the computed null space is the null space
(towards renaming invariance, claim C8) -/

/-- Dot product of two rational vectors. -/
def dotL (v w : List ℚ) : ℚ := (List.zipWith (· * ·) v w).sum

/-- `v` lies in the null space of the row list `rows`. -/
def InNull (rows : List (List ℚ)) (v : List ℚ) : Prop :=
  ∀ r ∈ rows, dotL r v = 0

theorem dotL_nil_left (v : List ℚ) : dotL [] v = 0 := rfl

theorem dotL_addVecs (a b v : List ℚ) (h : a.length = b.length) :
    dotL (addVecs a b) v = dotL a v + dotL b v := by
  induction a generalizing b v with
  | nil =>
    have : b = [] := List.length_eq_zero.mp h.symm
    simp [this, addVecs, dotL]
  | cons x xs ih =>
    cases b with
    | nil => simp at h
    | cons y ys =>
      cases v with
      | nil => simp [addVecs, dotL]
      | cons z zs =>
        have hl : xs.length = ys.length := by simpa using h
        have ihz := ih ys zs hl
        show (x + y) * z + dotL (addVecs xs ys) zs
          = (x * z + dotL xs zs) + (y * z + dotL ys zs)
        rw [show dotL (addVecs xs ys) zs = dotL xs zs + dotL ys zs from ihz]
        ring

theorem dotL_map_mul (c : ℚ) (a v : List ℚ) :
    dotL (a.map (fun x => c * x)) v = c * dotL a v := by
  induction a generalizing v with
  | nil => simp [dotL]
  | cons x xs ih =>
    cases v with
    | nil => simp [dotL]
    | cons z zs =>
      simp only [List.map_cons, dotL, List.zipWith_cons_cons, List.sum_cons]
      rw [show (List.zipWith (· * ·) (xs.map (fun x => c * x)) zs).sum
        = dotL (xs.map (fun x => c * x)) zs from rfl, ih zs]
      rw [show (List.zipWith (· * ·) xs zs).sum = dotL xs zs from rfl]
      ring

theorem dotL_map_div (a v : List ℚ) (c : ℚ) :
    dotL (a.map (· / c)) v = dotL a v / c := by
  have : a.map (· / c) = a.map (fun x => c⁻¹ * x) := by
    apply List.map_congr_left
    intro x _
    rw [div_eq_mul_inv, mul_comm]
  rw [this, dotL_map_mul, inv_mul_eq_div]

theorem set_getElem_self_eq (l : List (List ℚ)) (n : Nat) (h : n < l.length) :
    l.set n l[n] = l := by
  apply List.ext_getElem
  · simp
  · intro k h1 h2
    rw [List.getElem_set]
    split
    · next heq => subst heq; rfl
    · rfl

theorem mem_double_set_iff (l : List (List ℚ)) (i r : Nat)
    (hi : i < l.length) (hr : r < l.length) (x : List ℚ) :
    x ∈ (l.set i (l.getD r [])).set r (l.getD i []) ↔ x ∈ l := by
  rw [List.getD_eq_getElem l [] hr, List.getD_eq_getElem l [] hi]
  by_cases hir : i = r
  · subst hir
    rw [set_getElem_self_eq l i hi, set_getElem_self_eq l i hi]
  · constructor
    · intro hx
      rw [List.mem_iff_getElem] at hx
      obtain ⟨k, hk, hkx⟩ := hx
      rw [List.getElem_set] at hkx
      split at hkx
      · rw [← hkx]; exact List.getElem_mem hi
      · rw [List.getElem_set] at hkx
        split at hkx
        · rw [← hkx]; exact List.getElem_mem hr
        · rw [← hkx]; exact List.getElem_mem (by simpa using hk)
    · intro hx
      rw [List.mem_iff_getElem] at hx ⊢
      obtain ⟨k, hk, hkx⟩ := hx
      by_cases hki : k = i
      · subst hki
        refine ⟨r, by simpa using hr, ?_⟩
        rw [List.getElem_set, if_pos rfl, hkx]
      · by_cases hkr : k = r
        · subst hkr
          refine ⟨i, by simpa using hi, ?_⟩
          rw [List.getElem_set, if_neg (fun hh => hir hh.symm), List.getElem_set,
            if_pos rfl, hkx]
        · refine ⟨k, by simpa using hk, ?_⟩
          rw [List.getElem_set, if_neg (fun hh => hkr hh.symm), List.getElem_set,
            if_neg (fun hh => hki hh.symm), hkx]

/-- The row swap performed by one `rref` column step. -/
def swapRows (rows : List (List ℚ)) (i r : Nat) : List (List ℚ) :=
  (setNth rows i (rows.getD r [])).set r (rows.getD i [])

/-- The scaling-and-elimination performed by one `rref` column step, with
`prn` the normalised pivot row. -/
def elimRows (rows : List (List ℚ)) (r : Nat) (prn : List ℚ) (c : Nat) :
    List (List ℚ) :=
  rows.enum.map (fun p =>
    if p.1 = r then prn
    else addVecs p.2 (prn.map (fun x => -(p.2.getD c 0) * x)))

theorem rrefStep_eq (rows : List (List ℚ)) (r : Nat) (pivots : List Nat) (c : Nat) :
    rrefStep (rows, r, pivots) c =
      match (rows.drop r).findIdx? (fun row => row.getD c 0 ≠ 0) with
      | none => (rows, r, pivots)
      | some k =>
        (elimRows (swapRows rows (r + k) r) r
          ((rows.getD (r + k) []).map (· / (rows.getD (r + k) []).getD c 0)) c,
         r + 1, pivots ++ [c]) := rfl

theorem rrefStep_none (rows : List (List ℚ)) (r : Nat) (pivots : List Nat) (c : Nat)
    (h : (rows.drop r).findIdx? (fun row => row.getD c 0 ≠ 0) = none) :
    rrefStep (rows, r, pivots) c = (rows, r, pivots) := by
  rw [rrefStep_eq, h]

theorem rrefStep_some (rows : List (List ℚ)) (r : Nat) (pivots : List Nat)
    (c k : Nat)
    (h : (rows.drop r).findIdx? (fun row => row.getD c 0 ≠ 0) = some k) :
    rrefStep (rows, r, pivots) c =
      (elimRows (swapRows rows (r + k) r) r
        ((rows.getD (r + k) []).map (· / (rows.getD (r + k) []).getD c 0)) c,
       r + 1, pivots ++ [c]) := by
  rw [rrefStep_eq, h]

theorem mem_swapRows_iff (rows : List (List ℚ)) (i r : Nat)
    (hi : i < rows.length) (hr : r < rows.length) (x : List ℚ) :
    x ∈ swapRows rows i r ↔ x ∈ rows :=
  mem_double_set_iff rows i r hi hr x

theorem length_swapRows (rows : List (List ℚ)) (i r : Nat) :
    (swapRows rows i r).length = rows.length := by
  simp [swapRows, setNth]

theorem swapRows_getElem_r (rows : List (List ℚ)) (i r : Nat)
    (hr : r < (swapRows rows i r).length) :
    (swapRows rows i r)[r] = rows.getD i [] := by
  unfold swapRows setNth
  exact List.getElem_set_self ..

theorem length_elimRows (rows : List (List ℚ)) (r : Nat) (prn : List ℚ) (c : Nat) :
    (elimRows rows r prn c).length = rows.length := by
  simp [elimRows]

theorem elimRows_getElem (rows : List (List ℚ)) (r : Nat) (prn : List ℚ)
    (c j : Nat) (hj : j < (elimRows rows r prn c).length) :
    (elimRows rows r prn c)[j]
      = if j = r then prn
        else addVecs (rows.get ⟨j, by simpa [elimRows] using hj⟩)
          (prn.map (fun x =>
            -((rows.get ⟨j, by simpa [elimRows] using hj⟩).getD c 0) * x)) := by
  have hj' : j < rows.length := by simpa [elimRows] using hj
  unfold elimRows
  rw [List.getElem_map, List.getElem_enum]
  rfl

theorem mem_elimRows (rows : List (List ℚ)) (r : Nat) (prn : List ℚ) (c : Nat)
    (x : List ℚ) (hx : x ∈ elimRows rows r prn c) :
    x = prn ∨ ∃ row ∈ rows,
      x = addVecs row (prn.map (fun y => -(row.getD c 0) * y)) := by
  rw [List.mem_iff_getElem] at hx
  obtain ⟨j, hj, hjx⟩ := hx
  rw [elimRows_getElem] at hjx
  split at hjx
  · exact Or.inl hjx.symm
  · exact Or.inr ⟨_, List.getElem_mem _, hjx.symm⟩

theorem rowsLen_swapRows (n : Nat) (rows : List (List ℚ)) (i r : Nat)
    (hi : i < rows.length) (hr : r < rows.length)
    (h : ∀ row ∈ rows, row.length = n) :
    ∀ row ∈ swapRows rows i r, row.length = n := by
  intro row hrow
  exact h row ((mem_swapRows_iff rows i r hi hr row).mp hrow)

theorem rowsLen_elimRows (n : Nat) (rows : List (List ℚ)) (r : Nat)
    (prn : List ℚ) (c : Nat) (hprn : prn.length = n)
    (h : ∀ row ∈ rows, row.length = n) :
    ∀ row ∈ elimRows rows r prn c, row.length = n := by
  intro row hrow
  rcases mem_elimRows rows r prn c row hrow with rfl | ⟨row', hrow', rfl⟩
  · exact hprn
  · rw [addVecs, List.length_zipWith, List.length_map, h row' hrow', hprn]
    exact Nat.min_self n

theorem findIdx?_found {α : Type _} (p : α → Bool) :
    ∀ (l : List α) (k : Nat), l.findIdx? p = some k →
      ∃ hk : k < l.length, p (l.get ⟨k, hk⟩) = true := by
  intro l
  induction l with
  | nil => intro k h; simp at h
  | cons x xs ih =>
    intro k h
    rw [List.findIdx?_cons] at h
    by_cases hx : p x = true
    · rw [if_pos hx] at h
      cases Option.some.inj h
      exact ⟨by simp, hx⟩
    · rw [if_neg hx, List.findIdx?_start_succ] at h
      cases hxs : xs.findIdx? p with
      | none => rw [hxs] at h; simp at h
      | some j =>
        rw [hxs] at h
        simp at h
        rcases ih j hxs with ⟨hlt, hp⟩
        subst h
        exact ⟨by simpa using Nat.succ_lt_succ hlt, by simpa using hp⟩

theorem elimRows_null_forward (A : List (List ℚ)) (r : Nat) (pr : List ℚ)
    (c : Nat) (v : List ℚ) (n : Nat)
    (hAlen : ∀ row ∈ A, row.length = n) (hprlen : pr.length = n)
    (hrA : r < A.length) (hAr : A[r] = pr) (pv : ℚ) (hpv : pv ≠ 0)
    (h2 : InNull (elimRows A r (pr.map (· / pv)) c) v) :
    InNull A v := by
  have hrelim : r < (elimRows A r (pr.map (· / pv)) c).length := by
    rw [length_elimRows]; exact hrA
  have hgetr : (elimRows A r (pr.map (· / pv)) c)[r] = pr.map (· / pv) := by
    rw [elimRows_getElem, if_pos rfl]
  have hdprn : dotL (pr.map (· / pv)) v = 0 := by
    rw [← hgetr]
    exact h2 _ (List.getElem_mem hrelim)
  have hdpr : dotL pr v = 0 := by
    rw [dotL_map_div] at hdprn
    field_simp at hdprn
    exact hdprn
  intro row hrow
  rw [List.mem_iff_getElem] at hrow
  obtain ⟨j, hj, rfl⟩ := hrow
  by_cases hjr : j = r
  · subst hjr
    rw [hAr]
    exact hdpr
  · have hjelim : j < (elimRows A r (pr.map (· / pv)) c).length := by
      rw [length_elimRows]; exact hj
    have helimj : (elimRows A r (pr.map (· / pv)) c)[j]
        = addVecs (A.get ⟨j, hj⟩)
            ((pr.map (· / pv)).map (fun x => -((A.get ⟨j, hj⟩).getD c 0) * x)) := by
      rw [elimRows_getElem, if_neg hjr]
    have hd : dotL ((elimRows A r (pr.map (· / pv)) c)[j]) v = 0 :=
      h2 _ (List.getElem_mem hjelim)
    rw [helimj, dotL_addVecs _ _ v
        (by simp [List.get_eq_getElem, hAlen _ (List.getElem_mem hj), hprlen]),
      dotL_map_mul, hdprn, mul_zero, add_zero] at hd
    exact hd

theorem elimRows_null_back (A : List (List ℚ)) (r : Nat) (pr : List ℚ)
    (c : Nat) (v : List ℚ) (n : Nat)
    (hAlen : ∀ row ∈ A, row.length = n) (hprlen : pr.length = n)
    (hrA : r < A.length) (hAr : A[r] = pr) (pv : ℚ)
    (h1 : InNull A v) :
    InNull (elimRows A r (pr.map (· / pv)) c) v := by
  have hdpr : dotL pr v = 0 := by
    rw [← hAr]
    exact h1 _ (List.getElem_mem hrA)
  have hdprn : dotL (pr.map (· / pv)) v = 0 := by
    rw [dotL_map_div, hdpr, zero_div]
  intro row hrow
  rcases mem_elimRows A r (pr.map (· / pv)) c row hrow with rfl | ⟨row', hrow', rfl⟩
  · exact hdprn
  · rw [dotL_addVecs _ _ v
        (by rw [hAlen _ hrow', List.length_map, List.length_map, hprlen]),
      dotL_map_mul, hdprn, mul_zero, add_zero]
    exact h1 row' hrow'

/-- One `rref` column step preserves the null space exactly: the new rows are
invertible combinations of the old ones. -/
theorem rrefStep_null_iff (rows : List (List ℚ)) (r : Nat) (pivots : List Nat)
    (c : Nat) (n : Nat) (hlen : ∀ row ∈ rows, row.length = n) (v : List ℚ) :
    InNull (rrefStep (rows, r, pivots) c).1 v ↔ InNull rows v := by
  cases hfind : (rows.drop r).findIdx? (fun row => row.getD c 0 ≠ 0) with
  | none => rw [rrefStep_none rows r pivots c hfind]
  | some k =>
    rw [rrefStep_some rows r pivots c k hfind]
    rcases findIdx?_found _ _ _ hfind with ⟨hklt, hfound⟩
    have hi : r + k < rows.length := by
      rw [List.length_drop] at hklt
      omega
    have hr : r < rows.length := by omega
    have hgd : rows.getD (r + k) [] = rows[r + k] := List.getD_eq_getElem rows [] hi
    have hdropk : (rows.drop r).get ⟨k, hklt⟩ = rows[r + k] := List.getElem_drop rows
    have hpv : (rows.getD (r + k) []).getD c 0 ≠ 0 := by
      rw [hgd, ← hdropk]
      simpa using hfound
    have hprmem : rows.getD (r + k) [] ∈ rows := by
      rw [hgd]
      exact List.getElem_mem hi
    have hprlen : (rows.getD (r + k) []).length = n := hlen _ hprmem
    have hrA : r < (swapRows rows (r + k) r).length := by
      rw [length_swapRows]; exact hr
    have hAr : (swapRows rows (r + k) r)[r] = rows.getD (r + k) [] :=
      swapRows_getElem_r rows (r + k) r hrA
    have hAlen : ∀ row ∈ swapRows rows (r + k) r, row.length = n :=
      rowsLen_swapRows n rows (r + k) r hi hr hlen
    have hmemiff := mem_swapRows_iff rows (r + k) r hi hr
    constructor
    · intro h2
      have hA : InNull (swapRows rows (r + k) r) v :=
        elimRows_null_forward _ r _ c v n hAlen hprlen hrA hAr _ hpv h2
      intro row hrow
      exact hA row ((hmemiff row).mpr hrow)
    · intro h1
      have hA : InNull (swapRows rows (r + k) r) v := by
        intro row hrow
        exact h1 row ((hmemiff row).mp hrow)
      exact elimRows_null_back _ r _ c v n hAlen hprlen hrA hAr _ hA

theorem rowsLen_rrefStep (n : Nat) (rows : List (List ℚ)) (r : Nat)
    (pivots : List Nat) (c : Nat) (hlen : ∀ row ∈ rows, row.length = n) :
    ∀ row ∈ (rrefStep (rows, r, pivots) c).1, row.length = n := by
  cases hfind : (rows.drop r).findIdx? (fun row => row.getD c 0 ≠ 0) with
  | none => rw [rrefStep_none rows r pivots c hfind]; exact hlen
  | some k =>
    rw [rrefStep_some rows r pivots c k hfind]
    rcases findIdx?_found _ _ _ hfind with ⟨hklt, -⟩
    have hi : r + k < rows.length := by
      rw [List.length_drop] at hklt
      omega
    have hr : r < rows.length := by omega
    have hprmem : rows.getD (r + k) [] ∈ rows := by
      rw [List.getD_eq_getElem rows [] hi]
      exact List.getElem_mem hi
    exact rowsLen_elimRows n _ r _ c
      (by rw [List.length_map]; exact hlen _ hprmem)
      (rowsLen_swapRows n rows (r + k) r hi hr hlen)

theorem rref_fold_null (cols : List Nat) :
    ∀ (st : List (List ℚ) × Nat × List Nat) (n : Nat),
      (∀ row ∈ st.1, row.length = n) →
      ∀ v : List ℚ,
        (∀ row ∈ (cols.foldl rrefStep st).1, row.length = n) ∧
          (InNull (cols.foldl rrefStep st).1 v ↔ InNull st.1 v) := by
  induction cols with
  | nil => intro st n hlen v; exact ⟨hlen, Iff.rfl⟩
  | cons c cols ih =>
    intro st n hlen v
    obtain ⟨rows, r, pivots⟩ := st
    rw [List.foldl_cons]
    have hstep := rowsLen_rrefStep n rows r pivots c hlen
    rcases ih (rrefStep (rows, r, pivots) c) n hstep v with ⟨h1, h2⟩
    exact ⟨h1, h2.trans (rrefStep_null_iff rows r pivots c n hlen v)⟩

/-- Gauss–Jordan reduction preserves the null space. -/
theorem rref_null_iff (rows : List (List ℚ)) (n ncols : Nat)
    (hlen : ∀ row ∈ rows, row.length = n) (v : List ℚ) :
    InNull (rref rows ncols).1 v ↔ InNull rows v := by
  rw [rref]
  exact (rref_fold_null (List.range ncols) (rows, 0, []) n hlen v).2

theorem swapRows_getElem (rows : List (List ℚ)) (i r : Nat)
    (hi : i < rows.length) (hr : r < rows.length) (j : Nat)
    (hj : j < (swapRows rows i r).length) :
    (swapRows rows i r)[j]
      = if j = r then rows[i]
        else if j = i then rows[r]
        else rows.get ⟨j, by simpa [length_swapRows] using hj⟩ := by
  unfold swapRows setNth
  rw [List.getElem_set]
  split
  · next h => subst h; rw [if_pos rfl, List.getD_eq_getElem rows [] hi]
  · next h =>
    have hjr : j ≠ r := fun hh => h hh.symm
    rw [if_neg hjr, List.getElem_set]
    split
    · next h2 => subst h2; rw [if_pos rfl, List.getD_eq_getElem rows [] hr]
    · next h2 =>
        rw [if_neg (fun hh => h2 hh.symm)]
        rfl

theorem getD_map_mul (c : ℚ) (a : List ℚ) (k : Nat) :
    (a.map (fun x => c * x)).getD k 0 = c * a.getD k 0 := by
  by_cases hk : k < a.length
  · rw [List.getD_eq_getElem _ 0 (by simpa using hk), List.getD_eq_getElem _ 0 hk,
      List.getElem_map]
  · rw [List.getD_eq_default _ 0 (by simpa using Nat.le_of_not_lt hk),
      List.getD_eq_default _ 0 (Nat.le_of_not_lt hk), mul_zero]

theorem getD_map_div (a : List ℚ) (pv : ℚ) (k : Nat) :
    (a.map (· / pv)).getD k 0 = a.getD k 0 / pv := by
  by_cases hk : k < a.length
  · rw [List.getD_eq_getElem _ 0 (by simpa using hk), List.getD_eq_getElem _ 0 hk,
      List.getElem_map]
  · rw [List.getD_eq_default _ 0 (by simpa using Nat.le_of_not_lt hk),
      List.getD_eq_default _ 0 (Nat.le_of_not_lt hk), zero_div]

theorem getD_addVecs (a b : List ℚ) (h : a.length = b.length) (k : Nat) :
    (addVecs a b).getD k 0 = a.getD k 0 + b.getD k 0 := by
  by_cases hk : k < a.length
  · have hmin : k < (addVecs a b).length := by
      rw [addVecs, List.length_zipWith, ← h, Nat.min_self]; exact hk
    rw [List.getD_eq_getElem _ 0 hmin, List.getD_eq_getElem _ 0 hk,
      List.getD_eq_getElem _ 0 (h ▸ hk)]
    unfold addVecs
    rw [List.getElem_zipWith]
  · have hka : a.length ≤ k := Nat.le_of_not_lt hk
    have hmin : (addVecs a b).length ≤ k := by
      rw [addVecs, List.length_zipWith, ← h, Nat.min_self]; exact hka
    rw [List.getD_eq_default _ 0 hmin, List.getD_eq_default _ 0 hka,
      List.getD_eq_default _ 0 (h ▸ hka), add_zero]

theorem getD_append_last (l : List Nat) (c : Nat) : (l ++ [c]).getD l.length 0 = c := by
  rw [List.getD_eq_getElem _ 0 (by simp)]
  simp

theorem swapRows_getD (rows : List (List ℚ)) (i r : Nat)
    (hi : i < rows.length) (hr : r < rows.length) (j : Nat) (hj : j < rows.length) :
    (swapRows rows i r).getD j []
      = if j = r then rows.getD i []
        else if j = i then rows.getD r []
        else rows.getD j [] := by
  have hj' : j < (swapRows rows i r).length := by rw [length_swapRows]; exact hj
  rw [List.getD_eq_getElem _ [] hj', swapRows_getElem rows i r hi hr j hj']
  split
  · rw [List.getD_eq_getElem rows [] hi]
  · split
    · rw [List.getD_eq_getElem rows [] hr]
    · rw [List.getD_eq_getElem rows [] hj]
      rfl

theorem elimRows_getD (rows : List (List ℚ)) (r : Nat) (prn : List ℚ)
    (c j : Nat) (hj : j < rows.length) :
    (elimRows rows r prn c).getD j []
      = if j = r then prn
        else addVecs (rows.getD j [])
          (prn.map (fun x => -((rows.getD j []).getD c 0) * x)) := by
  have hj' : j < (elimRows rows r prn c).length := by
    rw [length_elimRows]; exact hj
  rw [List.getD_eq_getElem _ [] hj', elimRows_getElem rows r prn c j hj']
  split
  · rfl
  · rw [List.getD_eq_getElem rows [] hj]
    rfl

/-- The structural invariant of the Gauss–Jordan state after all columns
below `c` have been processed: `r` pivot rows so far, each with a unit pivot
entry whose column is zero in every other row, rows below `r` zero on all
processed columns, pivot columns increasing. -/
structure RrefInv (n c : Nat) (st : List (List ℚ) × Nat × List Nat) : Prop where
  len : ∀ row ∈ st.1, row.length = n
  rle : st.2.1 ≤ st.1.length
  plen : st.2.2.length = st.2.1
  pbound : ∀ p ∈ st.2.2, p < c
  psorted : st.2.2.Pairwise (· < ·)
  punit : ∀ s, s < st.2.1 → (st.1.getD s []).getD (st.2.2.getD s 0) 0 = 1
  pzero : ∀ s, s < st.2.1 → ∀ j, j < st.1.length → j ≠ s →
    (st.1.getD j []).getD (st.2.2.getD s 0) 0 = 0
  bzero : ∀ col, col < c → ∀ j, st.2.1 ≤ j → j < st.1.length →
    (st.1.getD j []).getD col 0 = 0

theorem rrefInv_init (n : Nat) (rows : List (List ℚ))
    (hlen : ∀ row ∈ rows, row.length = n) :
    RrefInv n 0 (rows, 0, []) := by
  refine ⟨hlen, Nat.zero_le _, rfl, ?_, List.Pairwise.nil, ?_, ?_, ?_⟩
  · intro p hp; simp at hp
  · intro s hs; exact absurd hs (Nat.not_lt_zero s)
  · intro s hs; exact absurd hs (Nat.not_lt_zero s)
  · intro col hcol; exact absurd hcol (Nat.not_lt_zero col)

theorem rrefInv_step (n c : Nat) (rows : List (List ℚ)) (r : Nat)
    (pivots : List Nat) (h : RrefInv n c (rows, r, pivots)) :
    RrefInv n (c + 1) (rrefStep (rows, r, pivots) c) := by
  obtain ⟨hlen, hrle, hplen, hpbound, hpsorted, hpunit, hpzero, hbzero⟩ := h
  dsimp only at hlen hrle hplen hpbound hpsorted hpunit hpzero hbzero
  cases hfind : (rows.drop r).findIdx? (fun row => row.getD c 0 ≠ 0) with
  | none =>
    rw [rrefStep_none rows r pivots c hfind]
    refine ⟨hlen, hrle, hplen, ?_, hpsorted, hpunit, hpzero, ?_⟩
    · intro p hp; exact Nat.lt_succ_of_lt (hpbound p hp)
    · dsimp only
      intro col hcol j hrj hjlen
      by_cases hcc : col = c
      · subst hcc
        obtain ⟨d, rfl⟩ : ∃ d, j = r + d := ⟨j - r, by omega⟩
        have hd : d < (rows.drop r).length := by rw [List.length_drop]; omega
        have hdk : (rows.drop r)[d] = rows[r + d] := List.getElem_drop rows
        have hmem : rows[r + d] ∈ rows.drop r := by
          rw [← hdk]; exact List.getElem_mem hd
        have hnone := List.findIdx?_eq_none_iff.mp hfind _ hmem
        rw [List.getD_eq_getElem rows [] hjlen]
        simpa using hnone
      · exact hbzero col (by omega) j hrj hjlen
  | some k =>
    rw [rrefStep_some rows r pivots c k hfind]
    rcases findIdx?_found _ _ _ hfind with ⟨hklt, hfound⟩
    have hi : r + k < rows.length := by rw [List.length_drop] at hklt; omega
    have hr : r < rows.length := by omega
    have hpv0 : (rows.getD (r + k) []).getD c 0 ≠ 0 := by
      have hdropk : (rows.drop r)[k] = rows[r + k] := List.getElem_drop rows
      rw [List.getD_eq_getElem rows [] hi, ← hdropk]
      simpa using hfound
    have hprlen0 : (rows.getD (r + k) []).length = n := by
      rw [List.getD_eq_getElem rows [] hi]; exact hlen _ (List.getElem_mem hi)
    have hprzero_piv : ∀ s, s < r →
        (rows.getD (r + k) []).getD (pivots.getD s 0) 0 = 0 := by
      intro s hs
      exact hpzero s hs (r + k) hi (by omega)
    have hprzero_b : ∀ col, col < c → (rows.getD (r + k) []).getD col 0 = 0 := by
      intro col hcol
      exact hbzero col hcol (r + k) (by omega) hi
    generalize hPR : rows.getD (r + k) [] = pr at *
    generalize hPV : pr.getD c 0 = pv at *
    generalize hPRN : pr.map (· / pv) = prn
    have hprnlen : prn.length = n := by rw [← hPRN, List.length_map, hprlen0]
    have hprn_c : prn.getD c 0 = 1 := by
      rw [← hPRN, getD_map_div, hPV, div_self hpv0]
    have hprn_piv : ∀ s, s < r → prn.getD (pivots.getD s 0) 0 = 0 := by
      intro s hs
      rw [← hPRN, getD_map_div, hprzero_piv s hs, zero_div]
    have hprn_b : ∀ col, col < c → prn.getD col 0 = 0 := by
      intro col hcol
      rw [← hPRN, getD_map_div, hprzero_b col hcol, zero_div]
    have hA1len : (swapRows rows (r + k) r).length = rows.length :=
      length_swapRows ..
    have hA1getD : ∀ j, j < rows.length →
        (swapRows rows (r + k) r).getD j []
          = if j = r then pr
            else if j = r + k then rows.getD r []
            else rows.getD j [] := by
      intro j hj
      rw [swapRows_getD rows (r + k) r hi hr j hj, hPR]
    have hA1mem : ∀ j, j < rows.length →
        (swapRows rows (r + k) r).getD j [] ∈ rows := by
      intro j hj
      have hj' : j < (swapRows rows (r + k) r).length := by rw [hA1len]; exact hj
      rw [List.getD_eq_getElem _ [] hj']
      exact (mem_swapRows_iff rows (r + k) r hi hr _).mp (List.getElem_mem hj')
    have hA1len' : ∀ j, j < rows.length →
        ((swapRows rows (r + k) r).getD j []).length = n := by
      intro j hj
      exact hlen _ (hA1mem j hj)
    have hELlen : (elimRows (swapRows rows (r + k) r) r prn c).length
        = rows.length := by
      rw [length_elimRows, hA1len]
    have hELgetD : ∀ j, j < rows.length →
        (elimRows (swapRows rows (r + k) r) r prn c).getD j []
          = if j = r then prn
            else addVecs ((swapRows rows (r + k) r).getD j [])
              (prn.map (fun x =>
                -(((swapRows rows (r + k) r).getD j []).getD c 0) * x)) := by
      intro j hj
      exact elimRows_getD (swapRows rows (r + k) r) r prn c j (by rw [hA1len]; exact hj)
    have hentry : ∀ j, j < rows.length → j ≠ r → ∀ col,
        ((elimRows (swapRows rows (r + k) r) r prn c).getD j []).getD col 0
          = ((swapRows rows (r + k) r).getD j []).getD col 0
            + (-(((swapRows rows (r + k) r).getD j []).getD c 0)) * prn.getD col 0 := by
      intro j hj hjr col
      rw [hELgetD j hj, if_neg hjr,
        getD_addVecs _ _ (by rw [hA1len' j hj, List.length_map, hprnlen]),
        getD_map_mul]
    have hpig : ∀ s, s < r → (pivots ++ [c]).getD s 0 = pivots.getD s 0 := by
      intro s hs
      rw [List.getD_append _ _ 0 s (by omega)]
    have hpig_r : (pivots ++ [c]).getD r 0 = c := by
      rw [← hplen]
      exact getD_append_last pivots c
    refine ⟨?_, ?_, ?_, ?_, ?_, ?_, ?_, ?_⟩
    all_goals dsimp only
    · exact rowsLen_elimRows n _ r prn c hprnlen
        (fun row hrow => hlen row ((mem_swapRows_iff rows (r + k) r hi hr row).mp hrow))
    · show r + 1 ≤ _
      rw [hELlen]; omega
    · show (pivots ++ [c]).length = r + 1
      rw [List.length_append, hplen]; rfl
    · intro p hp
      rcases List.mem_append.mp hp with hp' | hp'
      · exact Nat.lt_succ_of_lt (hpbound p hp')
      · rw [List.mem_singleton.mp hp']; exact Nat.lt_succ_self c
    · rw [List.pairwise_append]
      exact ⟨hpsorted, List.pairwise_singleton _ _,
        fun p hp q hq => (List.mem_singleton.mp hq) ▸ hpbound p hp⟩
    · -- punit
      intro s hs
      by_cases hsr : s = r
      · subst hsr
        rw [hpig_r, hELgetD s hr, if_pos rfl]
        exact hprn_c
      · have hs' : s < r := by omega
        rw [hpig s hs', hELgetD s (by omega), if_neg hsr]
        have hA1s : (swapRows rows (r + k) r).getD s []
            = rows.getD s [] := by
          rw [hA1getD s (by omega), if_neg hsr, if_neg (by omega)]
        rw [getD_addVecs _ _ (by rw [hA1len' s (by omega), List.length_map, hprnlen]),
          getD_map_mul, hA1s, hprn_piv s hs', mul_zero, add_zero]
        exact hpunit s hs'
    · -- pzero
      intro s hs j hj hjs
      rw [hELlen] at hj
      by_cases hsr : s = r
      · subst hsr
        rw [hpig_r]
        rw [hentry j hj hjs c, hprn_c, mul_one]
        ring
      · have hs' : s < r := by omega
        rw [hpig s hs']
        by_cases hjr : j = r
        · subst hjr
          rw [hELgetD j hr, if_pos rfl]
          exact hprn_piv s hs'
        · rw [hentry j hj hjr _, hprn_piv s hs', mul_zero, add_zero]
          rw [hA1getD j hj]
          split
          · next h' => exact absurd h' hjr
          · split
            · next h' =>
              rw [← hPR] at *
              exact hpzero s hs' r hr (by omega)
            · exact hpzero s hs' j hj hjs
    · -- bzero
      intro col hcol j hrj hjlen
      rw [hELlen] at hjlen
      have hjr : j ≠ r := by omega
      rw [hentry j hjlen hjr col]
      by_cases hcc : col = c
      · subst hcc
        rw [hprn_c, mul_one]
        ring
      · have hcol' : col < c := by omega
        rw [hprn_b col hcol', mul_zero, add_zero, hA1getD j hjlen,
          if_neg hjr]
        split
        · next h' =>
          exact hbzero col hcol' r (le_refl r) hr
        · exact hbzero col hcol' j (by omega) hjlen

theorem rrefInv_fold (n : Nat) (rows : List (List ℚ))
    (hlen : ∀ row ∈ rows, row.length = n) :
    ∀ ncols : Nat, RrefInv n ncols ((List.range ncols).foldl rrefStep (rows, 0, [])) := by
  intro ncols
  induction ncols with
  | zero => exact rrefInv_init n rows hlen
  | succ m ih =>
    rw [List.range_succ, List.foldl_append, List.foldl_cons, List.foldl_nil]
    generalize hst : (List.range m).foldl rrefStep (rows, 0, []) = st at ih
    obtain ⟨R, r, piv⟩ := st
    exact rrefInv_step n m R r piv ih

/-- A vector of the computed null-space basis. -/
def nsVec (R : List (List ℚ)) (pivots : List Nat) (n j : Nat) : List ℚ :=
  (List.range n).map (fun k =>
    if k = j then 1
    else match pivots.findIdx? (fun c => c = k) with
      | some p => -((R.getD p []).getD j 0)
      | none => 0)

theorem nullspaceOf_cons (r0 : List ℚ) (rest : List (List ℚ)) :
    nullspaceOf (r0 :: rest)
      = ((List.range r0.length).filter
          (fun j => j ∉ (rref (r0 :: rest) r0.length).2)).map
        (nsVec (rref (r0 :: rest) r0.length).1 (rref (r0 :: rest) r0.length).2
          r0.length) := rfl

theorem length_nsVec (R : List (List ℚ)) (pivots : List Nat) (n j : Nat) :
    (nsVec R pivots n j).length = n := by
  simp [nsVec]

theorem getD_nsVec (R : List (List ℚ)) (pivots : List Nat) (n j k : Nat)
    (hk : k < n) :
    (nsVec R pivots n j).getD k 0
      = if k = j then 1
        else match pivots.findIdx? (fun c => c = k) with
          | some p => -((R.getD p []).getD j 0)
          | none => 0 := by
  rw [List.getD_eq_getElem _ 0 (by rw [length_nsVec]; exact hk)]
  unfold nsVec
  rw [List.getElem_map, List.getElem_range]

theorem dotL_zero_of_entries (a : List ℚ) :
    ∀ v : List ℚ, (∀ k, k < a.length → a.getD k 0 = 0) → dotL a v = 0 := by
  induction a with
  | nil => intro v _; rfl
  | cons x xs ih =>
    intro v h
    cases v with
    | nil => simp [dotL]
    | cons y ys =>
      have hx : x = 0 := by simpa using h 0 (by simp)
      show x * y + dotL xs ys = 0
      rw [hx, zero_mul, zero_add]
      apply ih
      intro k hk
      simpa using h (k + 1) (by simpa using Nat.succ_lt_succ hk)

theorem dotL_eq_sum (a b : List ℚ) (n : Nat) (ha : a.length = n)
    (hb : b.length = n) :
    dotL a b = ∑ k ∈ Finset.range n, a.getD k 0 * b.getD k 0 := by
  induction n generalizing a b with
  | zero =>
    rw [List.length_eq_zero.mp ha, Finset.range_zero, Finset.sum_empty]
    rfl
  | succ m ih =>
    cases a with
    | nil => simp at ha
    | cons x xs =>
      cases b with
      | nil => simp at hb
      | cons y ys =>
        show x * y + dotL xs ys = _
        rw [ih xs ys (by simpa using ha) (by simpa using hb),
          Finset.sum_range_succ']
        simp only [List.getD_cons_succ, List.getD_cons_zero]
        ring

theorem findIdx?_pivot_self (pivots : List Nat) (hps : pivots.Pairwise (· < ·))
    (s : Nat) (hs : s < pivots.length) :
    pivots.findIdx? (fun c => c = pivots.getD s 0) = some s := by
  rw [List.findIdx?_eq_some_iff_findIdx_eq]
  refine ⟨hs, ?_⟩
  rw [List.findIdx_eq hs]
  constructor
  · rw [List.getD_eq_getElem pivots 0 hs]
    simp
  · intro j hj
    have hjl : j < pivots.length := by omega
    have hlt : pivots[j] < pivots[s] :=
      List.pairwise_iff_getElem.mp hps j s hjl hs hj
    rw [List.getD_eq_getElem pivots 0 hs]
    rw [decide_eq_false_iff_not]
    omega

theorem findIdx?_found_val (pivots : List Nat) (k u : Nat)
    (h : pivots.findIdx? (fun c => c = k) = some u) :
    u < pivots.length ∧ pivots.getD u 0 = k := by
  rcases findIdx?_found _ _ _ h with ⟨hu, hp⟩
  refine ⟨hu, ?_⟩
  rw [List.getD_eq_getElem pivots 0 hu]
  simpa using hp

theorem dot_pivotRow_nsVec (R : List (List ℚ)) (pivots : List Nat) (n j s : Nat)
    (hRlen : ∀ row ∈ R, row.length = n)
    (hplen : pivots.length ≤ R.length)
    (hs : s < pivots.length)
    (hj : j < n) (hjfree : j ∉ pivots)
    (hpb : ∀ p ∈ pivots, p < n)
    (hpsorted : pivots.Pairwise (· < ·))
    (hpunit : ∀ t, t < pivots.length →
      (R.getD t []).getD (pivots.getD t 0) 0 = 1)
    (hpzero : ∀ t, t < pivots.length → ∀ q, q < R.length → q ≠ t →
      (R.getD q []).getD (pivots.getD t 0) 0 = 0) :
    dotL (R.getD s []) (nsVec R pivots n j) = 0 := by
  have hsR : s < R.length := by omega
  have hrowlen : (R.getD s []).length = n := by
    rw [List.getD_eq_getElem R [] hsR]
    exact hRlen _ (List.getElem_mem hsR)
  have hpsn : pivots.getD s 0 < n := by
    apply hpb
    rw [List.getD_eq_getElem pivots 0 hs]
    exact List.getElem_mem hs
  have hjps : j ≠ pivots.getD s 0 := by
    intro hh
    apply hjfree
    rw [hh, List.getD_eq_getElem pivots 0 hs]
    exact List.getElem_mem hs
  rw [dotL_eq_sum _ _ n hrowlen (length_nsVec ..)]
  have hterm : ∀ k ∈ Finset.range n,
      (R.getD s []).getD k 0 * (nsVec R pivots n j).getD k 0
        = (if k = j then (R.getD s []).getD j 0 else 0)
          + (if k = pivots.getD s 0 then -((R.getD s []).getD j 0) else 0) := by
    intro k hk
    rw [Finset.mem_range] at hk
    rw [getD_nsVec R pivots n j k hk]
    by_cases hkj : k = j
    · subst hkj
      rw [if_pos rfl, if_pos rfl, if_neg hjps, mul_one, add_zero]
    · rw [if_neg hkj, if_neg hkj]
      by_cases hkps : k = pivots.getD s 0
      · subst hkps
        rw [if_pos rfl]
        cases hfi : pivots.findIdx? (fun c => c = pivots.getD s 0) with
        | none =>
          rw [findIdx?_pivot_self pivots hpsorted s hs] at hfi
          simp at hfi
        | some u =>
          rw [findIdx?_pivot_self pivots hpsorted s hs] at hfi
          cases Option.some.inj hfi
          rw [hpunit s hs, one_mul, zero_add]
      · rw [if_neg hkps, zero_add]
        cases hfi : pivots.findIdx? (fun c => c = k) with
        | none => rw [mul_zero]
        | some u =>
          rcases findIdx?_found_val pivots k u hfi with ⟨hu, hup⟩
          have hus : u ≠ s := by
            intro hh
            subst hh
            exact hkps hup.symm
          have : (R.getD s []).getD k 0 = 0 := by
            rw [← hup]
            exact hpzero u hu s hsR (fun hh => hus hh.symm)
          rw [this, zero_mul]
  rw [Finset.sum_congr rfl hterm, Finset.sum_add_distrib]
  rw [Finset.sum_ite_eq' (Finset.range n) j
      (fun _ => (R.getD s []).getD j 0),
    Finset.sum_ite_eq' (Finset.range n) (pivots.getD s 0)
      (fun _ => -((R.getD s []).getD j 0))]
  rw [if_pos (Finset.mem_range.mpr hj), if_pos (Finset.mem_range.mpr hpsn)]
  ring


/-- Every basis vector produced for a free column lies in the null space of
the original row list. -/
theorem nullspace_nsVec_in_null (A : List (List ℚ)) (n : Nat)
    (hlen : ∀ row ∈ A, row.length = n) (j : Nat) (hj : j < n)
    (hjfree : j ∉ (rref A n).2) :
    InNull A (nsVec (rref A n).1 (rref A n).2 n j) := by
  rw [← rref_null_iff A n n hlen]
  have hinv := rrefInv_fold n A hlen n
  have hrref : rref A n
      = (((List.range n).foldl rrefStep (A, 0, [])).1,
         ((List.range n).foldl rrefStep (A, 0, [])).2.2) := rfl
  generalize hst : (List.range n).foldl rrefStep (A, 0, []) = st at hinv hrref
  obtain ⟨R, r, pivots⟩ := st
  obtain ⟨hlenR, hrle, hplen, hpbound, hpsorted, hpunit, hpzero, hbzero⟩ := hinv
  dsimp only at hlenR hrle hplen hpbound hpsorted hpunit hpzero hbzero
  rw [hrref] at hjfree ⊢
  dsimp only at hjfree ⊢
  intro row hrow
  rcases List.mem_iff_getElem.mp hrow with ⟨q, hq, hrq⟩
  have hrowD : R.getD q [] = row := by rw [List.getD_eq_getElem R [] hq, hrq]
  by_cases hqr : q < pivots.length
  · rw [← hrowD]
    refine dot_pivotRow_nsVec R pivots n j q hlenR (by omega) hqr hj hjfree
      hpbound hpsorted ?_ ?_
    · intro t ht; exact hpunit t (by omega)
    · intro t ht q' hq' hq't; exact hpzero t (by omega) q' hq' hq't
  · rw [← hrowD]
    refine dotL_zero_of_entries (R.getD q []) _ ?_
    intro k hk
    have hklen : (R.getD q []).length = n := by
      rw [hrowD]; exact hlenR row hrow
    exact hbzero k (by omega) q (by omega) hq

/-- Soundness of sympy's nullspace: each returned vector annihilates every
row of the input matrix. -/
theorem nullspaceOf_sound (A : List (List ℚ)) (n : Nat)
    (hlen : ∀ row ∈ A, row.length = n) :
    ∀ b ∈ nullspaceOf A, InNull A b := by
  intro b hb
  cases A with
  | nil => simp [nullspaceOf] at hb
  | cons r0 rest =>
    have hn : r0.length = n := hlen r0 (List.mem_cons_self r0 rest)
    rw [nullspaceOf_cons] at hb
    rcases List.mem_map.mp hb with ⟨j, hjmem, hbj⟩
    rw [List.mem_filter, List.mem_range] at hjmem
    obtain ⟨hjr, hjf⟩ := hjmem
    have hjfree : j ∉ (rref (r0 :: rest) r0.length).2 := by
      simpa using hjf
    subst hn
    rw [← hbj]
    exact nullspace_nsVec_in_null (r0 :: rest) r0.length hlen j hjr hjfree

theorem findIdx?_not_mem (pivots : List Nat) (k : Nat) (hk : k ∉ pivots) :
    pivots.findIdx? (fun c => c = k) = none := by
  rw [List.findIdx?_eq_none_iff]
  intro x hx
  rw [decide_eq_false_iff_not]
  intro hh
  exact hk (hh ▸ hx)

/-- Every vector of the null space of an rref matrix is determined, at each
coordinate, by its values on the free columns, through the basis vectors. -/
theorem null_component_expand (R : List (List ℚ)) (pivots : List Nat) (n : Nat)
    (hRlen : ∀ row ∈ R, row.length = n)
    (hplen : pivots.length ≤ R.length)
    (hpsorted : pivots.Pairwise (· < ·))
    (hpunit : ∀ t, t < pivots.length →
      (R.getD t []).getD (pivots.getD t 0) 0 = 1)
    (hpzero : ∀ t, t < pivots.length → ∀ q, q < R.length → q ≠ t →
      (R.getD q []).getD (pivots.getD t 0) 0 = 0)
    (v : List ℚ) (hv : v.length = n) (hnull : InNull R v)
    (k : Nat) (hk : k < n) :
    v.getD k 0 = ∑ j ∈ Finset.range n,
      (if j ∈ pivots then 0
       else v.getD j 0 * (nsVec R pivots n j).getD k 0) := by
  by_cases hkp : k ∈ pivots
  · rcases List.mem_iff_getElem.mp hkp with ⟨s, hs, hps⟩
    have hkd : pivots.getD s 0 = k := by
      rw [List.getD_eq_getElem pivots 0 hs]; exact hps
    have hsR : s < R.length := Nat.lt_of_lt_of_le hs hplen
    have hrowmem : R.getD s [] ∈ R := by
      rw [List.getD_eq_getElem R [] hsR]; exact List.getElem_mem hsR
    have hrowlen : (R.getD s []).length = n := hRlen _ hrowmem
    have hrow0 : dotL (R.getD s []) v = 0 := hnull _ hrowmem
    rw [dotL_eq_sum _ _ n hrowlen hv] at hrow0
    have hsplit : ∀ j ∈ Finset.range n,
        (R.getD s []).getD j 0 * v.getD j 0
          = (if j = k then v.getD k 0 else 0)
            + (if j ∈ pivots then 0
               else (R.getD s []).getD j 0 * v.getD j 0) := by
      intro j hj
      rw [Finset.mem_range] at hj
      by_cases hjk : j = k
      · subst hjk
        rw [if_pos rfl, if_pos hkp, add_zero, ← hkd, hpunit s hs, one_mul]
      · rw [if_neg hjk]
        by_cases hjp : j ∈ pivots
        · rw [if_pos hjp]
          rcases List.mem_iff_getElem.mp hjp with ⟨t, ht, hpt⟩
          have htd : pivots.getD t 0 = j := by
            rw [List.getD_eq_getElem pivots 0 ht]; exact hpt
          have hst : s ≠ t := by
            intro hh
            apply hjk
            rw [← htd, ← hh]
            exact hkd
          have hz : (R.getD s []).getD j 0 = 0 := by
            rw [← htd]; exact hpzero t ht s hsR hst
          rw [hz, zero_mul, add_zero]
        · rw [if_neg hjp, zero_add]
    rw [Finset.sum_congr rfl hsplit, Finset.sum_add_distrib,
      Finset.sum_ite_eq' (Finset.range n) k (fun _ => v.getD k 0),
      if_pos (Finset.mem_range.mpr hk)] at hrow0
    have hS : ∀ j ∈ Finset.range n,
        (if j ∈ pivots then 0
         else v.getD j 0 * (nsVec R pivots n j).getD k 0)
          = -(if j ∈ pivots then 0
              else (R.getD s []).getD j 0 * v.getD j 0) := by
      intro j hj
      rw [Finset.mem_range] at hj
      by_cases hjp : j ∈ pivots
      · rw [if_pos hjp, if_pos hjp, neg_zero]
      · rw [if_neg hjp, if_neg hjp, getD_nsVec R pivots n j k hk]
        have hkj : ¬ k = j := fun hh => hjp (hh ▸ hkp)
        rw [if_neg hkj, ← hkd, findIdx?_pivot_self pivots hpsorted s hs]
        show v.getD j 0 * (-((R.getD s []).getD j 0))
          = -((R.getD s []).getD j 0 * v.getD j 0)
        ring
    rw [Finset.sum_congr rfl hS, Finset.sum_neg_distrib]
    linarith [hrow0]
  · have hsum : ∀ j ∈ Finset.range n,
        (if j ∈ pivots then 0
         else v.getD j 0 * (nsVec R pivots n j).getD k 0)
          = if j = k then v.getD k 0 else 0 := by
      intro j hj
      rw [Finset.mem_range] at hj
      by_cases hjp : j ∈ pivots
      · rw [if_pos hjp, if_neg (fun hh : j = k => hkp (hh ▸ hjp))]
      · rw [if_neg hjp, getD_nsVec R pivots n j k hk]
        by_cases hjk : j = k
        · subst hjk
          rw [if_pos rfl, if_pos rfl, mul_one]
        · rw [if_neg (fun hh : k = j => hjk hh.symm),
            findIdx?_not_mem pivots k hkp, if_neg hjk]
          exact mul_zero _
    rw [Finset.sum_congr rfl hsum,
      Finset.sum_ite_eq' (Finset.range n) k (fun _ => v.getD k 0),
      if_pos (Finset.mem_range.mpr hk)]

/-- Completeness of the computed null-space basis: a vector orthogonal to
every basis vector returned by `nullspaceOf` is orthogonal to every member
of the null space of the (nonempty) row list. -/
theorem nullspace_orth_complete (r0 : List ℚ) (rest : List (List ℚ))
    (hlen : ∀ row ∈ r0 :: rest, row.length = r0.length)
    (d : List ℚ) (hd : d.length = r0.length)
    (horth : ∀ b ∈ nullspaceOf (r0 :: rest), dotL b d = 0)
    (v : List ℚ) (hv : v.length = r0.length)
    (hnull : InNull (r0 :: rest) v) : dotL v d = 0 := by
  have hinv := rrefInv_fold r0.length (r0 :: rest) hlen r0.length
  have hrref : rref (r0 :: rest) r0.length
      = (((List.range r0.length).foldl rrefStep (r0 :: rest, 0, [])).1,
         ((List.range r0.length).foldl rrefStep (r0 :: rest, 0, [])).2.2) := rfl
  generalize hst : (List.range r0.length).foldl rrefStep (r0 :: rest, 0, []) = st
    at hinv hrref
  obtain ⟨R, r, pivots⟩ := st
  obtain ⟨hlenR, hrle, hplen, hpbound, hpsorted, hpunit, hpzero, hbzero⟩ := hinv
  dsimp only at hlenR hrle hplen hpbound hpsorted hpunit hpzero hbzero
  have hNS : nullspaceOf (r0 :: rest)
      = ((List.range r0.length).filter (fun j => j ∉ pivots)).map
          (nsVec R pivots r0.length) := by
    rw [nullspaceOf_cons, hrref]
  have hnullR : InNull R v := by
    have h := (rref_null_iff (r0 :: rest) r0.length r0.length hlen v).mpr hnull
    rw [hrref] at h
    exact h
  have hpunit' : ∀ t, t < pivots.length →
      (R.getD t []).getD (pivots.getD t 0) 0 = 1 :=
    fun t ht => hpunit t (by omega)
  have hpzero' : ∀ t, t < pivots.length → ∀ q, q < R.length → q ≠ t →
      (R.getD q []).getD (pivots.getD t 0) 0 = 0 :=
    fun t ht => hpzero t (by omega)
  rw [dotL_eq_sum v d r0.length hv hd]
  have hcomp : ∀ k ∈ Finset.range r0.length,
      v.getD k 0 * d.getD k 0
        = ∑ j ∈ Finset.range r0.length,
            ((if j ∈ pivots then 0
              else v.getD j 0 * (nsVec R pivots r0.length j).getD k 0)
             * d.getD k 0) := by
    intro k hk
    rw [Finset.mem_range] at hk
    rw [null_component_expand R pivots r0.length hlenR (by omega) hpsorted
      hpunit' hpzero' v hv hnullR k hk, Finset.sum_mul]
  rw [Finset.sum_congr rfl hcomp, Finset.sum_comm]
  apply Finset.sum_eq_zero
  intro j hj
  rw [Finset.mem_range] at hj
  by_cases hjp : j ∈ pivots
  · apply Finset.sum_eq_zero
    intro k hk
    rw [if_pos hjp, zero_mul]
  · have hb : nsVec R pivots r0.length j ∈ nullspaceOf (r0 :: rest) := by
      rw [hNS]
      exact List.mem_map.mpr ⟨j, List.mem_filter.mpr
        ⟨List.mem_range.mpr hj, by simpa using hjp⟩, rfl⟩
    have hdot : dotL (nsVec R pivots r0.length j) d = 0 := horth _ hb
    rw [dotL_eq_sum _ d r0.length (length_nsVec R pivots r0.length j) hd] at hdot
    have hpt : ∀ k ∈ Finset.range r0.length,
        ((if j ∈ pivots then 0
          else v.getD j 0 * (nsVec R pivots r0.length j).getD k 0)
         * d.getD k 0)
          = v.getD j 0
            * ((nsVec R pivots r0.length j).getD k 0 * d.getD k 0) := by
      intro k hk
      rw [if_neg hjp]
      ring
    rw [Finset.sum_congr rfl hpt, ← Finset.mul_sum, hdot, mul_zero]

/-! ## C8: order-free characterisation of the per-SCC decision -/

theorem reach_iff_chain (G : Graph) (v u : Nat) :
    Reach G v u ↔ ∃ es, edgeChain G v u es := by
  constructor
  · intro h
    induction h with
    | refl => exact ⟨[], rfl⟩
    | step _ he hs ih =>
      rcases ih with ⟨es, hch⟩
      exact ⟨es ++ [_], (edgeChain_append G es [_] v _).mpr
        ⟨_, hch, ⟨he, hs, rfl⟩⟩⟩
  · rintro ⟨es, hch⟩
    induction es generalizing v with
    | nil => exact (show v = u from hch) ▸ Reach.refl
    | cons e es ih =>
      obtain ⟨he, hsrc, hch'⟩ := hch
      exact Reach.trans (Reach.step Reach.refl he hsrc) (ih e.tgt hch')

theorem lookup_cons_eq {α β : Type _} [DecidableEq α] (k : α) (b : β)
    (es : List (α × β)) (a : α) :
    List.lookup a ((k, b) :: es) = if a = k then some b else List.lookup a es := by
  rw [List.lookup_cons]
  by_cases h : a = k
  · rw [if_pos h, beq_iff_eq.mpr h]
  · rw [if_neg h, beq_eq_false_iff_ne.mpr h]

/-- The meaning of `separatedAux` relative to an accumulated `seen` map. -/
theorem separatedAux_iff :
    ∀ (es : List Edge) (seen : List (Label × Nat)),
      separatedAux es seen = true ↔
        ((∀ e ∈ es, ∀ v, seen.lookup e.label = some v → e.tgt = v) ∧
         (∀ e ∈ es, ∀ f ∈ es, e.label = f.label → e.tgt = f.tgt)) := by
  intro es
  induction es with
  | nil =>
    intro seen
    simp [separatedAux]
  | cons e rest ih =>
    intro seen
    rw [separatedAux]
    cases hlk : seen.lookup e.label with
    | some v =>
      show (if v = e.tgt then separatedAux rest seen else false) = true ↔ _
      by_cases hv : v = e.tgt
      · rw [if_pos hv, ih]
        constructor
        · rintro ⟨h1, h2⟩
          refine ⟨?_, ?_⟩
          · intro g hg w hw
            rcases List.mem_cons.mp hg with rfl | hg'
            · rw [hlk] at hw
              have := Option.some.inj hw
              omega
            · exact h1 g hg' w hw
          · intro g hg f hf hlab
            rcases List.mem_cons.mp hg with rfl | hg' <;>
              rcases List.mem_cons.mp hf with rfl | hf'
            · rfl
            · have hl2 : seen.lookup f.label = some v := by rw [← hlab]; exact hlk
              have := h1 f hf' v hl2
              omega
            · have hl2 : seen.lookup g.label = some v := by rw [hlab]; exact hlk
              have := h1 g hg' v hl2
              omega
            · exact h2 g hg' f hf' hlab
        · rintro ⟨h1, h2⟩
          refine ⟨?_, ?_⟩
          · intro g hg w hw
            exact h1 g (List.mem_cons_of_mem _ hg) w hw
          · intro g hg f hf hlab
            exact h2 g (List.mem_cons_of_mem _ hg) f (List.mem_cons_of_mem _ hf) hlab
      · rw [if_neg hv]
        constructor
        · intro h; exact absurd h (by simp)
        · rintro ⟨h1, -⟩
          have := h1 e (List.mem_cons_self _ _) v hlk
          omega
    | none =>
      show separatedAux rest ((e.label, e.tgt) :: seen) = true ↔ _
      rw [ih]
      constructor
      · rintro ⟨h1, h2⟩
        refine ⟨?_, ?_⟩
        · intro g hg w hw
          rcases List.mem_cons.mp hg with rfl | hg'
          · rw [hlk] at hw; cases hw
          · have hlk' : ((e.label, e.tgt) :: seen).lookup g.label = some w := by
              rw [lookup_cons_eq]
              by_cases hge : g.label = e.label
              · rw [hge, hlk] at hw; cases hw
              · rw [if_neg hge]
                exact hw
            exact h1 g hg' w hlk'
        · intro g hg f hf hlab
          rcases List.mem_cons.mp hg with rfl | hg' <;>
            rcases List.mem_cons.mp hf with rfl | hf'
          · rfl
          · have hlk' : ((g.label, g.tgt) :: seen).lookup f.label = some g.tgt := by
              rw [lookup_cons_eq, if_pos hlab.symm]
            exact (h1 f hf' g.tgt hlk').symm
          · have hlk' : ((f.label, f.tgt) :: seen).lookup g.label = some f.tgt := by
              rw [lookup_cons_eq, if_pos hlab]
            exact h1 g hg' f.tgt hlk'
          · exact h2 g hg' f hf' hlab
      · rintro ⟨h1, h2⟩
        refine ⟨?_, ?_⟩
        · intro g hg w hw
          rw [lookup_cons_eq] at hw
          by_cases hge : g.label = e.label
          · rw [if_pos hge] at hw
            have := Option.some.inj hw
            rw [← this]
            exact h2 g (List.mem_cons_of_mem _ hg) e (List.mem_cons_self _ _) hge
          · rw [if_neg hge] at hw
            exact h1 g (List.mem_cons_of_mem _ hg) w hw
        · intro g hg f hf hlab
          exact h2 g (List.mem_cons_of_mem _ hg) f (List.mem_cons_of_mem _ hf) hlab

/-- `separated` holds exactly when equal labels force equal targets. -/
theorem separated_iff_pairs (G : Graph) :
    separated G = true ↔
      ∀ e ∈ G.edges, ∀ f ∈ G.edges, e.label = f.label → e.tgt = f.tgt := by
  rw [separated, separatedAux_iff]
  constructor
  · rintro ⟨-, h2⟩; exact h2
  · intro h
    exact ⟨(fun e _ v hv => nomatch hv), h⟩

theorem attackLoop_two_allVec (H : Graph) (hnd : skelNodup H) (hv : allVecG H)
    (prev : PrevNS) : attackLoop 2 H prev = some H := by
  rw [show (2 : Nat) = 1 + 1 from rfl, attackLoop_succ]
  by_cases ha : some (nullspaceOf (loop_equations (get_ordered_alphabet H)
      (get_simple_cycles_edges H))) = prev
  · rw [if_pos ha]
  · rw [if_neg ha]
    by_cases hb : nullspaceOf (loop_equations (get_ordered_alphabet H)
        (get_simple_cycles_edges H)) = []
    · rw [if_pos hb]
    · rw [if_neg hb, relabel_allVec_eq H hnd hv]
      rw [show (1 : Nat) = 0 + 1 from rfl, attackLoop_succ, if_pos rfl]

/-- The graph on which the final separation check runs: the original graph if
the first round's null space is empty, the once-relabelled graph otherwise. -/
theorem attack_scc_graph_eq (G : Graph) (hs : allSymG G)
    (hpd : parallelDistinct G) (hnd : skelNodup G) :
    attack_scc_graph G
      = if roundNS G = [] then G
        else relabel G (get_simple_cycles_edges G)
          (morphismOf (get_ordered_alphabet G) (roundNS G)) := by
  by_cases h1 : roundNS G = []
  · have h1' : nullspaceOf (loop_equations (get_ordered_alphabet G)
        (get_simple_cycles_edges G)) = [] := h1
    rw [if_pos h1, attack_scc_graph, show (3 : Nat) = 2 + 1 from rfl, attackLoop_succ,
      if_neg (show ¬ some (nullspaceOf (loop_equations (get_ordered_alphabet G)
        (get_simple_cycles_edges G))) = none by simp), if_pos h1']
    rfl
  · have h1' : ¬ nullspaceOf (loop_equations (get_ordered_alphabet G)
        (get_simple_cycles_edges G)) = [] := h1
    rw [if_neg h1, attack_scc_graph, show (3 : Nat) = 2 + 1 from rfl, attackLoop_succ,
      if_neg (show ¬ some (nullspaceOf (loop_equations (get_ordered_alphabet G)
        (get_simple_cycles_edges G))) = none by simp),
      if_neg h1',
      attackLoop_two_allVec _ (skelNodup_relabel G _ _ hnd)
        (relabel_allVec_of_allSym G hs hpd _ _)]
    rfl

theorem nodup_dedupKeepFirst {α : Type _} [DecidableEq α] (l : List α) :
    (dedupKeepFirst l).Nodup := by
  suffices h : ∀ (l acc : List α), acc.Nodup →
      (l.foldl (fun acc a => if a ∈ acc then acc else acc ++ [a]) acc).Nodup by
    exact h l [] List.nodup_nil
  intro l
  induction l with
  | nil => intro acc h; exact h
  | cons x xs ih =>
    intro acc h
    rw [List.foldl_cons]
    apply ih
    by_cases hx : x ∈ acc
    · rwa [if_pos hx]
    · rw [if_neg hx, List.nodup_append]
      exact ⟨h, List.nodup_singleton x, by simpa using hx⟩

theorem idxOf_spec (l : List Label) (a : Label) (ha : a ∈ l) :
    idxOf l a < l.length ∧ l.getD (idxOf l a) (Label.sym 0) = a := by
  have hlt : idxOf l a < l.length :=
    List.findIdx_lt_length_of_exists ⟨a, ha, by simp⟩
  refine ⟨hlt, ?_⟩
  rw [List.getD_eq_getElem _ _ hlt]
  have := @List.findIdx_getElem _ _ _ hlt
  simpa using this

theorem getD_map_of_lt {α β : Type _} [Inhabited β] (f : α → β) (l : List α)
    (i : Nat) (hi : i < l.length) (da : α) (db : β) :
    (l.map f).getD i db = f (l.getD i da) := by
  rw [List.getD_eq_getElem _ _ (by simpa using hi), List.getD_eq_getElem _ _ hi,
    List.getElem_map]

/-- Reading the coordinate vector of `m` at a label's alphabet index gives
back `m` on alphabet members. -/
theorem map_getD_idxOf (al : List Label) (m : Label → ℚ) (a : Label)
    (ha : a ∈ al) : (al.map m).getD (idxOf al a) 0 = m a := by
  rcases idxOf_spec al a ha with ⟨hlt, hget⟩
  rw [getD_map_of_lt m al (idxOf al a) hlt (Label.sym 0) 0, hget]

theorem edge_label_mem_alphabet (G : Graph) (e : Edge) (he : e ∈ G.edges) :
    e.label ∈ get_ordered_alphabet G := by
  rw [get_ordered_alphabet, mem_dedupKeepFirst]
  exact List.mem_map.mpr ⟨e, he, rfl⟩

theorem alphabet_label_mem (G : Graph) (a : Label)
    (ha : a ∈ get_ordered_alphabet G) : ∃ e ∈ G.edges, e.label = a := by
  rw [get_ordered_alphabet, mem_dedupKeepFirst] at ha
  exact List.mem_map.mp ha

theorem alphabet_nodup (G : Graph) : (get_ordered_alphabet G).Nodup :=
  nodup_dedupKeepFirst _

theorem addAt_length : ∀ (v : List ℚ) (k : Nat), (addAt v k).length = v.length := by
  intro v
  induction v with
  | nil => intro k; rfl
  | cons x xs ih =>
    intro k
    cases k with
    | zero => rfl
    | succ k => show (x :: addAt xs k).length = _; simp [ih k]

theorem dotL_addAt : ∀ (vec v : List ℚ) (k : Nat), k < vec.length → k < v.length →
    dotL (addAt vec k) v = dotL vec v + v.getD k 0 := by
  intro vec
  induction vec with
  | nil => intro v k hk; simp at hk
  | cons x xs ih =>
    intro v k hk hkv
    cases v with
    | nil => simp at hkv
    | cons y ys =>
      cases k with
      | zero =>
        show dotL ((x + 1) :: xs) (y :: ys) = _
        show (x + 1) * y + dotL xs ys = (x * y + dotL xs ys) + y
        ring
      | succ k =>
        show dotL (x :: addAt xs k) (y :: ys) = _
        show x * y + dotL (addAt xs k) ys = (x * y + dotL xs ys) + ys.getD k 0
        rw [ih ys k (by simpa using hk) (by simpa using hkv)]
        ring

theorem dotL_replicate_zero (n : Nat) (v : List ℚ) :
    dotL (List.replicate n 0) v = 0 := by
  apply dotL_zero_of_entries
  intro k hk
  rw [List.length_replicate] at hk
  rw [List.getD_eq_getElem _ _ (by simpa using hk), List.getElem_replicate]

/-- The coordinate reading of a vector indexed by the ordered alphabet, as a
function on labels. -/
def coordFn (al : List Label) (v : List ℚ) : Label → ℚ :=
  fun l => v.getD (idxOf al l) 0

theorem parikh_fold_len (al : List Label) :
    ∀ (c : List PEdge) (acc : List ℚ),
      (c.foldl (fun vec e => addAt vec (idxOf al e.2.2)) acc).length = acc.length := by
  intro c
  induction c with
  | nil => intro acc; rfl
  | cons pe c ih =>
    intro acc
    rw [List.foldl_cons, ih, addAt_length]

theorem dotL_parikh_fold (al : List Label) (v : List ℚ) (hv : v.length = al.length) :
    ∀ (c : List PEdge) (acc : List ℚ), acc.length = al.length →
      (∀ pe ∈ c, pe.2.2 ∈ al) →
      dotL (c.foldl (fun vec e => addAt vec (idxOf al e.2.2)) acc) v
        = dotL acc v + (c.map (fun pe => coordFn al v pe.2.2)).sum := by
  intro c
  induction c with
  | nil => intro acc _ _; simp
  | cons pe c ih =>
    intro acc hacc hmem
    rw [List.foldl_cons]
    have hidx : idxOf al pe.2.2 < al.length :=
      (idxOf_spec al pe.2.2 (hmem pe (List.mem_cons_self _ _))).1
    rw [ih (addAt acc (idxOf al pe.2.2)) (by rw [addAt_length]; exact hacc)
      (fun q hq => hmem q (List.mem_cons_of_mem _ hq))]
    rw [dotL_addAt acc v (idxOf al pe.2.2) (by omega) (by omega)]
    rw [List.map_cons, List.sum_cons]
    show _ = dotL acc v + (coordFn al v pe.2.2 + _)
    rw [coordFn]
    ring

/-- A Parikh row of `loop_equations` dotted with a coordinate vector is the
label-wise sum of the vector's coordinate function over the cycle. -/
theorem dotL_loop_row (al : List Label) (v : List ℚ) (hv : v.length = al.length)
    (c : List PEdge) (hc : ∀ pe ∈ c, pe.2.2 ∈ al) :
    dotL (c.foldl (fun vec e => addAt vec (idxOf al e.2.2))
        (List.replicate al.length 0)) v
      = (c.map (fun pe => coordFn al v pe.2.2)).sum := by
  rw [dotL_parikh_fold al v hv c (List.replicate al.length 0)
    (List.length_replicate ..) hc, dotL_replicate_zero, zero_add]

theorem mSum_eq_walkSum (m : Label → ℚ) (es : List Edge) (pes : List PEdge)
    (h : es.map (fun e => e.label) = pes.map (fun pe => pe.2.2)) :
    (pes.map (fun pe => m pe.2.2)).sum = walkSum m es := by
  rw [walkSum]
  have h1 : es.map (fun e => m e.label) = (es.map (fun e => e.label)).map m := by
    rw [List.map_map]; rfl
  have h2 : pes.map (fun pe => m pe.2.2) = (pes.map (fun pe => pe.2.2)).map m := by
    rw [List.map_map]; rfl
  rw [h1, h2, h]

/-- The last node of a node path. -/
def lastOf : List Nat → Nat
  | [] => 0
  | [x] => x
  | _ :: x :: xs => lastOf (x :: xs)

theorem realizes_to_chain (G : Graph) :
    ∀ (p : List Nat) (pes : List PEdge), realizesB G p pes = true →
      ∃ es : List Edge, edgeChain G (p.headD 0) (lastOf p) es ∧
        es.map (fun e => e.src) = p.dropLast ∧
        es.map (fun e => e.label) = pes.map (fun pe => pe.2.2) := by
  intro p
  induction p with
  | nil => intro pes hr; cases pes <;> simp [realizesB] at hr
  | cons u rest ih =>
    intro pes hr
    cases rest with
    | nil =>
      cases pes with
      | nil => exact ⟨[], rfl, by simp, by simp⟩
      | cons pe pes' => simp [realizesB] at hr
    | cons v rest' =>
      cases pes with
      | nil => simp [realizesB] at hr
      | cons pe pes' =>
        rw [realizesB_cons_cons] at hr
        obtain ⟨-, -, ⟨g, hg, hs, ht, hl⟩, hrest⟩ := hr
        rcases ih pes' hrest with ⟨es₁, hch, hsrc, hlab⟩
        refine ⟨g :: es₁, ⟨hg, hs, ?_⟩, ?_, ?_⟩
        · rw [ht]
          exact hch
        · show g.src :: es₁.map _ = (u :: v :: rest').dropLast
          rw [hsrc, hs]
          rfl
        · show g.label :: es₁.map _ = _
          rw [hlab, hl]
          rfl

theorem chain_to_realizes (G : Graph) :
    ∀ (es : List Edge) (u v : Nat), edgeChain G u v es → es ≠ [] →
      realizesB G (es.map (fun e => e.src) ++ [v])
        (es.map (fun e => (e.src, e.tgt, e.label))) = true := by
  intro es
  induction es with
  | nil => intro u v _ hne; exact absurd rfl hne
  | cons e es ih =>
    intro u v hch hne
    obtain ⟨he, hs, hch'⟩ := hch
    cases es with
    | nil =>
      have ht : e.tgt = v := hch'
      show realizesB G (e.src :: [v]) [(e.src, e.tgt, e.label)] = true
      rw [realizesB_cons_cons]
      exact ⟨rfl, ht, ⟨e, he, rfl, ht, rfl⟩, rfl⟩
    | cons f es' =>
      have hr := ih e.tgt v hch' (by simp)
      have hf : f.src = e.tgt := by
        obtain ⟨-, hfs, -⟩ := hch'
        exact hfs
      show realizesB G (e.src :: f.src :: ((f :: es').map _).tail ++ [v])
          ((e.src, e.tgt, e.label) :: (f :: es').map _) = true
      rw [show (e.src :: f.src :: ((f :: es').map (fun e => e.src)).tail ++ [v])
          = e.src :: ((f :: es').map (fun e => e.src) ++ [v]) from rfl]
      cases hq : (f :: es').map (fun e => e.src) ++ [v] with
      | nil => simp at hq
      | cons w ws =>
        have hw : w = f.src := by
          simp only [List.map_cons, List.cons_append] at hq
          exact (List.cons.inj hq).1.symm
        rw [realizesB_cons_cons]
        refine ⟨rfl, by rw [hw, hf], ⟨e, he, rfl, by rw [hw, hf], rfl⟩, ?_⟩
        rw [← hq]
        exact hr

theorem cyclesAux_nodup (G : Graph) (s : Nat) :
    ∀ (fuel : Nat) (cur : Nat) (visited : List Nat), visited.Nodup → visited ≠ [] →
      ∀ c ∈ cyclesAux G s fuel cur visited, c.Nodup ∧ c ≠ [] := by
  intro fuel
  induction fuel with
  | zero => intro cur visited _ _ c hc; simp [cyclesAux] at hc
  | succ fuel ih =>
    intro cur visited hnd hne c hc
    rw [cyclesAux] at hc
    rcases List.mem_flatMap.mp hc with ⟨e, he, hco⟩
    by_cases h1 : e.tgt = s
    · rw [if_pos h1] at hco
      have hce : c = visited.reverse := List.mem_singleton.mp hco
      subst hce
      exact ⟨by simpa using hnd, by simpa using hne⟩
    · rw [if_neg h1] at hco
      by_cases h2 : s < e.tgt ∧ e.tgt ∉ visited
      · rw [if_pos h2] at hco
        exact ih e.tgt (e.tgt :: visited)
          (List.nodup_cons.mpr ⟨h2.2, hnd⟩) (by simp) c hco
      · rw [if_neg h2] at hco; simp at hco

theorem simpleCycles_sound (G : Graph) (c : List Nat) (hc : c ∈ simpleCycles G) :
    c.Nodup ∧ c ≠ [] := by
  rw [simpleCycles, mem_dedupKeepFirst] at hc
  rcases List.mem_flatMap.mp hc with ⟨s, -, hcy⟩
  exact cyclesAux_nodup G s G.nodes.length s [s]
    (List.nodup_singleton s) (by simp) c hcy

theorem exists_min_split :
    ∀ (es : List Edge), es ≠ [] →
      ∃ (A : List Edge) (e : Edge) (B : List Edge),
        es = A ++ e :: B ∧ ∀ f ∈ es, e.src ≤ f.src := by
  intro es
  induction es with
  | nil => intro h; exact absurd rfl h
  | cons e es ih =>
    intro _
    cases es with
    | nil =>
      refine ⟨[], e, [], rfl, ?_⟩
      intro f hf
      rw [List.mem_singleton.mp hf]
    | cons g es' =>
      rcases ih (by simp) with ⟨A', e', B', hsplit, hmin⟩
      by_cases hle : e.src ≤ e'.src
      · refine ⟨[], e, g :: es', rfl, ?_⟩
        intro f hf
        rcases List.mem_cons.mp hf with rfl | hf'
        · exact le_refl _
        · exact le_trans hle (hmin f hf')
      · refine ⟨e :: A', e', B', by rw [hsplit]; rfl, ?_⟩
        intro f hf
        rcases List.mem_cons.mp hf with rfl | hf'
        · omega
        · exact hmin f hf'

theorem chain_rotate (G : Graph) (v : Nat) (A : List Edge) (e : Edge)
    (B : List Edge) (hch : edgeChain G v v (A ++ e :: B)) :
    edgeChain G e.src e.src (e :: B ++ A) := by
  rcases (edgeChain_append G A (e :: B) v v).mp hch with ⟨c, hA, hrest⟩
  obtain ⟨he, hs, hB⟩ := hrest
  subst hs
  exact (edgeChain_append G (e :: B) A e.src e.src).mpr
    ⟨v, ⟨he, rfl, hB⟩, hA⟩

theorem walkSum_rotate {M : Type} [AddCommMonoid M] (m : Label → M)
    (A B : List Edge) : walkSum m (A ++ B) = walkSum m (B ++ A) := by
  rw [walkSum_append, walkSum_append, add_comm]

theorem lastOf_append_singleton : ∀ (l : List Nat) (x : Nat),
    lastOf (l ++ [x]) = x := by
  intro l
  induction l with
  | nil => intro x; rfl
  | cons a l ih =>
    intro x
    cases l with
    | nil => rfl
    | cons b l' => exact ih x

/-- Every edge of the graph has both endpoints among the nodes (true of every
graph built by `automata_to_graph` and of every induced subgraph). -/
def edgesClosed (G : Graph) : Prop :=
  ∀ e ∈ G.edges, e.src ∈ G.nodes ∧ e.tgt ∈ G.nodes

theorem nodup_subset_length {l l' : List Nat} (hnd : l.Nodup) (hsub : l ⊆ l') :
    l.length ≤ l'.length := by
  calc l.length = l.toFinset.card := (List.toFinset_card_of_nodup hnd).symm
    _ ≤ l'.toFinset.card := Finset.card_le_card
        (fun x hx => List.mem_toFinset.mpr (hsub (List.mem_toFinset.mp hx)))
    _ ≤ l'.length := List.toFinset_card_le _

theorem cyclesAux_complete (G : Graph) (s : Nat) :
    ∀ (es : List Edge) (fuel cur : Nat) (visited : List Nat),
      edgeChain G cur s es → es ≠ [] → es.length ≤ fuel →
      (∀ e ∈ es.tail, s < e.src ∧ e.src ∉ visited) →
      (es.tail.map (fun e => e.src)).Nodup →
      visited.reverse ++ es.tail.map (fun e => e.src)
        ∈ cyclesAux G s fuel cur visited := by
  intro es
  induction es with
  | nil => intro fuel cur visited _ hne; exact absurd rfl hne
  | cons e rest ih =>
    intro fuel cur visited hch hne hlen htail hnd
    obtain ⟨he, hs, hch'⟩ := hch
    obtain ⟨f, rfl⟩ : ∃ f, fuel = f + 1 :=
      ⟨fuel - 1, by simp at hlen; omega⟩
    rw [cyclesAux]
    apply List.mem_flatMap.mpr
    refine ⟨e, List.mem_filter.mpr ⟨he, by simp [hs]⟩, ?_⟩
    cases rest with
    | nil =>
      have hts : e.tgt = s := hch'
      rw [if_pos hts]
      simp
    | cons f₀ rest' =>
      have hf0 : f₀.src = e.tgt := hch'.2.1
      have hf0c := htail f₀ (List.mem_cons_self _ _)
      have hts : ¬ e.tgt = s := by
        rw [← hf0]
        omega
      rw [if_neg hts, if_pos (show s < e.tgt ∧ e.tgt ∉ visited by
        rw [← hf0]; exact hf0c)]
      have hnd2 : ((f₀ :: rest').map (fun e => e.src)).Nodup := hnd
      rw [List.map_cons, List.nodup_cons] at hnd2
      have hndr : (rest'.map (fun e => e.src)).Nodup := hnd2.2
      have hf0n : f₀.src ∉ rest'.map (fun e => e.src) := hnd2.1
      have htc : ∀ g ∈ rest', s < g.src ∧ g.src ∉ e.tgt :: visited := by
        intro g hg
        have hgr := htail g (List.mem_cons_of_mem _ hg)
        refine ⟨hgr.1, ?_⟩
        rw [List.mem_cons]
        rintro (hh | hh)
        · exact hf0n (List.mem_map.mpr ⟨g, hg, by rw [hh]; exact hf0.symm⟩)
        · exact hgr.2 hh
      have hres := ih f e.tgt (e.tgt :: visited) hch' (by simp)
        (by simp at hlen ⊢; omega) htc hndr
      rw [List.reverse_cons, List.append_assoc] at hres
      show visited.reverse ++ ((f₀ :: rest').map (fun e => e.src)) ∈ _
      rw [List.map_cons, hf0]
      exact hres

/-- Completeness of the simple-cycle enumeration: every simple closed walk
appears — up to rotation — among the expanded cycle edge sequences. -/
theorem simple_cycle_enumerated (G : Graph) (hcl : edgesClosed G)
    (v : Nat) (es : List Edge) (hsc : SimpleCycleW G v es) :
    ∃ es' : List Edge,
      (∀ m : Label → ℚ, walkSum m es' = walkSum m es) ∧
      es'.map (fun e => (e.src, e.tgt, e.label)) ∈ get_simple_cycles_edges G := by
  obtain ⟨hne, hch, hnd⟩ := hsc
  rcases exists_min_split es hne with ⟨A, e₀, B, rfl, hmin⟩
  have hch' : edgeChain G e₀.src e₀.src (e₀ :: (B ++ A)) :=
    chain_rotate G v A e₀ B hch
  have hperm : (A ++ e₀ :: B).Perm (e₀ :: (B ++ A)) := by
    have := @List.perm_append_comm _ A (e₀ :: B)
    simpa using this
  have hnd' : ((e₀ :: (B ++ A)).map (fun e => e.src)).Nodup :=
    (hperm.map (fun e => e.src)).nodup hnd
  have hmem' : ∀ g ∈ e₀ :: (B ++ A), g ∈ G.edges :=
    edgeChain_mem G _ _ _ hch'
  have hsubn : ((e₀ :: (B ++ A)).map (fun e => e.src)) ⊆ G.nodes := by
    intro x hx
    rcases List.mem_map.mp hx with ⟨g, hg, rfl⟩
    exact (hcl g (hmem' g hg)).1
  have hlenb : (e₀ :: (B ++ A)).length ≤ G.nodes.length := by
    have := nodup_subset_length hnd' hsubn
    simpa using this
  have htc : ∀ g ∈ B ++ A, e₀.src < g.src ∧ g.src ∉ [e₀.src] := by
    intro g hg
    have hle : e₀.src ≤ g.src := hmin g (hperm.symm.subset (List.mem_cons_of_mem _ hg))
    have hne' : g.src ≠ e₀.src := by
      rw [List.map_cons, List.nodup_cons] at hnd'
      intro hh
      exact hnd'.1 (List.mem_map.mpr ⟨g, hg, hh⟩)
    exact ⟨by omega, by simpa using hne'⟩
  have hndr : ((B ++ A).map (fun e => e.src)).Nodup := by
    rw [List.map_cons, List.nodup_cons] at hnd'
    exact hnd'.2
  have hcy := cyclesAux_complete G e₀.src (e₀ :: (B ++ A)) G.nodes.length e₀.src
    [e₀.src] hch' (by simp) hlenb htc hndr
  have hc' : (e₀ :: (B ++ A)).map (fun e => e.src) ∈ simpleCycles G := by
    rw [simpleCycles, mem_dedupKeepFirst]
    apply List.mem_flatMap.mpr
    refine ⟨e₀.src, (hcl e₀ (hmem' e₀ (List.mem_cons_self _ _))).1, ?_⟩
    have : ([e₀.src].reverse ++ (e₀ :: (B ++ A)).tail.map (fun e => e.src))
        = (e₀ :: (B ++ A)).map (fun e => e.src) := by
      simp
    rw [← this]
    exact hcy
  refine ⟨e₀ :: (B ++ A), ?_, ?_⟩
  · intro m
    exact (walkSum_rotate m A (e₀ :: B)).symm
  · rw [get_simple_cycles_edges]
    apply List.mem_flatMap.mpr
    refine ⟨(e₀ :: (B ++ A)).map (fun e => e.src), hc', ?_⟩
    rw [mem_get_path_edges]
    refine ⟨by simp; omega, ?_⟩
    have hreal := chain_to_realizes G (e₀ :: (B ++ A)) e₀.src e₀.src hch' (by simp)
    have hhd : ((e₀ :: (B ++ A)).map (fun e => e.src)).headD 0 = e₀.src := rfl
    rw [hhd]
    exact hreal

/-- A label weighting that sums to zero on every simple cycle of `G`. -/
def CycKill (G : Graph) (m : Label → ℚ) : Prop :=
  ∀ v es, SimpleCycleW G v es → walkSum m es = 0

theorem cycKill_of_null (G : Graph) (hcl : edgesClosed G) (v : List ℚ)
    (hv : v.length = (get_ordered_alphabet G).length)
    (hnull : InNull (loop_equations (get_ordered_alphabet G)
      (get_simple_cycles_edges G)) v) :
    CycKill G (coordFn (get_ordered_alphabet G) v) := by
  intro w es hsc
  rcases simple_cycle_enumerated G hcl w es hsc with ⟨es', hsum, hmem⟩
  rw [← hsum (coordFn (get_ordered_alphabet G) v)]
  have hrow : (es'.map (fun e => (e.src, e.tgt, e.label))).foldl
      (fun vec e => addAt vec (idxOf (get_ordered_alphabet G) e.2.2))
      (List.replicate (get_ordered_alphabet G).length 0)
      ∈ loop_equations (get_ordered_alphabet G) (get_simple_cycles_edges G) := by
    rw [loop_equations]
    exact List.mem_map.mpr ⟨_, hmem, rfl⟩
  have h0 := hnull _ hrow
  have hlabels : ∀ pe ∈ es'.map (fun e => (e.src, e.tgt, e.label)),
      pe.2.2 ∈ get_ordered_alphabet G := by
    intro pe hpe
    rcases List.mem_flatMap.mp hmem with ⟨c, -, hpath⟩
    have hr2 := (mem_get_path_edges G _ _).mp hpath
    rw [get_ordered_alphabet, mem_dedupKeepFirst]
    exact realizesB_label_mem G _ _ pe hr2.2 hpe
  rw [dotL_loop_row _ v hv _ hlabels] at h0
  rw [← mSum_eq_walkSum (coordFn (get_ordered_alphabet G) v) es'
    (es'.map (fun e => (e.src, e.tgt, e.label))) (by rw [List.map_map]; rfl)]
  exact h0

theorem row_zero_of_cycKill (G : Graph) (m : Label → ℚ) (hck : CycKill G m)
    (row : List ℚ)
    (hrow : row ∈ loop_equations (get_ordered_alphabet G)
      (get_simple_cycles_edges G)) :
    dotL row ((get_ordered_alphabet G).map m) = 0 := by
  rw [loop_equations] at hrow
  rcases List.mem_map.mp hrow with ⟨pes, hpes, rfl⟩
  rcases List.mem_flatMap.mp hpes with ⟨c, hc, hpath⟩
  have hr2 := (mem_get_path_edges G _ _).mp hpath
  rcases realizes_to_chain G _ _ hr2.2 with ⟨es₀, hch, hsrc, hlab⟩
  rcases simpleCycles_sound G c hc with ⟨hcnd, hcne⟩
  have hlast : lastOf (c ++ [c.headD 0]) = c.headD 0 := lastOf_append_singleton c _
  have hhead : (c ++ [c.headD 0]).headD 0 = c.headD 0 := by
    cases c with
    | nil => exact absurd rfl hcne
    | cons a c' => rfl
  rw [hhead, hlast] at hch
  have hdropl : (c ++ [c.headD 0]).dropLast = c := List.dropLast_concat ..
  rw [hdropl] at hsrc
  have hsc : SimpleCycleW G (c.headD 0) es₀ := by
    refine ⟨?_, hch, ?_⟩
    · intro hh
      rw [hh] at hsrc
      exact hcne hsrc.symm
    · rw [hsrc]; exact hcnd
  have h0 := hck _ _ hsc
  have hlabels : ∀ pe ∈ pes, pe.2.2 ∈ get_ordered_alphabet G := by
    intro pe hpe
    rw [get_ordered_alphabet, mem_dedupKeepFirst]
    exact realizesB_label_mem G _ _ pe hr2.2 hpe
  rw [dotL_loop_row _ _ (by rw [List.length_map]) _ hlabels]
  have hpt : ∀ pe ∈ pes,
      coordFn (get_ordered_alphabet G) ((get_ordered_alphabet G).map m) pe.2.2
        = m pe.2.2 := by
    intro pe hpe
    exact map_getD_idxOf _ m _ (hlabels pe hpe)
  rw [List.map_congr_left hpt, mSum_eq_walkSum m es₀ pes hlab]
  exact h0

/-- A reversed BFS path: the list of visited nodes, most recent first,
starting (at the end of the list) from `s`, with an edge between consecutive
entries. -/
def revWalk (G : Graph) (s : Nat) : List Nat → Prop
  | [] => False
  | [x] => x = s
  | x :: y :: rest => (∃ e ∈ G.edges, e.src = y ∧ e.tgt = x) ∧ revWalk G s (y :: rest)

theorem revWalk_to_chain (G : Graph) (s : Nat) :
    ∀ p : List Nat, revWalk G s p →
      ∃ es : List Edge, edgeChain G s (p.headD 0) es ∧
        es.map (fun e => e.src) ++ [p.headD 0] = p.reverse := by
  intro p
  induction p with
  | nil => intro h; exact absurd h (by simp [revWalk])
  | cons x q ih =>
    intro h
    cases q with
    | nil =>
      have hx : x = s := h
      subst hx
      exact ⟨[], rfl, by simp⟩
    | cons y rest =>
      obtain ⟨⟨e, he, hesrc, hetgt⟩, hrev⟩ := h
      rcases ih hrev with ⟨es₁, hch, hmap⟩
      refine ⟨es₁ ++ [e], ?_, ?_⟩
      · apply (edgeChain_append G es₁ [e] s _).mpr
        exact ⟨y, hch, ⟨he, hesrc, hetgt⟩⟩
      · have h1 : (es₁ ++ [e]).map (fun e => e.src)
            = es₁.map (fun e => e.src) ++ [e.src] := by
          rw [List.map_append]; rfl
        rw [h1, hesrc]
        show (es₁.map (fun e => e.src) ++ [y]) ++ [x] = (x :: y :: rest).reverse
        rw [List.reverse_cons, ← hmap]
        rfl

theorem visited_closed_reach (G : Graph) (s : Nat) (visited : List Nat)
    (hs : s ∈ visited)
    (hcl : ∀ x ∈ visited, ∀ e ∈ G.edges, e.src = x → e.tgt ∈ visited) :
    ∀ u, Reach G s u → u ∈ visited := by
  intro u h
  induction h with
  | refl => exact hs
  | step _ he hsrc ih => exact hcl _ ih _ he hsrc

theorem mem_succs_iff (G : Graph) (cur : Nat) (visited : List Nat) (v : Nat) :
    v ∈ dedupKeepFirst
        (((G.edges.filter (fun e => e.src = cur)).map (fun e => e.tgt)).filter
          (fun v => v ∉ visited))
      ↔ (∃ e ∈ G.edges, e.src = cur ∧ e.tgt = v) ∧ v ∉ visited := by
  rw [mem_dedupKeepFirst, List.mem_filter]
  constructor
  · rintro ⟨hv, hnv⟩
    rcases List.mem_map.mp hv with ⟨e, hef, rfl⟩
    rcases List.mem_filter.mp hef with ⟨heG, hsrc⟩
    exact ⟨⟨e, heG, by simpa using hsrc, rfl⟩, by simpa using hnv⟩
  · rintro ⟨⟨e, heG, hsrc, htgt⟩, hnv⟩
    refine ⟨List.mem_map.mpr ⟨e, List.mem_filter.mpr ⟨heG, by simpa using hsrc⟩, htgt⟩,
      by simpa using hnv⟩

theorem bfsAux_spec (G : Graph) (s t : Nat) :
    ∀ (fuel : Nat) (frontier : List (List Nat)) (visited : List Nat),
      (∀ p ∈ frontier, revWalk G s p) →
      (∀ p ∈ frontier, p.headD 0 ∈ visited) →
      (∀ x ∈ visited, (∃ p ∈ frontier, p.headD 0 = x) ∨
        (∀ e ∈ G.edges, e.src = x → e.tgt ∈ visited)) →
      (t ∈ visited → ∃ p ∈ frontier, p.headD 0 = t) →
      visited.Nodup →
      visited ⊆ s :: G.edges.map (fun e => e.tgt) →
      s ∈ visited →
      Reach G s t →
      frontier.length + (G.edges.length + 1) < fuel + visited.length →
      ∃ q, bfsAux G t fuel frontier visited = some q ∧
        ∃ p, q = p.reverse ∧ revWalk G s p ∧ p.headD 0 = t := by
  intro fuel
  induction fuel with
  | zero =>
    intro frontier visited _ _ _ _ hnd hsub _ _ hbound
    have hvb : visited.length ≤ G.edges.length + 1 := by
      have := nodup_subset_length hnd hsub
      simpa using this
    omega
  | succ fuel ih =>
    intro frontier visited hfr hheads hinvb hbt hnd hsub hsmem hreach hbound
    cases frontier with
    | nil =>
      exfalso
      have hclosed : ∀ x ∈ visited, ∀ e ∈ G.edges, e.src = x → e.tgt ∈ visited := by
        intro x hx
        rcases hinvb x hx with ⟨p, hp, -⟩ | hcl
        · simp at hp
        · exact hcl
      have ht : t ∈ visited := visited_closed_reach G s visited hsmem hclosed t hreach
      rcases hbt ht with ⟨p, hp, -⟩
      simp at hp
    | cons p rest =>
      cases p with
      | nil => exact absurd (hfr [] (List.mem_cons_self _ _)) (by simp [revWalk])
      | cons cur prev =>
        by_cases hct : cur = t
        · refine ⟨(cur :: prev).reverse, ?_, (cur :: prev), rfl,
            hfr _ (List.mem_cons_self _ _), hct⟩
          show (if cur = t then some (cur :: prev).reverse else _) = _
          rw [if_pos hct]
        · have hstep : bfsAux G t (fuel + 1) ((cur :: prev) :: rest) visited
              = bfsAux G t fuel
                (rest ++ (dedupKeepFirst
                  (((G.edges.filter (fun e => e.src = cur)).map (fun e => e.tgt)).filter
                    (fun v => v ∉ visited))).map (fun v => v :: cur :: prev))
                (visited ++ dedupKeepFirst
                  (((G.edges.filter (fun e => e.src = cur)).map (fun e => e.tgt)).filter
                    (fun v => v ∉ visited))) := by
            show (if cur = t then some (cur :: prev).reverse else _) = _
            rw [if_neg hct]
          rw [hstep]
          set succs := dedupKeepFirst
            (((G.edges.filter (fun e => e.src = cur)).map (fun e => e.tgt)).filter
              (fun v => v ∉ visited)) with hsuccs
          apply ih
          · intro q hq
            rcases List.mem_append.mp hq with hq' | hq'
            · exact hfr q (List.mem_cons_of_mem _ hq')
            · rcases List.mem_map.mp hq' with ⟨v, hv, rfl⟩
              rw [hsuccs, mem_succs_iff] at hv
              exact ⟨hv.1, hfr _ (List.mem_cons_self _ _)⟩
          · intro q hq
            rcases List.mem_append.mp hq with hq' | hq'
            · exact List.mem_append_left _ (hheads q (List.mem_cons_of_mem _ hq'))
            · rcases List.mem_map.mp hq' with ⟨v, hv, rfl⟩
              exact List.mem_append_right _ hv
          · intro x hx
            rcases List.mem_append.mp hx with hx' | hx'
            · by_cases hxc : x = cur
              · subst hxc
                right
                intro e he hsrc
                by_cases hvis : e.tgt ∈ visited
                · exact List.mem_append_left _ hvis
                · refine List.mem_append_right _ ?_
                  rw [hsuccs, mem_succs_iff]
                  exact ⟨⟨e, he, hsrc, rfl⟩, hvis⟩
              · rcases hinvb x hx' with ⟨q, hq, hqh⟩ | hcl
                · rcases List.mem_cons.mp hq with rfl | hq'
                  · exact absurd (show cur = x from hqh) (fun hh => hxc hh.symm)
                  · exact Or.inl ⟨q, List.mem_append_left _ hq', hqh⟩
                · right
                  intro e he hsrc
                  exact List.mem_append_left _ (hcl e he hsrc)
            · left
              exact ⟨x :: cur :: prev, List.mem_append_right _
                (List.mem_map.mpr ⟨x, hx', rfl⟩), rfl⟩
          · intro ht
            rcases List.mem_append.mp ht with ht' | ht'
            · rcases hbt ht' with ⟨q, hq, hqh⟩
              rcases List.mem_cons.mp hq with rfl | hq'
              · exact absurd hqh hct
              · exact ⟨q, List.mem_append_left _ hq', hqh⟩
            · exact ⟨t :: cur :: prev, List.mem_append_right _
                (List.mem_map.mpr ⟨t, ht', rfl⟩), rfl⟩
          · rw [List.nodup_append]
            refine ⟨hnd, nodup_dedupKeepFirst _, ?_⟩
            intro x hx hx'
            rw [hsuccs, mem_succs_iff] at hx'
            exact hx'.2 hx
          · intro x hx
            rcases List.mem_append.mp hx with hx' | hx'
            · exact hsub hx'
            · rw [hsuccs, mem_succs_iff] at hx'
              rcases hx'.1 with ⟨e, he, -, rfl⟩
              exact List.mem_cons_of_mem _ (List.mem_map.mpr ⟨e, he, rfl⟩)
          · exact List.mem_append_left _ hsmem
          · exact hreach
          · rw [List.length_append, List.length_append, List.length_map]
            simp only [List.length_cons] at hbound
            omega

theorem shortest_path_spec (G : Graph) (s t : Nat) (hr : Reach G s t) :
    ∃ p, shortest_path G s t = p.reverse ∧ revWalk G s p ∧ p.headD 0 = t := by
  obtain ⟨q, heq, p, hq, hrev, hhd⟩ := bfsAux_spec G s t
    (G.nodes.length + G.edges.length + 2) [[s]] [s]
    (by
      intro p hp
      rw [List.mem_singleton.mp hp]
      rfl)
    (by
      intro p hp
      rw [List.mem_singleton.mp hp]
      simp)
    (by
      intro x hx
      exact Or.inl ⟨[s], List.mem_singleton_self _, (List.mem_singleton.mp hx).symm⟩)
    (by
      intro ht
      exact ⟨[s], List.mem_singleton_self _, (List.mem_singleton.mp ht).symm⟩)
    (List.nodup_singleton s)
    (by
      intro x hx
      rw [List.mem_singleton.mp hx]
      exact List.mem_cons_self _ _)
    (List.mem_singleton_self s)
    hr
    (by simp; omega)
  refine ⟨p, ?_, hrev, hhd⟩
  rw [shortest_path, heq]
  exact hq

theorem fold_addVecs_eq (m : Label → List ℚ) :
    ∀ (pes : List PEdge) (es : List Edge),
      es.map (fun e => e.label) = pes.map (fun pe => pe.2.2) →
      ∀ acc : List ℚ,
        pes.foldl (fun v pedge => addVecs v (m pedge.2.2)) acc
          = es.foldl (fun v e => addVecs v (m e.label)) acc := by
  intro pes
  induction pes with
  | nil =>
    intro es h acc
    cases es with
    | nil => rfl
    | cons e es' => simp at h
  | cons pe pes ih =>
    intro es h acc
    cases es with
    | nil => simp at h
    | cons e es' =>
      rw [List.map_cons, List.map_cons] at h
      injection h with h1 h2
      rw [List.foldl_cons, List.foldl_cons, h1, ih es' h2]

theorem potentialVec_eq (G : Graph) (start u : Nat) (m : Label → List ℚ)
    (lab : Label) :
    potentialVec G start u m lab
      = match get_path_edges G (shortest_path G start u) with
        | [] => m lab
        | pe :: _ => pe.foldl (fun v pedge => addVecs v (m pedge.2.2)) (m lab) := rfl

/-- The potential assigned by `relabel` is the fold of the morphism along an
actual walk from the start node. -/
theorem potentialVec_chain (G : Graph) (start u : Nat) (m : Label → List ℚ)
    (lab : Label) (hreach : Reach G start u) :
    ∃ es : List Edge, edgeChain G start u es ∧
      potentialVec G start u m lab
        = es.foldl (fun v e => addVecs v (m e.label)) (m lab) := by
  obtain ⟨p, hsp, hrev, hhd⟩ := shortest_path_spec G start u hreach
  rcases revWalk_to_chain G start p hrev with ⟨es, hch, hmap⟩
  rw [hhd] at hch hmap
  rw [potentialVec_eq, hsp]
  cases es with
  | nil =>
    have hpu : p.reverse = [u] := by
      rw [← hmap]
      rfl
    rw [hpu]
    exact ⟨[], hch, rfl⟩
  | cons e es' =>
    have hreal := chain_to_realizes G (e :: es') start u hch (by simp)
    rw [hmap] at hreal
    have hpes₀ : (e :: es').map (fun g => (g.src, g.tgt, g.label))
        ∈ get_path_edges G p.reverse := by
      rw [mem_get_path_edges]
      refine ⟨?_, hreal⟩
      rw [← hmap]
      simp
    cases hgpe : get_path_edges G p.reverse with
    | nil => rw [hgpe] at hpes₀; simp at hpes₀
    | cons pe₀ pes_rest =>
      have hpe₀mem : pe₀ ∈ get_path_edges G p.reverse := by
        rw [hgpe]
        exact List.mem_cons_self _ _
      have hr := (mem_get_path_edges G _ _).mp hpe₀mem
      rcases realizes_to_chain G _ _ hr.2 with ⟨es₁, hch₁, hsrc₁, hlab₁⟩
      have hhd2 : p.reverse.headD 0 = start := by
        rw [← hmap]
        exact hch.2.1
      have hlast2 : lastOf p.reverse = u := by
        rw [← hmap]
        exact lastOf_append_singleton _ _
      rw [hhd2, hlast2] at hch₁
      refine ⟨es₁, hch₁, ?_⟩
      exact fold_addVecs_eq m pe₀ es₁ hlab₁ (m lab)

theorem zipWith_map_same {α β : Type _} (f : β → β → β) (g h : α → β) :
    ∀ l : List α, List.zipWith f (l.map g) (l.map h) = l.map (fun x => f (g x) (h x)) := by
  intro l
  induction l with
  | nil => rfl
  | cons x xs ih => simp [ih]

theorem fold_addVecs_map (ns : List (List ℚ)) (sc : List ℚ → Label → ℚ) :
    ∀ (es : List Edge) (g : List ℚ → ℚ),
      es.foldl (fun v e => addVecs v (ns.map (fun nb => sc nb e.label))) (ns.map g)
        = ns.map (fun nb => es.foldl (fun x e => x + sc nb e.label) (g nb)) := by
  intro es
  induction es with
  | nil => intro g; rfl
  | cons e es ih =>
    intro g
    rw [List.foldl_cons]
    have hstep : addVecs (ns.map g) (ns.map (fun nb => sc nb e.label))
        = ns.map (fun nb => g nb + sc nb e.label) := by
      rw [addVecs, zipWith_map_same]
    rw [hstep, ih (fun nb => g nb + sc nb e.label)]
    apply List.map_inj_left.mpr
    intro nb _
    rw [List.foldl_cons]

theorem foldl_add_sum {α : Type _} (f : α → ℚ) :
    ∀ (l : List α) (c : ℚ), l.foldl (fun x a => x + f a) c = c + (l.map f).sum := by
  intro l
  induction l with
  | nil => intro c; simp
  | cons a l ih =>
    intro c
    rw [List.foldl_cons, ih (c + f a), List.map_cons, List.sum_cons]
    ring

/-- Difference of two rational vectors. -/
def subVecs (a b : List ℚ) : List ℚ := List.zipWith (· - ·) a b

theorem dotL_subVecs : ∀ (a b v : List ℚ), a.length = b.length →
    dotL (subVecs a b) v = dotL a v - dotL b v := by
  intro a
  induction a with
  | nil =>
    intro b v h
    rw [List.length_nil] at h
    rw [(List.length_eq_zero.mp h.symm)]
    show dotL [] v = dotL [] v - dotL [] v
    rw [dotL_nil_left]
    ring
  | cons x xs ih =>
    intro b v h
    cases b with
    | nil => simp at h
    | cons y ys =>
      cases v with
      | nil =>
        show dotL ((x - y) :: List.zipWith (· - ·) xs ys) [] = _
        simp [dotL]
      | cons z zs =>
        show (x - y) * z + dotL (subVecs xs ys) zs
          = (x * z + dotL xs zs) - (y * z + dotL ys zs)
        rw [ih ys zs (by simpa using h)]
        ring

theorem dotL_comm : ∀ (a b : List ℚ), dotL a b = dotL b a := by
  intro a
  induction a with
  | nil =>
    intro b
    cases b with
    | nil => rfl
    | cons y ys => show (0 : ℚ) = dotL (y :: ys) []; simp [dotL]
  | cons x xs ih =>
    intro b
    cases b with
    | nil => show dotL (x :: xs) [] = (0 : ℚ); simp [dotL]
    | cons y ys =>
      show x * y + dotL xs ys = y * x + dotL ys xs
      rw [ih ys]
      ring

theorem chi_fold_len (al : List Label) :
    ∀ (ls : List Label) (acc : List ℚ),
      (ls.foldl (fun vec l => addAt vec (idxOf al l)) acc).length = acc.length := by
  intro ls
  induction ls with
  | nil => intro acc; rfl
  | cons l ls ih =>
    intro acc
    rw [List.foldl_cons, ih, addAt_length]

theorem dotL_chi_fold (al : List Label) (v : List ℚ) (hv : v.length = al.length) :
    ∀ (ls : List Label) (acc : List ℚ), acc.length = al.length →
      (∀ l ∈ ls, l ∈ al) →
      dotL (ls.foldl (fun vec l => addAt vec (idxOf al l)) acc) v
        = dotL acc v + (ls.map (fun l => coordFn al v l)).sum := by
  intro ls
  induction ls with
  | nil => intro acc _ _; simp
  | cons l ls ih =>
    intro acc hacc hmem
    rw [List.foldl_cons]
    have hidx : idxOf al l < al.length :=
      (idxOf_spec al l (hmem l (List.mem_cons_self _ _))).1
    rw [ih (addAt acc (idxOf al l)) (by rw [addAt_length]; exact hacc)
      (fun q hq => hmem q (List.mem_cons_of_mem _ hq))]
    rw [dotL_addAt acc v (idxOf al l) (by omega) (by omega)]
    rw [List.map_cons, List.sum_cons]
    show _ = dotL acc v + (coordFn al v l + _)
    rw [coordFn]
    ring

/-- The Parikh vector over the ordered alphabet of a list of labels. -/
def chiVec (al : List Label) (ls : List Label) : List ℚ :=
  ls.foldl (fun vec l => addAt vec (idxOf al l)) (List.replicate al.length 0)

theorem chiVec_len (al ls : List Label) : (chiVec al ls).length = al.length := by
  rw [chiVec, chi_fold_len, List.length_replicate]

theorem dotL_chiVec (al : List Label) (v : List ℚ) (hv : v.length = al.length)
    (ls : List Label) (hls : ∀ l ∈ ls, l ∈ al) :
    dotL (chiVec al ls) v = (ls.map (fun l => coordFn al v l)).sum := by
  rw [chiVec, dotL_chi_fold al v hv ls _ (List.length_replicate ..) hls,
    dotL_replicate_zero, zero_add]

theorem headD_mem {l : List Nat} (h : l ≠ []) (d : Nat) : l.headD d ∈ l := by
  cases l with
  | nil => exact absurd rfl h
  | cons x xs => exact List.mem_cons_self _ _

theorem idxOf_getD_nodup (l : List Label) (hnd : l.Nodup) (i : Nat)
    (hi : i < l.length) : idxOf l (l.getD i (Label.sym 0)) = i := by
  have hmem : l.getD i (Label.sym 0) ∈ l := by
    rw [List.getD_eq_getElem _ _ hi]
    exact List.getElem_mem hi
  rcases idxOf_spec l _ hmem with ⟨hlt, hget⟩
  rw [List.getD_eq_getElem _ _ hlt] at hget
  exact (List.Nodup.getElem_inj_iff hnd).mp
    (hget.trans (List.getD_eq_getElem l (Label.sym 0) hi))

theorem mem_nullspaceOf_length (r0 : List ℚ) (rest : List (List ℚ))
    (b : List ℚ) (hb : b ∈ nullspaceOf (r0 :: rest)) : b.length = r0.length := by
  rw [nullspaceOf_cons] at hb
  rcases List.mem_map.mp hb with ⟨j, -, rfl⟩
  exact length_nsVec ..

theorem loop_row_length (al : List Label) (cs : List (List PEdge)) :
    ∀ row ∈ loop_equations al cs, row.length = al.length := by
  intro row hrow
  rw [loop_equations] at hrow
  rcases List.mem_map.mp hrow with ⟨c, -, rfl⟩
  rw [parikh_fold_len, List.length_replicate]

theorem walkSum_path_indep (G : Graph) (m : Label → ℚ) (hck : CycKill G m)
    (a b : Nat) (w1 w2 : List Edge) (h1 : edgeChain G a b w1)
    (h2 : edgeChain G a b w2) (wb : List Edge) (hb : edgeChain G b a wb) :
    walkSum m w1 = walkSum m w2 := by
  have hz1 : walkSum m (w1 ++ wb) = 0 :=
    closed_walk_sum_zero G m hck (w1 ++ wb).length _ a (le_refl _)
      ((edgeChain_append G w1 wb a a).mpr ⟨b, h1, hb⟩)
  have hz2 : walkSum m (w2 ++ wb) = 0 :=
    closed_walk_sum_zero G m hck (w2 ++ wb).length _ a (le_refl _)
      ((edgeChain_append G w2 wb a a).mpr ⟨b, h2, hb⟩)
  rw [walkSum_append] at hz1 hz2
  exact add_right_cancel (hz1.trans hz2.symm)

theorem exists_simple_cycle_of_closed (G : Graph) :
    ∀ (n : Nat) (es : List Edge) (v : Nat), es.length ≤ n → es ≠ [] →
      edgeChain G v v es → ∃ w es', SimpleCycleW G w es' := by
  intro n
  induction n with
  | zero =>
    intro es v hlen hne _
    rw [List.length_eq_zero.mp (Nat.le_zero.mp hlen)] at hne
    exact absurd rfl hne
  | succ n ih =>
    intro es v hlen hne hch
    by_cases hnd : (es.map (fun e => e.src)).Nodup
    · exact ⟨v, es, hne, hch, hnd⟩
    · rcases exists_dup_split (fun e : Edge => e.src) es hnd with
        ⟨A, e₁, B, e₂, C, rfl, hsrc⟩
      rcases (edgeChain_append G A (e₁ :: (B ++ (e₂ :: C))) v v).mp hch with
        ⟨m1, hA, hrest⟩
      obtain ⟨he₁, hs₁, hch₁⟩ := hrest
      rcases (edgeChain_append G B (e₂ :: C) e₁.tgt v).mp hch₁ with
        ⟨m2, hB, hrest₂⟩
      obtain ⟨he₂, hs₂, hch₂⟩ := hrest₂
      have hm12 : m2 = m1 := by rw [← hs₂, ← hsrc, hs₁]
      have hmid : edgeChain G m1 m1 (e₁ :: B) := ⟨he₁, hs₁, hm12 ▸ hB⟩
      refine ih (e₁ :: B) m1 ?_ (by simp) hmid
      have : A.length + (B.length + (C.length + 2)) ≤ n + 1 := by simpa using hlen
      simp only [List.length_cons]
      omega

theorem ns_empty_null_zero (r0 : List ℚ) (rest : List (List ℚ))
    (hlen : ∀ row ∈ r0 :: rest, row.length = r0.length)
    (hns : nullspaceOf (r0 :: rest) = [])
    (v : List ℚ) (hv : v.length = r0.length)
    (hnull : InNull (r0 :: rest) v) :
    ∀ k, k < r0.length → v.getD k 0 = 0 := by
  intro k hk
  have hinv := rrefInv_fold r0.length (r0 :: rest) hlen r0.length
  have hrref : rref (r0 :: rest) r0.length
      = (((List.range r0.length).foldl rrefStep (r0 :: rest, 0, [])).1,
         ((List.range r0.length).foldl rrefStep (r0 :: rest, 0, [])).2.2) := rfl
  generalize hst : (List.range r0.length).foldl rrefStep (r0 :: rest, 0, []) = st
    at hinv hrref
  obtain ⟨R, r, pivots⟩ := st
  obtain ⟨hlenR, hrle, hplen, hpbound, hpsorted, hpunit, hpzero, hbzero⟩ := hinv
  dsimp only at hlenR hrle hplen hpbound hpsorted hpunit hpzero hbzero
  have hnullR : InNull R v := by
    have h := (rref_null_iff (r0 :: rest) r0.length r0.length hlen v).mpr hnull
    rw [hrref] at h
    exact h
  have hfilter : (List.range r0.length).filter (fun j => j ∉ pivots) = [] := by
    have hNS : nullspaceOf (r0 :: rest)
        = ((List.range r0.length).filter (fun j => j ∉ pivots)).map
            (nsVec R pivots r0.length) := by
      rw [nullspaceOf_cons, hrref]
    rw [hNS] at hns
    exact List.map_eq_nil.mp hns
  have hallpiv : ∀ j, j < r0.length → j ∈ pivots := by
    intro j hj
    by_contra hjp
    have hjmem : j ∈ (List.range r0.length).filter (fun j => j ∉ pivots) :=
      List.mem_filter.mpr ⟨List.mem_range.mpr hj, by simpa using hjp⟩
    rw [hfilter] at hjmem
    simp at hjmem
  have hexp := null_component_expand R pivots r0.length hlenR (by omega) hpsorted
    (fun t ht => hpunit t (by omega))
    (fun t ht => hpzero t (by omega)) v hv hnullR k hk
  rw [hexp]
  apply Finset.sum_eq_zero
  intro j hj
  rw [Finset.mem_range] at hj
  rw [if_pos (hallpiv j hj)]

theorem nullspaceOf_ne_nil_witness (r0 : List ℚ) (rest : List (List ℚ))
    (hns : nullspaceOf (r0 :: rest) ≠ []) :
    ∃ b ∈ nullspaceOf (r0 :: rest), ∃ j, j < r0.length ∧ b.getD j 0 = 1 := by
  cases hNS : nullspaceOf (r0 :: rest) with
  | nil => exact absurd hNS hns
  | cons b bs =>
    have hmem : b ∈ nullspaceOf (r0 :: rest) := by
      rw [hNS]; exact List.mem_cons_self _ _
    have hmem' := hmem
    rw [nullspaceOf_cons] at hmem'
    rcases List.mem_map.mp hmem' with ⟨j, hjf, hbj⟩
    rw [List.mem_filter, List.mem_range] at hjf
    refine ⟨b, List.mem_cons_self _ _, j, hjf.1, ?_⟩
    rw [← hbj, getD_nsVec _ _ _ _ _ hjf.1, if_pos rfl]

theorem get_path_edges_edges_nil (G : Graph) (h : G.edges = []) :
    ∀ p, get_path_edges G p = [] := by
  intro p
  match p with
  | [] => rfl
  | [x] => rfl
  | a :: b :: rest =>
    cases rest with
    | nil =>
      show ((G.edges.filter (fun e => e.src = a ∧ e.tgt = b)).map _) = []
      rw [h]
      rfl
    | cons c cs =>
      show ((G.edges.filter (fun e => e.src = a ∧ e.tgt = b)).flatMap _) = []
      rw [h]
      rfl

theorem roundNS_edges_nil (G : Graph) (h : G.edges = []) : roundNS G = [] := by
  have hc : get_simple_cycles_edges G = [] := by
    rw [get_simple_cycles_edges]
    rw [List.flatMap_eq_nil_iff]
    intro c _
    exact get_path_edges_edges_nil G h _
  rw [roundNS, hc]
  rfl

/-- Mutual reachability of all node pairs (every SCC subgraph satisfies it). -/
def stronglyConnected (G : Graph) : Prop :=
  ∀ u ∈ G.nodes, ∀ v ∈ G.nodes, Reach G u v

/-- Every cycle-killing weighting vanishes on the labels of the graph: the
order-free counterpart of the first round computing an empty null space. -/
def TrivKill (G : Graph) : Prop :=
  ∀ m : Label → ℚ, CycKill G m → ∀ e ∈ G.edges, m e.label = 0

theorem trivKill_iff_roundNS_empty (G : Graph) (hcl : edgesClosed G)
    (hsc : stronglyConnected G) :
    (roundNS G = [] ↔ TrivKill G) := by
  by_cases hE : G.edges = []
  · constructor
    · intro _ m _ e he
      rw [hE] at he
      simp at he
    · intro _
      exact roundNS_edges_nil G hE
  · obtain ⟨e₀, he₀⟩ : ∃ e, e ∈ G.edges := by
      cases hE' : G.edges with
      | nil => exact absurd hE' hE
      | cons a l => exact ⟨a, List.mem_cons_self _ _⟩
    have hreach : Reach G e₀.tgt e₀.src :=
      hsc e₀.tgt (hcl e₀ he₀).2 e₀.src (hcl e₀ he₀).1
    rcases (reach_iff_chain G _ _).mp hreach with ⟨wb, hwb⟩
    have hclosed : edgeChain G e₀.src e₀.src (e₀ :: wb) := ⟨he₀, rfl, hwb⟩
    rcases exists_simple_cycle_of_closed G (e₀ :: wb).length (e₀ :: wb) e₀.src
      (le_refl _) (by simp) hclosed with ⟨w, es, hscw⟩
    rcases simple_cycle_enumerated G hcl w es hscw with ⟨es', -, hmem⟩
    have hcyc_ne : get_simple_cycles_edges G ≠ [] := by
      intro hh
      rw [hh] at hmem
      simp at hmem
    cases hrows : loop_equations (get_ordered_alphabet G)
        (get_simple_cycles_edges G) with
    | nil =>
      exfalso
      apply hcyc_ne
      rw [loop_equations] at hrows
      exact List.map_eq_nil.mp hrows
    | cons r0 rrest =>
      have halpha : r0.length = (get_ordered_alphabet G).length := by
        apply loop_row_length
        rw [hrows]
        exact List.mem_cons_self _ _
      have hlen : ∀ row ∈ r0 :: rrest, row.length = r0.length := by
        intro row hrow
        rw [← hrows] at hrow
        rw [loop_row_length _ _ _ hrow, halpha]
      constructor
      · intro hns m hck e he
        have hvm : InNull (r0 :: rrest) ((get_ordered_alphabet G).map m) := by
          rw [← hrows]
          intro row hrow
          exact row_zero_of_cycKill G m hck row hrow
        have hidx : idxOf (get_ordered_alphabet G) e.label < r0.length := by
          rw [halpha]
          exact (idxOf_spec _ _ (edge_label_mem_alphabet G e he)).1
        have hz := ns_empty_null_zero r0 rrest hlen
          (by rw [← hrows]; exact hns)
          ((get_ordered_alphabet G).map m)
          (by rw [List.length_map, halpha])
          hvm (idxOf (get_ordered_alphabet G) e.label) hidx
        rw [map_getD_idxOf _ m e.label (edge_label_mem_alphabet G e he)] at hz
        exact hz
      · intro htriv
        by_contra hns
        have hns' : nullspaceOf (r0 :: rrest) ≠ [] := by
          rw [← hrows]
          exact hns
        rcases nullspaceOf_ne_nil_witness r0 rrest hns' with ⟨b, hb, j, hj, hb1⟩
        have hblen : b.length = r0.length := mem_nullspaceOf_length r0 rrest b hb
        have hbnull : InNull (r0 :: rrest) b := nullspaceOf_sound _ _ hlen b hb
        have hck : CycKill G (coordFn (get_ordered_alphabet G) b) := by
          apply cycKill_of_null G hcl b (by rw [hblen, halpha])
          rw [hrows]
          exact hbnull
        have hjA : j < (get_ordered_alphabet G).length := by rw [← halpha]; exact hj
        have hlab : (get_ordered_alphabet G).getD j (Label.sym 0)
            ∈ get_ordered_alphabet G := by
          rw [List.getD_eq_getElem _ _ hjA]
          exact List.getElem_mem hjA
        rcases alphabet_label_mem G _ hlab with ⟨e, he, hlbe⟩
        have h0 := htriv _ hck e he
        rw [hlbe] at h0
        rw [coordFn, idxOf_getD_nodup _ (alphabet_nodup G) j hjA, hb1] at h0
        exact one_ne_zero h0

theorem morphismOf_eq_map (al : List Label) (ns : List (List ℚ)) (l : Label) :
    morphismOf al ns l = ns.map (fun nb => coordFn al nb l) := rfl

theorem potential_scalar (G : Graph) (start u : Nat) (al : List Label)
    (ns : List (List ℚ)) (lab : Label) (es : List Edge)
    (hfold : potentialVec G start u (morphismOf al ns) lab
      = es.foldl (fun v e => addVecs v (morphismOf al ns e.label))
          (morphismOf al ns lab)) :
    potentialVec G start u (morphismOf al ns) lab
      = ns.map (fun nb => coordFn al nb lab + walkSum (coordFn al nb) es) := by
  rw [hfold]
  have h1 : es.foldl (fun v e => addVecs v (morphismOf al ns e.label))
      (morphismOf al ns lab)
      = es.foldl (fun v e => addVecs v (ns.map (fun nb => coordFn al nb e.label)))
          (ns.map (fun nb => coordFn al nb lab)) := rfl
  rw [h1, fold_addVecs_map ns (coordFn al) es (fun nb => coordFn al nb lab)]
  apply List.map_inj_left.mpr
  intro nb _
  rw [foldl_add_sum (fun e => coordFn al nb e.label) es (coordFn al nb lab)]
  rfl

theorem walkSum_congr (m₁ m₂ : Label → ℚ) (es : List Edge)
    (h : ∀ e ∈ es, m₁ e.label = m₂ e.label) :
    walkSum m₁ es = walkSum m₂ es := by
  rw [walkSum, walkSum]
  congr 1
  exact List.map_congr_left h

theorem length_subVecs (a b : List ℚ) (h : a.length = b.length) :
    (subVecs a b).length = a.length := by
  rw [subVecs, List.length_zipWith, h, Nat.min_self]

theorem chi_cons_sum (al : List Label) (v : List ℚ) (hv : v.length = al.length)
    (lab : Label) (es : List Edge) (hlab : lab ∈ al)
    (hes : ∀ e ∈ es, e.label ∈ al) :
    dotL (chiVec al (lab :: es.map (fun e => e.label))) v
      = coordFn al v lab + walkSum (coordFn al v) es := by
  rw [dotL_chiVec al v hv _ ?hmem]
  case hmem =>
    intro l hl
    rcases List.mem_cons.mp hl with rfl | hl'
    · exact hlab
    · rcases List.mem_map.mp hl' with ⟨g, hg, rfl⟩
      exact hes g hg
  rw [List.map_cons, List.sum_cons]
  congr 1
  rw [List.map_map, walkSum]
  rfl

/-- Two edges carry the same potential pattern: every cycle-killing weighting
gives their label-plus-incoming-walk sums the same value from any common
start node. -/
def EqPat (G : Graph) (e f : Edge) : Prop :=
  ∀ m : Label → ℚ, CycKill G m →
    ∀ (x : Nat) (p q : List Edge), edgeChain G x e.src p → edgeChain G x f.src q →
      m e.label + walkSum m p = m f.label + walkSum m q

theorem potEq_iff_eqPat (G : Graph) (hcl : edgesClosed G)
    (hsc : stronglyConnected G) (r0 : List ℚ) (rrest : List (List ℚ))
    (hrows : loop_equations (get_ordered_alphabet G) (get_simple_cycles_edges G)
      = r0 :: rrest)
    (e f : Edge) (he : e ∈ G.edges) (hf : f ∈ G.edges) :
    (potentialVec G (G.nodes.headD 0) e.src
        (morphismOf (get_ordered_alphabet G) (roundNS G)) e.label
      = potentialVec G (G.nodes.headD 0) f.src
        (morphismOf (get_ordered_alphabet G) (roundNS G)) f.label)
    ↔ EqPat G e f := by
  have hnodes_ne : G.nodes ≠ [] := by
    intro hh
    have hmem := (hcl e he).1
    rw [hh] at hmem
    simp at hmem
  have hstart : G.nodes.headD 0 ∈ G.nodes := headD_mem hnodes_ne 0
  have halpha : r0.length = (get_ordered_alphabet G).length := by
    apply loop_row_length
    rw [hrows]
    exact List.mem_cons_self _ _
  have hlen : ∀ row ∈ r0 :: rrest, row.length = r0.length := by
    intro row hrow
    rw [← hrows] at hrow
    rw [loop_row_length _ _ _ hrow, halpha]
  have hnsr : roundNS G = nullspaceOf (r0 :: rrest) := by
    rw [roundNS, hrows]
  have hre : Reach G (G.nodes.headD 0) e.src :=
    hsc _ hstart e.src (hcl e he).1
  have hrf : Reach G (G.nodes.headD 0) f.src :=
    hsc _ hstart f.src (hcl f hf).1
  rcases potentialVec_chain G (G.nodes.headD 0) e.src
    (morphismOf (get_ordered_alphabet G) (roundNS G)) e.label hre with ⟨We, hWe, hfE⟩
  rcases potentialVec_chain G (G.nodes.headD 0) f.src
    (morphismOf (get_ordered_alphabet G) (roundNS G)) f.label hrf with ⟨Wf, hWf, hfF⟩
  rw [potential_scalar G (G.nodes.headD 0) e.src (get_ordered_alphabet G)
      (roundNS G) e.label We hfE,
    potential_scalar G (G.nodes.headD 0) f.src (get_ordered_alphabet G)
      (roundNS G) f.label Wf hfF, List.map_inj_left]
  have hWeG : ∀ g ∈ We, g ∈ G.edges := edgeChain_mem G _ _ _ hWe
  have hWfG : ∀ g ∈ Wf, g ∈ G.edges := edgeChain_mem G _ _ _ hWf
  constructor
  · intro hcomp m hck x p q hp hq
    have hvm : InNull (r0 :: rrest) ((get_ordered_alphabet G).map m) := by
      rw [← hrows]
      intro row hrow
      exact row_zero_of_cycKill G m hck row hrow
    set ls1 := e.label :: We.map (fun g => g.label) with hls1
    set ls2 := f.label :: Wf.map (fun g => g.label) with hls2
    set d := subVecs (chiVec (get_ordered_alphabet G) ls1)
      (chiVec (get_ordered_alphabet G) ls2) with hd
    have hchilen : (chiVec (get_ordered_alphabet G) ls1).length
        = (chiVec (get_ordered_alphabet G) ls2).length := by
      rw [chiVec_len, chiVec_len]
    have hdlen : d.length = r0.length := by
      rw [hd, length_subVecs _ _ hchilen, chiVec_len, halpha]
    have horth : ∀ b ∈ nullspaceOf (r0 :: rrest), dotL b d = 0 := by
      intro b hb
      have hblen : b.length = r0.length := mem_nullspaceOf_length _ _ _ hb
      have hbA : b.length = (get_ordered_alphabet G).length := by
        rw [hblen, halpha]
      rw [dotL_comm, hd, dotL_subVecs _ _ _ hchilen, hls1, hls2,
        chi_cons_sum _ b hbA e.label We (edge_label_mem_alphabet G e he)
          (fun g hg => edge_label_mem_alphabet G g (hWeG g hg)),
        chi_cons_sum _ b hbA f.label Wf (edge_label_mem_alphabet G f hf)
          (fun g hg => edge_label_mem_alphabet G g (hWfG g hg))]
      have hbc := hcomp b (by rw [hnsr]; exact hb)
      rw [hbc]
      ring
    have hvm_len : ((get_ordered_alphabet G).map m).length = r0.length := by
      rw [List.length_map, halpha]
    have hdot := nullspace_orth_complete r0 rrest hlen d hdlen horth
      ((get_ordered_alphabet G).map m) hvm_len hvm
    have hvmA : ((get_ordered_alphabet G).map m).length
        = (get_ordered_alphabet G).length := List.length_map ..
    rw [dotL_comm, hd, dotL_subVecs _ _ _ hchilen, hls1, hls2,
      chi_cons_sum _ _ hvmA e.label We (edge_label_mem_alphabet G e he)
        (fun g hg => edge_label_mem_alphabet G g (hWeG g hg)),
      chi_cons_sum _ _ hvmA f.label Wf (edge_label_mem_alphabet G f hf)
        (fun g hg => edge_label_mem_alphabet G g (hWfG g hg))] at hdot
    have hcoorde : coordFn (get_ordered_alphabet G)
        ((get_ordered_alphabet G).map m) e.label = m e.label :=
      map_getD_idxOf _ m _ (edge_label_mem_alphabet G e he)
    have hcoordf : coordFn (get_ordered_alphabet G)
        ((get_ordered_alphabet G).map m) f.label = m f.label :=
      map_getD_idxOf _ m _ (edge_label_mem_alphabet G f hf)
    have hwse : walkSum (coordFn (get_ordered_alphabet G)
        ((get_ordered_alphabet G).map m)) We = walkSum m We :=
      walkSum_congr _ _ We
        (fun g hg => map_getD_idxOf _ m _ (edge_label_mem_alphabet G g (hWeG g hg)))
    have hwsf : walkSum (coordFn (get_ordered_alphabet G)
        ((get_ordered_alphabet G).map m)) Wf = walkSum m Wf :=
      walkSum_congr _ _ Wf
        (fun g hg => map_getD_idxOf _ m _ (edge_label_mem_alphabet G g (hWfG g hg)))
    rw [hcoorde, hcoordf, hwse, hwsf] at hdot
    have hx : x ∈ G.nodes := by
      cases p with
      | nil =>
        have hxe : x = e.src := hp
        rw [hxe]
        exact (hcl e he).1
      | cons g gs =>
        obtain ⟨hg, hgs, -⟩ := hp
        rw [← hgs]
        exact (hcl g hg).1
    rcases (reach_iff_chain G x (G.nodes.headD 0)).mp
      (hsc x hx _ hstart) with ⟨X, hX⟩
    rcases (reach_iff_chain G e.src x).mp
      (hsc e.src (hcl e he).1 x hx) with ⟨wbE, hwbE⟩
    rcases (reach_iff_chain G f.src x).mp
      (hsc f.src (hcl f hf).1 x hx) with ⟨wbF, hwbF⟩
    have hXWe : edgeChain G x e.src (X ++ We) :=
      (edgeChain_append G X We x e.src).mpr ⟨_, hX, hWe⟩
    have hXWf : edgeChain G x f.src (X ++ Wf) :=
      (edgeChain_append G X Wf x f.src).mpr ⟨_, hX, hWf⟩
    have hpi_e : walkSum m p = walkSum m (X ++ We) :=
      walkSum_path_indep G m hck x e.src p (X ++ We) hp hXWe wbE hwbE
    have hpi_f : walkSum m q = walkSum m (X ++ Wf) :=
      walkSum_path_indep G m hck x f.src q (X ++ Wf) hq hXWf wbF hwbF
    rw [hpi_e, hpi_f, walkSum_append, walkSum_append]
    linarith [hdot]
  · intro hEq nb hnb
    have hnb' : nb ∈ nullspaceOf (r0 :: rrest) := by
      rw [← hnsr]
      exact hnb
    have hblen : nb.length = r0.length := mem_nullspaceOf_length _ _ _ hnb'
    have hbnull : InNull (r0 :: rrest) nb := nullspaceOf_sound _ _ hlen nb hnb'
    have hck : CycKill G (coordFn (get_ordered_alphabet G) nb) := by
      apply cycKill_of_null G hcl nb (by rw [hblen, halpha])
      rw [hrows]
      exact hbnull
    exact hEq _ hck (G.nodes.headD 0) We Wf hWe hWf

/-- The order-free separation property of one strongly connected subgraph:
if every cycle-killing weighting is trivial, raw labels must determine
targets; otherwise the potential pattern must determine targets. -/
def sepChar (G : Graph) : Prop :=
  (TrivKill G → ∀ e ∈ G.edges, ∀ f ∈ G.edges, e.label = f.label → e.tgt = f.tgt) ∧
  (¬ TrivKill G → ∀ e ∈ G.edges, ∀ f ∈ G.edges, EqPat G e f → e.tgt = f.tgt)

/-- `attack_scc` on a well-formed strongly connected subgraph decides exactly
the order-free separation property. -/
theorem attack_scc_iff_sepChar (G : Graph) (hs : allSymG G)
    (hpd : parallelDistinct G) (hnd : skelNodup G)
    (hcl : edgesClosed G) (hsc : stronglyConnected G) :
    (attack_scc G = true ↔ sepChar G) := by
  have htk := trivKill_iff_roundNS_empty G hcl hsc
  rw [attack_scc, attack_scc_graph_eq G hs hpd hnd]
  by_cases hns : roundNS G = []
  · rw [if_pos hns]
    have htriv : TrivKill G := htk.mp hns
    rw [separated_iff_pairs]
    constructor
    · intro hpairs
      exact ⟨fun _ => hpairs, fun hcon => absurd htriv hcon⟩
    · rintro ⟨h1, -⟩
      exact h1 htriv
  · rw [if_neg hns]
    have hntriv : ¬ TrivKill G := fun ht => hns (htk.mpr ht)
    rw [relabel_closed_form G hs hpd _ _, separated_iff_pairs]
    cases hrows : loop_equations (get_ordered_alphabet G)
        (get_simple_cycles_edges G) with
    | nil =>
      exfalso
      apply hns
      rw [roundNS, hrows]
      rfl
    | cons r0 rrest =>
      constructor
      · intro hpairs
        refine ⟨fun ht => absurd ht hntriv, fun _ => ?_⟩
        intro e he f hf hEq
        have hpe := (potEq_iff_eqPat G hcl hsc r0 rrest hrows e f he hf).mpr hEq
        exact hpairs
          (relabelUpd G (G.nodes.headD 0)
            (morphismOf (get_ordered_alphabet G) (roundNS G)) e)
          (List.mem_map.mpr ⟨e, he, rfl⟩)
          (relabelUpd G (G.nodes.headD 0)
            (morphismOf (get_ordered_alphabet G) (roundNS G)) f)
          (List.mem_map.mpr ⟨f, hf, rfl⟩)
          (congrArg Label.vec hpe)
      · rintro ⟨-, h2⟩
        intro q1 hq1 q2 hq2 hlab
        rcases List.mem_map.mp hq1 with ⟨e, he, rfl⟩
        rcases List.mem_map.mp hq2 with ⟨f, hf, rfl⟩
        have hpots := Label.vec.inj
          (show Label.vec (potentialVec G (G.nodes.headD 0) e.src
              (morphismOf (get_ordered_alphabet G) (roundNS G)) e.label)
            = Label.vec (potentialVec G (G.nodes.headD 0) f.src
              (morphismOf (get_ordered_alphabet G) (roundNS G)) f.label)
            from hlab)
        have hEq := (potEq_iff_eqPat G hcl hsc r0 rrest hrows e f he hf).mp hpots
        exact h2 hntriv e he f hf hEq

theorem allSymG_subgraph (G : Graph) (hs : allSymG G) (c : List Nat) :
    allSymG (subgraphOf G c) := by
  intro e he
  exact hs e (List.mem_of_mem_filter he)

theorem parallelDistinct_subgraph (G : Graph) (hpd : parallelDistinct G)
    (c : List Nat) : parallelDistinct (subgraphOf G c) :=
  hpd.sublist (List.filter_sublist G.edges)

theorem skelNodup_subgraph (G : Graph) (hnd : skelNodup G) (c : List Nat) :
    skelNodup (subgraphOf G c) :=
  hnd.sublist (List.Sublist.map skel (List.filter_sublist G.edges))

theorem edgesClosed_subgraph (G : Graph) (hcl : edgesClosed G) (c : List Nat) :
    edgesClosed (subgraphOf G c) := by
  intro e he
  rcases List.mem_filter.mp he with ⟨heG, hcond⟩
  simp only [decide_eq_true_eq] at hcond
  constructor
  · exact List.mem_filter.mpr ⟨(hcl e heG).1, by simpa using hcond.1⟩
  · exact List.mem_filter.mpr ⟨(hcl e heG).2, by simpa using hcond.2⟩

/-- Inside a component of mutually reachable nodes, reachability restricts to
the induced subgraph: every connecting walk stays inside the component. -/
theorem reach_in_subgraph (G : Graph) (hcl : edgesClosed G) (v₀ : Nat) :
    ∀ (es : List Edge) (u v : Nat),
      edgeChain G u v es →
      u ∈ compOf G v₀ → v ∈ compOf G v₀ →
      Reach (subgraphOf G (compOf G v₀)) u v := by
  intro es
  induction es with
  | nil =>
    intro u v hch _ _
    exact (show u = v from hch) ▸ Reach.refl
  | cons e es ih =>
    intro u v hch hu hv
    obtain ⟨he, hsrc, hch'⟩ := hch
    rcases (mem_compOf_iff G v₀ u).mp hu with ⟨-, hv0u, huv0⟩
    rcases (mem_compOf_iff G v₀ v).mp hv with ⟨-, hv0v, hvv0⟩
    have htgt_mem : e.tgt ∈ compOf G v₀ := by
      rw [mem_compOf_iff]
      refine ⟨(hcl e he).2, ?_, ?_⟩
      · apply reaches_trans G v₀ u e.tgt hv0u
        apply (reaches_iff G u e.tgt).mpr
        exact Reach.step Reach.refl he hsrc
      · apply reaches_trans G e.tgt v v₀ _ hvv0
        apply (reaches_iff G e.tgt v).mpr
        exact (reach_iff_chain G e.tgt v).mpr ⟨es, hch'⟩
    have heSub : e ∈ (subgraphOf G (compOf G v₀)).edges := by
      apply List.mem_filter.mpr
      refine ⟨he, ?_⟩
      simp only [decide_eq_true_eq]
      exact ⟨hsrc ▸ hu, htgt_mem⟩
    have hstep : Reach (subgraphOf G (compOf G v₀)) u e.tgt :=
      Reach.step Reach.refl heSub hsrc
    exact Reach.trans hstep (ih e.tgt v hch' htgt_mem hv)

theorem stronglyConnected_subgraph (G : Graph) (hcl : edgesClosed G) (v₀ : Nat) :
    stronglyConnected (subgraphOf G (compOf G v₀)) := by
  intro u hu v hv
  have hu' : u ∈ compOf G v₀ := by
    rcases List.mem_filter.mp hu with ⟨-, h⟩
    simpa using h
  have hv' : v ∈ compOf G v₀ := by
    rcases List.mem_filter.mp hv with ⟨-, h⟩
    simpa using h
  rcases (mem_compOf_iff G v₀ u).mp hu' with ⟨-, -, huv0⟩
  rcases (mem_compOf_iff G v₀ v).mp hv' with ⟨-, hv0v, -⟩
  have hreach : Reach G u v :=
    Reach.trans ((reaches_iff G u v₀).mp huv0) ((reaches_iff G v₀ v).mp hv0v)
  rcases (reach_iff_chain G u v).mp hreach with ⟨es, hch⟩
  exact reach_in_subgraph G hcl v₀ es u v hch hu' hv'

/-- Rename the endpoints of an edge (a state renaming leaves key and label —
both built from the input symbol — unchanged). -/
def renameEdge (π : Nat → Nat) (e : Edge) : Edge :=
  ⟨π e.src, π e.tgt, e.key, e.label⟩

/-- The edge sets of `G'` and `G` correspond through the node renaming `π`. -/
def EdgeIso (π : Nat → Nat) (G G' : Graph) : Prop :=
  ∀ e, e ∈ G'.edges ↔ ∃ g ∈ G.edges, e = renameEdge π g

/-- A node incident to some edge. -/
def touches (G : Graph) (u : Nat) : Prop :=
  ∃ e ∈ G.edges, e.src = u ∨ e.tgt = u

/-- `π` is injective on the nodes incident to edges of `G`. -/
def TouchInj (π : Nat → Nat) (G : Graph) : Prop :=
  ∀ u v, touches G u → touches G v → π u = π v → u = v

theorem edgeChain_rename (π : Nat → Nat) (G G' : Graph) (hiso : EdgeIso π G G') :
    ∀ (es : List Edge) (u v : Nat), edgeChain G u v es →
      edgeChain G' (π u) (π v) (es.map (renameEdge π)) := by
  intro es
  induction es with
  | nil =>
    intro u v hch
    exact congrArg π (show u = v from hch)
  | cons e es ih =>
    intro u v hch
    obtain ⟨he, hsrc, hch'⟩ := hch
    refine ⟨(hiso (renameEdge π e)).mpr ⟨e, he, rfl⟩, ?_, ?_⟩
    · exact congrArg π hsrc
    · exact ih e.tgt v hch'

theorem walkSum_rename (π : Nat → Nat) (m : Label → ℚ) (es : List Edge) :
    walkSum m (es.map (renameEdge π)) = walkSum m es := by
  rw [walkSum, walkSum, List.map_map]
  rfl

theorem chain_pullback (π : Nat → Nat) (G G' : Graph) (hiso : EdgeIso π G G')
    (hinj : TouchInj π G) :
    ∀ (zs : List Edge) (a : Nat) (w : Nat), touches G a →
      edgeChain G' (π a) w zs →
      ∃ (es : List Edge) (b : Nat), zs = es.map (renameEdge π) ∧
        edgeChain G a b es ∧ π b = w ∧ (touches G b ∨ b = a) := by
  intro zs
  induction zs with
  | nil =>
    intro a w _ hch
    exact ⟨[], a, rfl, rfl, hch, Or.inr rfl⟩
  | cons z zs ih =>
    intro a w hta hch
    obtain ⟨hz, hzsrc, hch'⟩ := hch
    rcases (hiso z).mp hz with ⟨g, hg, rfl⟩
    have hga : g.src = a := by
      apply hinj g.src a ⟨g, hg, Or.inl rfl⟩ hta
      exact hzsrc
    have htg : touches G g.tgt := ⟨g, hg, Or.inr rfl⟩
    rcases ih g.tgt w htg hch' with ⟨es, b, hmap, hchb, hπb, htb⟩
    refine ⟨g :: es, b, by rw [List.map_cons, hmap], ⟨hg, hga, hchb⟩, hπb, ?_⟩
    left
    rcases htb with htb | rfl
    · exact htb
    · exact htg

theorem simpleCycle_rename (π : Nat → Nat) (G G' : Graph) (hiso : EdgeIso π G G')
    (hinj : TouchInj π G) (w : Nat) (es : List Edge)
    (hsc : SimpleCycleW G w es) :
    SimpleCycleW G' (π w) (es.map (renameEdge π)) := by
  obtain ⟨hne, hch, hnd⟩ := hsc
  refine ⟨by simpa using hne, edgeChain_rename π G G' hiso es w w hch, ?_⟩
  have hmm : (es.map (renameEdge π)).map (fun e => e.src)
      = (es.map (fun e => e.src)).map π := by
    rw [List.map_map, List.map_map]
    rfl
  rw [hmm]
  apply List.Nodup.map_on ?inj hnd
  case inj =>
    intro x hx y hy hxy
    rcases List.mem_map.mp hx with ⟨gx, hgx, rfl⟩
    rcases List.mem_map.mp hy with ⟨gy, hgy, rfl⟩
    exact hinj gx.src gy.src
      ⟨gx, edgeChain_mem G es w w hch gx hgx, Or.inl rfl⟩
      ⟨gy, edgeChain_mem G es w w hch gy hgy, Or.inl rfl⟩ hxy

theorem simpleCycle_pullback (π : Nat → Nat) (G G' : Graph) (hiso : EdgeIso π G G')
    (hinj : TouchInj π G) (w : Nat) (zs : List Edge)
    (hsc : SimpleCycleW G' w zs) :
    ∃ (v : Nat) (es : List Edge), zs = es.map (renameEdge π) ∧
      SimpleCycleW G v es := by
  obtain ⟨hne, hch, hnd⟩ := hsc
  cases zs with
  | nil => exact absurd rfl hne
  | cons z zs' =>
    have hz := hch.1
    have hzsrc := hch.2.1
    rcases (hiso z).mp hz with ⟨g, hg, rfl⟩
    have hws : π g.src = w := hzsrc
    rw [← hws] at hch
    rcases chain_pullback π G G' hiso hinj _ g.src _ ⟨g, hg, Or.inl rfl⟩ hch
      with ⟨es, b, hmap, hchb, hπb, htb⟩
    have hbg : b = g.src := by
      rcases htb with htb | rfl
      · exact hinj b g.src htb ⟨g, hg, Or.inl rfl⟩ hπb
      · rfl
    subst hbg
    refine ⟨g.src, es, hmap, ?_, hchb, ?_⟩
    · intro hh
      rw [hh] at hmap
      simp at hmap
    · have hsrcs : (es.map (renameEdge π)).map (fun e => e.src)
          = (es.map (fun e => e.src)).map π := by
        rw [List.map_map, List.map_map]
        rfl
      rw [hmap, hsrcs] at hnd
      exact hnd.of_map π

theorem cycKill_iff_iso (π : Nat → Nat) (G G' : Graph) (hiso : EdgeIso π G G')
    (hinj : TouchInj π G) (m : Label → ℚ) :
    CycKill G m ↔ CycKill G' m := by
  constructor
  · intro hck w zs hsc
    rcases simpleCycle_pullback π G G' hiso hinj w zs hsc with ⟨v, es, rfl, hsc'⟩
    rw [walkSum_rename]
    exact hck v es hsc'
  · intro hck w es hsc
    have := hck (π w) (es.map (renameEdge π)) (simpleCycle_rename π G G' hiso hinj w es hsc)
    rw [walkSum_rename] at this
    exact this

theorem trivKill_iff_iso (π : Nat → Nat) (G G' : Graph) (hiso : EdgeIso π G G')
    (hinj : TouchInj π G) :
    TrivKill G ↔ TrivKill G' := by
  constructor
  · intro ht m hck e' he'
    rcases (hiso e').mp he' with ⟨g, hg, rfl⟩
    exact ht m ((cycKill_iff_iso π G G' hiso hinj m).mpr hck) g hg
  · intro ht m hck g hg
    have := ht m ((cycKill_iff_iso π G G' hiso hinj m).mp hck)
      (renameEdge π g) ((hiso _).mpr ⟨g, hg, rfl⟩)
    exact this

theorem eqPat_iff_iso (π : Nat → Nat) (G G' : Graph) (hiso : EdgeIso π G G')
    (hinj : TouchInj π G) (hcl : edgesClosed G) (hsc : stronglyConnected G)
    (e f : Edge) (he : e ∈ G.edges) (hf : f ∈ G.edges) :
    EqPat G e f ↔ EqPat G' (renameEdge π e) (renameEdge π f) := by
  constructor
  · intro hEq m hck' x' p' q' hp' hq'
    have hck : CycKill G m := (cycKill_iff_iso π G G' hiso hinj m).mpr hck'
    rcases (reach_iff_chain G e.src f.src).mp
      (hsc e.src (hcl e he).1 f.src (hcl f hf).1) with ⟨Q, hQ⟩
    have hbase := hEq m hck e.src [] Q rfl hQ
    have hxhat : ∃ xh, π xh = x' ∧ xh ∈ G.nodes := by
      cases p' with
      | nil =>
        have hxe : x' = (renameEdge π e).src := hp'
        exact ⟨e.src, by rw [hxe]; rfl, (hcl e he).1⟩
      | cons z zs =>
        have hz := hp'.1
        have hzsrc := hp'.2.1
        rcases (hiso z).mp hz with ⟨g, hg, rfl⟩
        exact ⟨g.src, hzsrc, (hcl g hg).1⟩
    rcases hxhat with ⟨xh, hπx, hxN⟩
    rcases (reach_iff_chain G f.src xh).mp
      (hsc f.src (hcl f hf).1 xh hxN) with ⟨wb, hwb⟩
    have hwb' : edgeChain G' (π f.src) x' (wb.map (renameEdge π)) := by
      have hr := edgeChain_rename π G G' hiso wb f.src xh hwb
      rw [hπx] at hr
      exact hr
    have hQ' : edgeChain G' (π e.src) (π f.src) (Q.map (renameEdge π)) :=
      edgeChain_rename π G G' hiso Q e.src f.src hQ
    have hp'Q : edgeChain G' x' (π f.src) (p' ++ Q.map (renameEdge π)) :=
      (edgeChain_append G' p' _ x' (π f.src)).mpr ⟨π e.src, hp', hQ'⟩
    have hpi := walkSum_path_indep G' m hck' x' (π f.src) q'
      (p' ++ Q.map (renameEdge π)) hq' hp'Q (wb.map (renameEdge π)) hwb'
    rw [walkSum_append, walkSum_rename] at hpi
    show m e.label + walkSum m p' = m f.label + walkSum m q'
    rw [hpi]
    have hbase' : m e.label = m f.label + walkSum m Q := by
      simpa [walkSum] using hbase
    linarith [hbase']
  · intro hEq' m hck x p q hp hq
    have hck' : CycKill G' m := (cycKill_iff_iso π G G' hiso hinj m).mp hck
    have h := hEq' m hck' (π x) (p.map (renameEdge π)) (q.map (renameEdge π))
      (edgeChain_rename π G G' hiso p x e.src hp)
      (edgeChain_rename π G G' hiso q x f.src hq)
    rw [walkSum_rename, walkSum_rename] at h
    exact h

theorem sepChar_iff_iso (π : Nat → Nat) (G G' : Graph) (hiso : EdgeIso π G G')
    (hinj : TouchInj π G) (hcl : edgesClosed G) (hsc : stronglyConnected G) :
    sepChar G ↔ sepChar G' := by
  have htk := trivKill_iff_iso π G G' hiso hinj
  constructor
  · rintro ⟨h1, h2⟩
    constructor
    · intro ht' e' he' f' hf' hlab
      rcases (hiso e').mp he' with ⟨g, hg, rfl⟩
      rcases (hiso f').mp hf' with ⟨g₂, hg₂, rfl⟩
      exact congrArg π (h1 (htk.mpr ht') g hg g₂ hg₂ hlab)
    · intro hnt' e' he' f' hf' hEq'
      rcases (hiso e').mp he' with ⟨g, hg, rfl⟩
      rcases (hiso f').mp hf' with ⟨g₂, hg₂, rfl⟩
      have hEq := (eqPat_iff_iso π G G' hiso hinj hcl hsc g g₂ hg hg₂).mpr hEq'
      exact congrArg π (h2 (fun ht => hnt' (htk.mp ht)) g hg g₂ hg₂ hEq)
  · rintro ⟨h1, h2⟩
    constructor
    · intro ht g hg g₂ hg₂ hlab
      have hres := h1 (htk.mp ht) (renameEdge π g) ((hiso _).mpr ⟨g, hg, rfl⟩)
        (renameEdge π g₂) ((hiso _).mpr ⟨g₂, hg₂, rfl⟩) hlab
      exact hinj g.tgt g₂.tgt ⟨g, hg, Or.inr rfl⟩ ⟨g₂, hg₂, Or.inr rfl⟩ hres
    · intro hnt g hg g₂ hg₂ hEq
      have hEq' := (eqPat_iff_iso π G G' hiso hinj hcl hsc g g₂ hg hg₂).mp hEq
      have hres := h2 (fun ht' => hnt (htk.mpr ht')) (renameEdge π g)
        ((hiso _).mpr ⟨g, hg, rfl⟩)
        (renameEdge π g₂) ((hiso _).mpr ⟨g₂, hg₂, rfl⟩) hEq'
      exact hinj g.tgt g₂.tgt ⟨g, hg, Or.inr rfl⟩ ⟨g₂, hg₂, Or.inr rfl⟩ hres

theorem lookup_some_mem {α β : Type _} [DecidableEq α] :
    ∀ (l : List (α × β)) (a : α) (b : β), l.lookup a = some b → (a, b) ∈ l := by
  intro l
  induction l with
  | nil => intro a b h; cases h
  | cons p l ih =>
    intro a b h
    obtain ⟨k, v⟩ := p
    rw [lookup_cons_eq] at h
    by_cases hak : a = k
    · rw [if_pos hak] at h
      cases Option.some.inj h
      rw [hak]
      exact List.mem_cons_self _ _
    · rw [if_neg hak] at h
      exact List.mem_cons_of_mem _ (ih a b h)

theorem lookup_none_not_mem {α β : Type _} [DecidableEq α] :
    ∀ (l : List (α × β)) (a : α) (b : β), l.lookup a = none → (a, b) ∈ l → False := by
  intro l
  induction l with
  | nil => intro a b _ hm; simp at hm
  | cons p l ih =>
    intro a b h hm
    obtain ⟨k, v⟩ := p
    rw [lookup_cons_eq] at h
    by_cases hak : a = k
    · rw [if_pos hak] at h
      cases h
    · rw [if_neg hak] at h
      rcases List.mem_cons.mp hm with heq | hm'
      · exact hak (congrArg Prod.fst heq)
      · exact ih a b h hm'

/-- The node index assigned to a state by `state_mapping`. -/
def smIdx (states : List Nat) (q : Nat) : Nat :=
  (stateMapping states q).getD 0

theorem stateMapping_isSome (states : List Nat) (q : Nat) (hq : q ∈ states) :
    (stateMapping states q).isSome = true := by
  rw [stateMapping]
  cases hlk : ((states.enum.map (fun p => (p.2, p.1))).reverse.lookup q) with
  | some i => rfl
  | none =>
    exfalso
    rcases List.mem_iff_getElem.mp hq with ⟨i, hi, rfl⟩
    apply lookup_none_not_mem _ _ i hlk
    rw [List.mem_reverse]
    apply List.mem_map.mpr
    refine ⟨(i, states[i]), ?_, rfl⟩
    rw [List.mem_enum_iff_getElem?]
    exact List.getElem?_eq_getElem hi

theorem stateMapping_getD (states : List Nat) (q : Nat) (i : Nat)
    (h : stateMapping states q = some i) :
    i < states.length ∧ states.getD i 0 = q := by
  rw [stateMapping] at h
  have hmem := lookup_some_mem _ _ _ h
  rw [List.mem_reverse] at hmem
  rcases List.mem_map.mp hmem with ⟨⟨j, x⟩, hjx, heq⟩
  have hx : x = q := congrArg Prod.fst heq
  have hj : j = i := congrArg Prod.snd heq
  subst hx
  subst hj
  rw [List.mem_enum_iff_getElem?] at hjx
  have hjl : j < states.length := by
    by_contra hh
    rw [List.getElem?_eq_none (Nat.le_of_not_lt hh)] at hjx
    cases hjx
  refine ⟨hjl, ?_⟩
  rw [List.getD_eq_getElem _ _ hjl]
  have := List.getElem?_eq_getElem hjl
  rw [this] at hjx
  exact Option.some.inj hjx

theorem smIdx_spec (states : List Nat) (q : Nat) (hq : q ∈ states) :
    smIdx states q < states.length ∧ states.getD (smIdx states q) 0 = q := by
  have hs := stateMapping_isSome states q hq
  cases hsm : stateMapping states q with
  | none => rw [hsm] at hs; cases hs
  | some i =>
    have := stateMapping_getD states q i hsm
    rw [smIdx, hsm]
    exact this

theorem smIdx_inj (states : List Nat) (q₁ q₂ : Nat) (h₁ : q₁ ∈ states)
    (h₂ : q₂ ∈ states) (h : smIdx states q₁ = smIdx states q₂) : q₁ = q₂ := by
  have hs₁ := (smIdx_spec states q₁ h₁).2
  have hs₂ := (smIdx_spec states q₂ h₂).2
  rw [← hs₁, ← hs₂, h]

/-- The transition row of a state (empty where Python would raise). -/
def rowOf (dfa : PyDFA) (q : Nat) : List (Nat × Nat) :=
  (dfa.transitions.lookup q).getD []

/-- The edges contributed by one state of the transition dictionary. -/
def blockOf (dfa : PyDFA) (q : Nat) : List Edge :=
  (rowOf dfa q).map (fun p =>
    ⟨smIdx dfa.states q, smIdx dfa.states p.2, p.1, Label.sym p.1⟩)

/-- Well-formedness of the embedded DFA: distinct states, a transition row
for every state, targets that are states, and distinct symbols per row. -/
def dfaWF (dfa : PyDFA) : Prop :=
  dfa.states.Nodup ∧
  ∀ q ∈ dfa.states, (dfa.transitions.lookup q).isSome = true ∧
    (∀ p ∈ rowOf dfa q, p.2 ∈ dfa.states) ∧
    ((rowOf dfa q).map Prod.fst).Nodup

/-- The per-row graph update, with the `KeyError`-free lookups resolved. -/
def rowUpd (dfa : PyDFA) (q : Nat) (g : Graph) (st : Nat × Nat) : Graph :=
  { nodes := insertNode (insertNode g.nodes (smIdx dfa.states q))
      (smIdx dfa.states st.2),
    edges := g.edges ++ [⟨smIdx dfa.states q, smIdx dfa.states st.2,
      st.1, Label.sym st.1⟩] }

theorem inner_foldlM_eq (dfa : PyDFA) (q : Nat) (iq : Nat)
    (hiq : stateMapping dfa.states q = some iq) :
    ∀ (row : List (Nat × Nat)) (g : Graph),
      (∀ p ∈ row, (stateMapping dfa.states p.2).isSome = true) →
      row.foldlM (fun (g : Graph) (st : Nat × Nat) => do
        let i ← stateMapping dfa.states q
        let j ← stateMapping dfa.states st.2
        pure { nodes := insertNode (insertNode g.nodes i) j,
               edges := g.edges ++ [⟨i, j, st.1, Label.sym st.1⟩] })
        g
      = some (row.foldl (rowUpd dfa q) g) := by
  intro row
  induction row with
  | nil => intro g _; rfl
  | cons p row ih =>
    intro g hrow
    have hps := hrow p (List.mem_cons_self _ _)
    obtain ⟨jp, hjp⟩ := Option.isSome_iff_exists.mp hps
    have hsmq : smIdx dfa.states q = iq := by rw [smIdx, hiq]; rfl
    have hsmp : smIdx dfa.states p.2 = jp := by rw [smIdx, hjp]; rfl
    have hstep : (do
        let i ← stateMapping dfa.states q
        let j ← stateMapping dfa.states p.2
        pure { nodes := insertNode (insertNode g.nodes i) j,
               edges := g.edges ++ [⟨i, j, p.1, Label.sym p.1⟩] } : Option Graph)
        = some (rowUpd dfa q g p) := by
      rw [hiq, hjp, rowUpd, hsmq, hsmp]
      rfl
    simp only [List.foldlM_cons]
    rw [hstep]
    show row.foldlM _ (rowUpd dfa q g p) = _
    rw [ih _ (fun x hx => hrow x (List.mem_cons_of_mem _ hx)), List.foldl_cons]

theorem insertNode_mem (ns : List Nat) (v x : Nat) :
    x ∈ insertNode ns v ↔ x ∈ ns ∨ x = v := by
  rw [insertNode]
  by_cases h : v ∈ ns
  · rw [if_pos h]
    constructor
    · exact Or.inl
    · rintro (hx | rfl)
      · exact hx
      · exact h
  · rw [if_neg h]
    simp

theorem exists_mem_cons_iff {α : Type _} (a : α) (l : List α) (P : α → Prop) :
    (∃ x ∈ a :: l, P x) ↔ P a ∨ ∃ x ∈ l, P x := by
  constructor
  · rintro ⟨x, hx, hP⟩
    rcases List.mem_cons.mp hx with rfl | hx'
    · exact Or.inl hP
    · exact Or.inr ⟨x, hx', hP⟩
  · rintro (h | ⟨x, hx, hP⟩)
    · exact ⟨a, List.mem_cons_self _ _, h⟩
    · exact ⟨x, List.mem_cons_of_mem _ hx, hP⟩

/-- The full per-state update of the graph construction. -/
def stateUpd (dfa : PyDFA) (g : Graph) (q : Nat) : Graph :=
  (rowOf dfa q).foldl (rowUpd dfa q) g

theorem outer_foldlM_eq (dfa : PyDFA) (hWF : dfaWF dfa) :
    ∀ (l : List Nat) (g : Graph), (∀ q ∈ l, q ∈ dfa.states) →
      l.foldlM (fun (g : Graph) (q : Nat) => do
        let row ← dfa.transitions.lookup q
        row.foldlM (fun (g : Graph) (st : Nat × Nat) => do
          let i ← stateMapping dfa.states q
          let j ← stateMapping dfa.states st.2
          pure { nodes := insertNode (insertNode g.nodes i) j,
                 edges := g.edges ++ [⟨i, j, st.1, Label.sym st.1⟩] }) g) g
      = some (l.foldl (stateUpd dfa) g) := by
  intro l
  induction l with
  | nil => intro g _; rfl
  | cons q l ih =>
    intro g hl
    have hq := hl q (List.mem_cons_self _ _)
    obtain ⟨hlk, htgts, -⟩ := hWF.2 q hq
    obtain ⟨row, hrow⟩ := Option.isSome_iff_exists.mp hlk
    have hrowOf : rowOf dfa q = row := by rw [rowOf, hrow]; rfl
    obtain ⟨iq, hiq⟩ := Option.isSome_iff_exists.mp
      (stateMapping_isSome dfa.states q hq)
    have hstep : (do
        let row ← dfa.transitions.lookup q
        row.foldlM (fun (g : Graph) (st : Nat × Nat) => do
          let i ← stateMapping dfa.states q
          let j ← stateMapping dfa.states st.2
          pure { nodes := insertNode (insertNode g.nodes i) j,
                 edges := g.edges ++ [⟨i, j, st.1, Label.sym st.1⟩] }) g
        : Option Graph)
        = some (stateUpd dfa g q) := by
      rw [hrow]
      show row.foldlM _ g = _
      rw [inner_foldlM_eq dfa q iq hiq row g ?tg]
      · rw [stateUpd, hrowOf]
      case tg =>
        intro p hp
        apply stateMapping_isSome
        apply htgts
        rw [hrowOf]
        exact hp
    simp only [List.foldlM_cons]
    rw [hstep]
    show l.foldlM _ (stateUpd dfa g q) = _
    rw [ih _ (fun x hx => hl x (List.mem_cons_of_mem _ hx)), List.foldl_cons]

theorem stateUpd_edges (dfa : PyDFA) (q : Nat) :
    ∀ (row : List (Nat × Nat)) (g : Graph),
      (row.foldl (rowUpd dfa q) g).edges
        = g.edges ++ row.map (fun p =>
            ⟨smIdx dfa.states q, smIdx dfa.states p.2, p.1, Label.sym p.1⟩) := by
  intro row
  induction row with
  | nil => intro g; simp
  | cons p row ih =>
    intro g
    rw [List.foldl_cons, ih, List.map_cons]
    show (rowUpd dfa q g p).edges ++ _ = _
    rw [rowUpd]
    rw [List.append_assoc]
    rfl

theorem fold_stateUpd_edges (dfa : PyDFA) :
    ∀ (l : List Nat) (g : Graph),
      (l.foldl (stateUpd dfa) g).edges = g.edges ++ l.flatMap (blockOf dfa) := by
  intro l
  induction l with
  | nil => intro g; simp
  | cons q l ih =>
    intro g
    rw [List.foldl_cons, ih, List.flatMap_cons]
    show (stateUpd dfa g q).edges ++ _ = _
    rw [stateUpd, stateUpd_edges, List.append_assoc]
    rfl

theorem rowUpd_nodes_mem (dfa : PyDFA) (q : Nat) (g : Graph) (p : Nat × Nat)
    (x : Nat) :
    x ∈ (rowUpd dfa q g p).nodes ↔
      x ∈ g.nodes ∨ x = smIdx dfa.states q ∨ x = smIdx dfa.states p.2 := by
  rw [rowUpd]
  show x ∈ insertNode (insertNode g.nodes _) _ ↔ _
  rw [insertNode_mem, insertNode_mem]
  tauto

theorem stateUpd_nodes_mem (dfa : PyDFA) (q : Nat) :
    ∀ (row : List (Nat × Nat)) (g : Graph) (x : Nat),
      x ∈ (row.foldl (rowUpd dfa q) g).nodes ↔ x ∈ g.nodes ∨
        ∃ p ∈ row, x = smIdx dfa.states q ∨ x = smIdx dfa.states p.2 := by
  intro row
  induction row with
  | nil =>
    intro g x
    simp
  | cons p row ih =>
    intro g x
    rw [List.foldl_cons, ih, rowUpd_nodes_mem, exists_mem_cons_iff]
    exact or_assoc

theorem fold_stateUpd_nodes (dfa : PyDFA) :
    ∀ (l : List Nat) (g : Graph) (x : Nat),
      x ∈ (l.foldl (stateUpd dfa) g).nodes ↔ x ∈ g.nodes ∨
        ∃ q ∈ l, ∃ p ∈ rowOf dfa q,
          x = smIdx dfa.states q ∨ x = smIdx dfa.states p.2 := by
  intro l
  induction l with
  | nil =>
    intro g x
    simp
  | cons q l ih =>
    intro g x
    rw [List.foldl_cons, ih, exists_mem_cons_iff]
    show x ∈ ((rowOf dfa q).foldl (rowUpd dfa q) g).nodes ∨ _ ↔ _
    rw [stateUpd_nodes_mem]
    exact or_assoc

theorem automata_to_graph_eq (dfa : PyDFA) (hWF : dfaWF dfa) :
    automata_to_graph dfa = some (dfa.states.foldl (stateUpd dfa) ⟨[], []⟩) :=
  outer_foldlM_eq dfa hWF dfa.states ⟨[], []⟩ (fun _ h => h)

/-- The graph `automata_to_graph` builds, as a pure fold. -/
def builtGraph (dfa : PyDFA) : Graph :=
  dfa.states.foldl (stateUpd dfa) ⟨[], []⟩

theorem builtGraph_edges (dfa : PyDFA) :
    (builtGraph dfa).edges = dfa.states.flatMap (blockOf dfa) := by
  rw [builtGraph, fold_stateUpd_edges]
  rfl

theorem mem_builtGraph_edges (dfa : PyDFA) (e : Edge) :
    e ∈ (builtGraph dfa).edges ↔ ∃ q ∈ dfa.states, ∃ p ∈ rowOf dfa q,
      e = ⟨smIdx dfa.states q, smIdx dfa.states p.2, p.1, Label.sym p.1⟩ := by
  rw [builtGraph_edges, List.mem_flatMap]
  constructor
  · rintro ⟨q, hq, he⟩
    rw [blockOf] at he
    rcases List.mem_map.mp he with ⟨p, hp, rfl⟩
    exact ⟨q, hq, p, hp, rfl⟩
  · rintro ⟨q, hq, p, hp, rfl⟩
    exact ⟨q, hq, List.mem_map.mpr ⟨p, hp, rfl⟩⟩

theorem mem_builtGraph_nodes (dfa : PyDFA) (x : Nat) :
    x ∈ (builtGraph dfa).nodes ↔ ∃ q ∈ dfa.states, ∃ p ∈ rowOf dfa q,
      x = smIdx dfa.states q ∨ x = smIdx dfa.states p.2 := by
  rw [builtGraph, fold_stateUpd_nodes]
  constructor
  · rintro (hx | h)
    · exact (List.not_mem_nil x hx).elim
    · exact h
  · exact Or.inr

theorem builtGraph_nodes_touch (dfa : PyDFA) (x : Nat) :
    x ∈ (builtGraph dfa).nodes ↔ touches (builtGraph dfa) x := by
  rw [mem_builtGraph_nodes, touches]
  constructor
  · rintro ⟨q, hq, p, hp, hx⟩
    refine ⟨⟨smIdx dfa.states q, smIdx dfa.states p.2, p.1, Label.sym p.1⟩,
      (mem_builtGraph_edges dfa _).mpr ⟨q, hq, p, hp, rfl⟩, ?_⟩
    rcases hx with rfl | rfl
    · exact Or.inl rfl
    · exact Or.inr rfl
  · rintro ⟨e, he, hx⟩
    rcases (mem_builtGraph_edges dfa e).mp he with ⟨q, hq, p, hp, rfl⟩
    refine ⟨q, hq, p, hp, ?_⟩
    rcases hx with h | h
    · exact Or.inl h.symm
    · exact Or.inr h.symm

theorem builtGraph_allSym (dfa : PyDFA) : allSymG (builtGraph dfa) := by
  intro e he
  rcases (mem_builtGraph_edges dfa e).mp he with ⟨q, hq, p, hp, rfl⟩
  rfl

theorem builtGraph_edgesClosed (dfa : PyDFA) : edgesClosed (builtGraph dfa) := by
  intro e he
  rcases (mem_builtGraph_edges dfa e).mp he with ⟨q, hq, p, hp, rfl⟩
  constructor
  · exact (mem_builtGraph_nodes dfa _).mpr ⟨q, hq, p, hp, Or.inl rfl⟩
  · exact (mem_builtGraph_nodes dfa _).mpr ⟨q, hq, p, hp, Or.inr rfl⟩

theorem map_flatMap_comm {α β γ : Type _} (g : β → γ) (f : α → List β) :
    ∀ l : List α, (l.flatMap f).map g = l.flatMap (fun a => (f a).map g) := by
  intro l
  induction l with
  | nil => rfl
  | cons a l ih => rw [List.flatMap_cons, List.flatMap_cons, List.map_append, ih]

theorem nodup_flatMap_of {α β : Type _} (f : α → List β) :
    ∀ (l : List α), (∀ a ∈ l, (f a).Nodup) →
      l.Pairwise (fun a b => ∀ x ∈ f a, x ∉ f b) → (l.flatMap f).Nodup := by
  intro l
  induction l with
  | nil => intro _ _; exact List.nodup_nil
  | cons a l ih =>
    intro h1 h2
    rw [List.flatMap_cons]
    apply List.Nodup.append (h1 a (List.mem_cons_self _ _))
      (ih (fun b hb => h1 b (List.mem_cons_of_mem _ hb)) (List.pairwise_cons.mp h2).2)
    intro x hx hx'
    rcases List.mem_flatMap.mp hx' with ⟨b, hb, hxb⟩
    exact (List.pairwise_cons.mp h2).1 b hb x hx hxb

theorem keys_inj {α β : Type _} :
    ∀ (l : List (α × β)), (l.map Prod.fst).Nodup →
      ∀ p ∈ l, ∀ p2 ∈ l, p.1 = p2.1 → p = p2 := by
  intro l
  induction l with
  | nil => intro _ p hp; cases hp
  | cons a l ih =>
    intro hnd p hp p2 hp2 hfst
    rw [List.map_cons, List.nodup_cons] at hnd
    rcases List.mem_cons.mp hp with rfl | hp' <;>
      rcases List.mem_cons.mp hp2 with rfl | hp2'
    · rfl
    · exact absurd (by rw [hfst]; exact List.mem_map_of_mem Prod.fst hp2') hnd.1
    · exact absurd (by rw [← hfst]; exact List.mem_map_of_mem Prod.fst hp') hnd.1
    · exact ih hnd.2 p hp' p2 hp2' hfst

theorem builtGraph_skelNodup (dfa : PyDFA) (hWF : dfaWF dfa) :
    skelNodup (builtGraph dfa) := by
  rw [skelNodup, builtGraph_edges, map_flatMap_comm]
  apply nodup_flatMap_of
  · intro q hq
    rw [blockOf, List.map_map]
    apply List.Nodup.map_on
    · intro p hp p2 hp2 hfp
      have h3 : p.1 = p2.1 := congrArg (fun t => t.2.2) hfp
      exact keys_inj _ (hWF.2 q hq).2.2 p hp p2 hp2 h3
    · exact ((hWF.2 q hq).2.2).of_map Prod.fst
  · apply List.Pairwise.imp_of_mem ?_ hWF.1
    intro q q2 hq hq2 hne x hx hx2
    rw [blockOf, List.map_map] at hx
    rw [blockOf, List.map_map] at hx2
    rcases List.mem_map.mp hx with ⟨p, hp, rfl⟩
    rcases List.mem_map.mp hx2 with ⟨p2, hp2, hx2eq⟩
    have h1 : smIdx dfa.states q2 = smIdx dfa.states q :=
      congrArg (fun t => t.1) hx2eq
    exact hne (smIdx_inj dfa.states q q2 hq hq2 h1.symm)

theorem builtGraph_parallelDistinct (dfa : PyDFA) (hWF : dfaWF dfa) :
    parallelDistinct (builtGraph dfa) := by
  have hnd := builtGraph_skelNodup dfa hWF
  rw [skelNodup] at hnd
  have hpw : (builtGraph dfa).edges.Pairwise (fun e f => skel e ≠ skel f) :=
    List.pairwise_map.mp hnd
  apply List.Pairwise.imp_of_mem ?_ hpw
  intro e f he hf hne hsrc htgt hlab
  apply hne
  rcases (mem_builtGraph_edges dfa e).mp he with ⟨q, hq, p, hp, rfl⟩
  rcases (mem_builtGraph_edges dfa f).mp hf with ⟨q2, hq2, p2, hp2, rfl⟩
  have hkey : p.1 = p2.1 := Label.sym.inj hlab
  simp only [skel, Prod.mk.injEq]
  exact ⟨hsrc, htgt, hkey⟩

/-- `dfa'` is `dfa` with its states renamed through `φ` (injectively on the
state set): same states up to the renaming, and each state's transition row
carries the same symbol-to-target entries with renamed targets — the state
list and the rows may come in any order (Python set/dict iteration orders). -/
def DfaRen (φ : Nat → Nat) (dfa dfa' : PyDFA) : Prop :=
  (∀ q₁ ∈ dfa.states, ∀ q₂ ∈ dfa.states, φ q₁ = φ q₂ → q₁ = q₂) ∧
  dfa'.states.Perm (dfa.states.map φ) ∧
  ∀ q ∈ dfa.states, (rowOf dfa' (φ q)).Perm
    ((rowOf dfa q).map (fun p => (p.1, φ p.2)))

/-- The induced renaming on the node indices of the constructed graphs. -/
def renIdx (dfa dfa' : PyDFA) (φ : Nat → Nat) : Nat → Nat :=
  fun i => smIdx dfa'.states (φ (dfa.states.getD i 0))

theorem mem_states_ren (φ : Nat → Nat) (dfa dfa' : PyDFA)
    (hren : DfaRen φ dfa dfa') (x : Nat) :
    x ∈ dfa'.states ↔ ∃ q ∈ dfa.states, x = φ q := by
  rw [hren.2.1.mem_iff, List.mem_map]
  constructor
  · rintro ⟨q, hq, rfl⟩
    exact ⟨q, hq, rfl⟩
  · rintro ⟨q, hq, rfl⟩
    exact ⟨q, hq, rfl⟩

theorem renIdx_smIdx (φ : Nat → Nat) (dfa dfa' : PyDFA) (q : Nat)
    (hq : q ∈ dfa.states) :
    renIdx dfa dfa' φ (smIdx dfa.states q) = smIdx dfa'.states (φ q) := by
  rw [renIdx, (smIdx_spec dfa.states q hq).2]

theorem mem_row_ren (φ : Nat → Nat) (dfa dfa' : PyDFA)
    (hren : DfaRen φ dfa dfa') (q : Nat) (hq : q ∈ dfa.states)
    (p' : Nat × Nat) :
    p' ∈ rowOf dfa' (φ q) ↔ ∃ p ∈ rowOf dfa q, p' = (p.1, φ p.2) := by
  rw [(hren.2.2 q hq).mem_iff, List.mem_map]
  constructor
  · rintro ⟨p, hp, rfl⟩
    exact ⟨p, hp, rfl⟩
  · rintro ⟨p, hp, rfl⟩
    exact ⟨p, hp, rfl⟩

theorem builtGraph_edgeIso (φ : Nat → Nat) (dfa dfa' : PyDFA)
    (hWF : dfaWF dfa) (hren : DfaRen φ dfa dfa') :
    EdgeIso (renIdx dfa dfa' φ) (builtGraph dfa) (builtGraph dfa') := by
  intro e'
  rw [mem_builtGraph_edges]
  constructor
  · rintro ⟨q', hq', p', hp', rfl⟩
    rcases (mem_states_ren φ dfa dfa' hren q').mp hq' with ⟨q, hq, rfl⟩
    rcases (mem_row_ren φ dfa dfa' hren q hq p').mp hp' with ⟨p, hp, rfl⟩
    refine ⟨⟨smIdx dfa.states q, smIdx dfa.states p.2, p.1, Label.sym p.1⟩,
      (mem_builtGraph_edges dfa _).mpr ⟨q, hq, p, hp, rfl⟩, ?_⟩
    have hpt : p.2 ∈ dfa.states := (hWF.2 q hq).2.1 p hp
    rw [renameEdge]
    show Edge.mk _ _ _ _ = Edge.mk _ _ _ _
    rw [renIdx_smIdx φ dfa dfa' q hq, renIdx_smIdx φ dfa dfa' p.2 hpt]
  · rintro ⟨g, hg, rfl⟩
    rcases (mem_builtGraph_edges dfa g).mp hg with ⟨q, hq, p, hp, rfl⟩
    have hpt : p.2 ∈ dfa.states := (hWF.2 q hq).2.1 p hp
    refine ⟨φ q, (mem_states_ren φ dfa dfa' hren (φ q)).mpr ⟨q, hq, rfl⟩,
      (p.1, φ p.2), (mem_row_ren φ dfa dfa' hren q hq _).mpr ⟨p, hp, rfl⟩, ?_⟩
    rw [renameEdge]
    show Edge.mk _ _ _ _ = Edge.mk _ _ _ _
    rw [renIdx_smIdx φ dfa dfa' q hq, renIdx_smIdx φ dfa dfa' p.2 hpt]

theorem builtGraph_node_form (dfa : PyDFA) (hWF : dfaWF dfa) (x : Nat)
    (hx : x ∈ (builtGraph dfa).nodes) :
    ∃ q ∈ dfa.states, x = smIdx dfa.states q := by
  rcases (mem_builtGraph_nodes dfa x).mp hx with ⟨q, hq, p, hp, hor⟩
  rcases hor with rfl | rfl
  · exact ⟨q, hq, rfl⟩
  · exact ⟨p.2, (hWF.2 q hq).2.1 p hp, rfl⟩

theorem builtGraph_touchInj (φ : Nat → Nat) (dfa dfa' : PyDFA)
    (hWF : dfaWF dfa) (hren : DfaRen φ dfa dfa') :
    TouchInj (renIdx dfa dfa' φ) (builtGraph dfa) := by
  intro u v htu htv hπ
  rcases builtGraph_node_form dfa hWF u
    ((builtGraph_nodes_touch dfa u).mpr htu) with ⟨qu, hqu, rfl⟩
  rcases builtGraph_node_form dfa hWF v
    ((builtGraph_nodes_touch dfa v).mpr htv) with ⟨qv, hqv, rfl⟩
  rw [renIdx_smIdx φ dfa dfa' qu hqu, renIdx_smIdx φ dfa dfa' qv hqv] at hπ
  have hφeq : φ qu = φ qv :=
    smIdx_inj dfa'.states (φ qu) (φ qv)
      ((mem_states_ren φ dfa dfa' hren _).mpr ⟨qu, hqu, rfl⟩)
      ((mem_states_ren φ dfa dfa' hren _).mpr ⟨qv, hqv, rfl⟩) hπ
  rw [hren.1 qu hqu qv hqv hφeq]

theorem touches_iso (π : Nat → Nat) (G G' : Graph) (hiso : EdgeIso π G G')
    (x : Nat) : touches G' x ↔ ∃ u, touches G u ∧ x = π u := by
  constructor
  · rintro ⟨e', he', hor⟩
    rcases (hiso e').mp he' with ⟨g, hg, rfl⟩
    rcases hor with h | h
    · exact ⟨g.src, ⟨g, hg, Or.inl rfl⟩, h.symm⟩
    · exact ⟨g.tgt, ⟨g, hg, Or.inr rfl⟩, h.symm⟩
  · rintro ⟨u, ⟨g, hg, hor⟩, rfl⟩
    refine ⟨renameEdge π g, (hiso _).mpr ⟨g, hg, rfl⟩, ?_⟩
    rcases hor with rfl | rfl
    · exact Or.inl rfl
    · exact Or.inr rfl

theorem bool_eq_of_iff (a b : Bool) (h : a = true ↔ b = true) : a = b := by
  cases a <;> cases b <;> simp_all

theorem reach_iso (π : Nat → Nat) (G G' : Graph) (hiso : EdgeIso π G G')
    (hinj : TouchInj π G) (u v : Nat) (htu : touches G u) (htv : touches G v) :
    Reach G u v ↔ Reach G' (π u) (π v) := by
  constructor
  · intro h
    rcases (reach_iff_chain G u v).mp h with ⟨es, hch⟩
    exact (reach_iff_chain G' _ _).mpr
      ⟨es.map (renameEdge π), edgeChain_rename π G G' hiso es u v hch⟩
  · intro h
    rcases (reach_iff_chain G' _ _).mp h with ⟨zs, hch⟩
    rcases chain_pullback π G G' hiso hinj zs u (π v) htu hch with
      ⟨es, b, -, hchb, hπb, htb⟩
    have hbv : b = v := by
      rcases htb with htb | hbu
      · exact hinj b v htb htv hπb
      · rw [hbu]
        exact hinj u v htu htv (by rw [← hbu]; exact hπb)
    rw [← hbv]
    exact (reach_iff_chain G u b).mpr ⟨es, hchb⟩

theorem reaches_iso (π : Nat → Nat) (G G' : Graph) (hiso : EdgeIso π G G')
    (hinj : TouchInj π G) (u v : Nat) (htu : touches G u) (htv : touches G v) :
    reaches G u v = reaches G' (π u) (π v) := by
  apply bool_eq_of_iff
  rw [reaches_iff, reaches_iff]
  exact reach_iso π G G' hiso hinj u v htu htv

theorem builtGraph_nodes_ren (φ : Nat → Nat) (dfa dfa' : PyDFA)
    (hWF : dfaWF dfa) (hren : DfaRen φ dfa dfa') (x : Nat) :
    x ∈ (builtGraph dfa').nodes ↔
      ∃ u ∈ (builtGraph dfa).nodes, x = renIdx dfa dfa' φ u := by
  rw [builtGraph_nodes_touch,
    touches_iso _ _ _ (builtGraph_edgeIso φ dfa dfa' hWF hren)]
  constructor
  · rintro ⟨u, htu, rfl⟩
    exact ⟨u, (builtGraph_nodes_touch dfa u).mpr htu, rfl⟩
  · rintro ⟨u, hu, rfl⟩
    exact ⟨u, (builtGraph_nodes_touch dfa u).mp hu, rfl⟩

theorem compOf_ren (φ : Nat → Nat) (dfa dfa' : PyDFA)
    (hWF : dfaWF dfa) (hren : DfaRen φ dfa dfa') (v : Nat)
    (hv : v ∈ (builtGraph dfa).nodes) (x : Nat) :
    x ∈ compOf (builtGraph dfa') (renIdx dfa dfa' φ v) ↔
      ∃ u ∈ compOf (builtGraph dfa) v, x = renIdx dfa dfa' φ u := by
  have hiso := builtGraph_edgeIso φ dfa dfa' hWF hren
  have hinj := builtGraph_touchInj φ dfa dfa' hWF hren
  have htv : touches (builtGraph dfa) v := (builtGraph_nodes_touch dfa v).mp hv
  rw [mem_compOf_iff]
  constructor
  · rintro ⟨hxN, h1, h2⟩
    rcases (builtGraph_nodes_ren φ dfa dfa' hWF hren x).mp hxN with ⟨u, huN, rfl⟩
    have htu : touches (builtGraph dfa) u := (builtGraph_nodes_touch dfa u).mp huN
    refine ⟨u, ?_, rfl⟩
    rw [mem_compOf_iff]
    refine ⟨huN, ?_, ?_⟩
    · rw [reaches_iso _ _ _ hiso hinj v u htv htu]
      exact h1
    · rw [reaches_iso _ _ _ hiso hinj u v htu htv]
      exact h2
  · rintro ⟨u, hu, rfl⟩
    rcases (mem_compOf_iff _ v u).mp hu with ⟨huN, h1, h2⟩
    have htu : touches (builtGraph dfa) u := (builtGraph_nodes_touch dfa u).mp huN
    refine ⟨(builtGraph_nodes_ren φ dfa dfa' hWF hren _).mpr ⟨u, huN, rfl⟩, ?_, ?_⟩
    · rw [← reaches_iso _ _ _ hiso hinj v u htv htu]
      exact h1
    · rw [← reaches_iso _ _ _ hiso hinj u v htu htv]
      exact h2

theorem touchInj_subgraph (π : Nat → Nat) (G : Graph) (hinj : TouchInj π G)
    (c : List Nat) : TouchInj π (subgraphOf G c) := by
  intro u v htu htv hπ
  apply hinj u v ?_ ?_ hπ
  · rcases htu with ⟨e, he, hor⟩
    exact ⟨e, List.mem_of_mem_filter he, hor⟩
  · rcases htv with ⟨e, he, hor⟩
    exact ⟨e, List.mem_of_mem_filter he, hor⟩

theorem subgraph_edgeIso (φ : Nat → Nat) (dfa dfa' : PyDFA)
    (hWF : dfaWF dfa) (hren : DfaRen φ dfa dfa') (v : Nat)
    (hv : v ∈ (builtGraph dfa).nodes) :
    EdgeIso (renIdx dfa dfa' φ)
      (subgraphOf (builtGraph dfa) (compOf (builtGraph dfa) v))
      (subgraphOf (builtGraph dfa')
        (compOf (builtGraph dfa') (renIdx dfa dfa' φ v))) := by
  have hiso := builtGraph_edgeIso φ dfa dfa' hWF hren
  have hinj := builtGraph_touchInj φ dfa dfa' hWF hren
  intro e'
  constructor
  · intro he'
    rcases List.mem_filter.mp he' with ⟨heG', hcond⟩
    simp only [decide_eq_true_eq] at hcond
    rcases (hiso e').mp heG' with ⟨g, hg, rfl⟩
    have hsrc' : renIdx dfa dfa' φ g.src ∈
        compOf (builtGraph dfa') (renIdx dfa dfa' φ v) := hcond.1
    have htgt' : renIdx dfa dfa' φ g.tgt ∈
        compOf (builtGraph dfa') (renIdx dfa dfa' φ v) := hcond.2
    rcases (compOf_ren φ dfa dfa' hWF hren v hv _).mp hsrc' with ⟨u, hu, hπeq⟩
    rcases (compOf_ren φ dfa dfa' hWF hren v hv _).mp htgt' with ⟨w, hw, hπeq2⟩
    have htu : touches (builtGraph dfa) u :=
      (builtGraph_nodes_touch dfa u).mp ((mem_compOf_iff _ v u).mp hu).1
    have htw : touches (builtGraph dfa) w :=
      (builtGraph_nodes_touch dfa w).mp ((mem_compOf_iff _ v w).mp hw).1
    have hus : u = g.src := hinj u g.src htu ⟨g, hg, Or.inl rfl⟩ hπeq.symm
    have hwt : w = g.tgt := hinj w g.tgt htw ⟨g, hg, Or.inr rfl⟩ hπeq2.symm
    refine ⟨g, List.mem_filter.mpr ⟨hg, ?_⟩, rfl⟩
    simp only [decide_eq_true_eq]
    exact ⟨hus ▸ hu, hwt ▸ hw⟩
  · rintro ⟨g, hg, rfl⟩
    rcases List.mem_filter.mp hg with ⟨hgG, hcond⟩
    simp only [decide_eq_true_eq] at hcond
    apply List.mem_filter.mpr
    refine ⟨(hiso _).mpr ⟨g, hgG, rfl⟩, ?_⟩
    simp only [decide_eq_true_eq]
    constructor
    · exact (compOf_ren φ dfa dfa' hWF hren v hv _).mpr ⟨g.src, hcond.1, rfl⟩
    · exact (compOf_ren φ dfa dfa' hWF hren v hv _).mpr ⟨g.tgt, hcond.2, rfl⟩

theorem attack_comp_ren (φ : Nat → Nat) (dfa dfa' : PyDFA)
    (hWF : dfaWF dfa) (hWF' : dfaWF dfa') (hren : DfaRen φ dfa dfa') (v : Nat)
    (hv : v ∈ (builtGraph dfa).nodes) :
    attack_scc (subgraphOf (builtGraph dfa) (compOf (builtGraph dfa) v)) =
      attack_scc (subgraphOf (builtGraph dfa')
        (compOf (builtGraph dfa') (renIdx dfa dfa' φ v))) := by
  apply bool_eq_of_iff
  rw [attack_scc_iff_sepChar _ (allSymG_subgraph _ (builtGraph_allSym dfa) _)
        (parallelDistinct_subgraph _ (builtGraph_parallelDistinct dfa hWF) _)
        (skelNodup_subgraph _ (builtGraph_skelNodup dfa hWF) _)
        (edgesClosed_subgraph _ (builtGraph_edgesClosed dfa) _)
        (stronglyConnected_subgraph _ (builtGraph_edgesClosed dfa) v),
      attack_scc_iff_sepChar _ (allSymG_subgraph _ (builtGraph_allSym dfa') _)
        (parallelDistinct_subgraph _ (builtGraph_parallelDistinct dfa' hWF') _)
        (skelNodup_subgraph _ (builtGraph_skelNodup dfa' hWF') _)
        (edgesClosed_subgraph _ (builtGraph_edgesClosed dfa') _)
        (stronglyConnected_subgraph _ (builtGraph_edgesClosed dfa')
          (renIdx dfa dfa' φ v))]
  exact sepChar_iff_iso (renIdx dfa dfa' φ) _ _
    (subgraph_edgeIso φ dfa dfa' hWF hren v hv)
    (touchInj_subgraph _ _ (builtGraph_touchInj φ dfa dfa' hWF hren) _)
    (edgesClosed_subgraph _ (builtGraph_edgesClosed dfa) _)
    (stronglyConnected_subgraph _ (builtGraph_edgesClosed dfa) v)

theorem sccs_cover (G : Graph) : ∀ v ∈ G.nodes, ∃ c ∈ sccs G, v ∈ c := by
  have key : ∀ (l : List Nat) (comps : List (List Nat)) (assigned : List Nat),
      l ⊆ G.nodes →
      (∀ x ∈ assigned, ∃ c ∈ comps, x ∈ c) →
      ∀ x, (x ∈ assigned ∨ x ∈ l) →
        ∃ c ∈ (l.foldl
          (fun (acc : List (List Nat) × List Nat) v =>
            if v ∈ acc.2 then acc
            else (acc.1 ++ [compOf G v], acc.2 ++ compOf G v)) (comps, assigned)).1,
          x ∈ c := by
    intro l
    induction l with
    | nil =>
      intro comps assigned _ hinv x hx
      rcases hx with hx | hx
      · exact hinv x hx
      · cases hx
    | cons v l ih =>
      intro comps assigned hsub hinv x hx
      rw [List.foldl_cons]
      by_cases hv : v ∈ assigned
      · rw [if_pos hv]
        apply ih comps assigned (fun y hy => hsub (List.mem_cons_of_mem _ hy)) hinv
        rcases hx with hx | hx
        · exact Or.inl hx
        · rcases List.mem_cons.mp hx with rfl | hx'
          · exact Or.inl hv
          · exact Or.inr hx'
      · rw [if_neg hv]
        have hvN : v ∈ G.nodes := hsub (List.mem_cons_self _ _)
        apply ih _ _ (fun y hy => hsub (List.mem_cons_of_mem _ hy))
        · intro y hy
          rcases List.mem_append.mp hy with hy' | hy'
          · rcases hinv y hy' with ⟨c, hc, hyc⟩
            exact ⟨c, List.mem_append_left _ hc, hyc⟩
          · refine ⟨compOf G v, List.mem_append_right _ ?_, hy'⟩
            exact List.mem_singleton.mpr rfl
        · rcases hx with hx | hx
          · exact Or.inl (List.mem_append_left _ hx)
          · rcases List.mem_cons.mp hx with rfl | hx'
            · exact Or.inl (List.mem_append_right _ (mem_compOf_self G _ hvN))
            · exact Or.inr hx'
  intro v hv
  exact key G.nodes [] [] (fun _ h => h) (by simp) v (Or.inr hv)

theorem decideGo_ren (φ : Nat → Nat) (dfa dfa' : PyDFA)
    (hWF : dfaWF dfa) (hWF' : dfaWF dfa') (hren : DfaRen φ dfa dfa') :
    decideGo (builtGraph dfa') (sccs (builtGraph dfa')) =
      decideGo (builtGraph dfa) (sccs (builtGraph dfa)) := by
  rw [decideGo_eq_all _ _ (sccs_spec (builtGraph dfa')).2,
      decideGo_eq_all _ _ (sccs_spec (builtGraph dfa)).2]
  apply bool_eq_of_iff
  rw [List.all_eq_true, List.all_eq_true]
  constructor
  · intro hall c hc
    simp only [decide_eq_true_eq] at hall ⊢
    rcases (sccs_spec (builtGraph dfa)).1 c hc with ⟨v, hvN, hceq, hvc⟩
    have hπvN : renIdx dfa dfa' φ v ∈ (builtGraph dfa').nodes :=
      (builtGraph_nodes_ren φ dfa dfa' hWF hren _).mpr ⟨v, hvN, rfl⟩
    rcases sccs_cover (builtGraph dfa') _ hπvN with ⟨c', hc', hπvc'⟩
    rcases (sccs_spec (builtGraph dfa')).1 c' hc' with ⟨w', hw'N, hc'eq, hw'c'⟩
    have hcomp : compOf (builtGraph dfa') (renIdx dfa dfa' φ v) = c' := by
      rw [hc'eq]
      exact compOf_congr (builtGraph dfa') _ w' _
        (mem_compOf_self _ _ hπvN) (hc'eq ▸ hπvc')
    have h := hall c' hc'
    rw [hceq, attack_comp_ren φ dfa dfa' hWF hWF' hren v hvN, hcomp]
    exact h
  · intro hall c' hc'
    simp only [decide_eq_true_eq] at hall ⊢
    rcases (sccs_spec (builtGraph dfa')).1 c' hc' with ⟨v', hv'N, hc'eq, hv'c'⟩
    rcases (builtGraph_nodes_ren φ dfa dfa' hWF hren v').mp hv'N with ⟨v, hvN, rfl⟩
    rcases sccs_cover (builtGraph dfa) v hvN with ⟨c, hc, hvc⟩
    rcases (sccs_spec (builtGraph dfa)).1 c hc with ⟨w, hwN, hceq, hwc⟩
    have hcomp : compOf (builtGraph dfa) v = c := by
      rw [hceq]
      exact compOf_congr (builtGraph dfa) v w v
        (mem_compOf_self _ _ hvN) (hceq ▸ hvc)
    have h := hall c hc
    rw [hc'eq, ← attack_comp_ren φ dfa dfa' hWF hWF' hren v hvN, hcomp]
    exact h

/-- C8: `decide_CRASP_membership` is invariant under bijective state
renaming. For a well-formed automaton and a well-formed renamed copy — same
transition structure through a state map injective on the state set, with the
state list and every transition row allowed to come in any order — the
decider returns the same result. -/
theorem C8_rename_invariant (dfa dfa' : PyDFA) (φ : Nat → Nat)
    (hWF : dfaWF dfa) (hWF' : dfaWF dfa') (hren : DfaRen φ dfa dfa') :
    decide_CRASP_membership dfa' = decide_CRASP_membership dfa := by
  rw [decide_CRASP_membership, decide_CRASP_membership,
    automata_to_graph_eq dfa hWF, automata_to_graph_eq dfa' hWF']
  show some (decideGo (builtGraph dfa') (sccs (builtGraph dfa'))) =
    some (decideGo (builtGraph dfa) (sccs (builtGraph dfa)))
  rw [decideGo_ren φ dfa dfa' hWF hWF' hren]

/-- `exDFA` after the state renaming `q ↦ q + 2`, with the state list and
both transition rows listed in a different order. -/
def exDFA2 : PyDFA := ⟨[3, 2], [(3, [(1, 3), (0, 2)]), (2, [(1, 2), (0, 3)])]⟩

/-- C8 witness: renaming invariance instantiated on `exDFA` under the shift
`q ↦ q + 2` with reversed state and row orders. -/
theorem C8_witness :
    dfaWF exDFA ∧ dfaWF exDFA2 ∧ DfaRen (fun q => q + 2) exDFA exDFA2 ∧
      decide_CRASP_membership exDFA2 = decide_CRASP_membership exDFA :=
  ⟨by unfold dfaWF; decide, by unfold dfaWF; decide, by unfold DfaRen; decide,
    C8_rename_invariant exDFA exDFA2 (fun q => q + 2)
      (by unfold dfaWF; decide) (by unfold dfaWF; decide)
      (by unfold DfaRen; decide)⟩
